import Mathlib

/-!
# Unscented Kalman filter (CTRV) and running RMSE meter

A shallow embedding of `src/src/ukf.cpp` and `src/src/tools.cpp` in exact arithmetic.

* Scalars (`double`, `float`) are elements of a linearly ordered field `K` with a floor
  function (`ℝ` and `ℚ` are instances), so every definition below is computable.
* What the two files take from `<cmath>`, from Eigen and from the headers
  (`M_PI`, `EPS`, `sqrt`, `sin`, `cos`, `atan2`, `llt().matrixL()`, `inverse()`) is
  collected in the record `Libm`; the theorems state which properties of these
  routines they rely on as hypotheses.
* `VectorXd` of length `n` is `Fin n → K`, `MatrixXd` of shape `r × c` is
  `Matrix (Fin r) (Fin c) K`.
-/

open Matrix

set_option linter.unusedSectionVars false

/-! ## Library routines and header constants -/

/-- The routines and constants the filter takes from outside the two source files:
`M_PI` (`ukf.cpp:10-12`, positive), `EPS` (declared in `ukf.h`), the `<cmath>` functions
and Eigen's `llt().matrixL()` (on the 7×7 augmented covariance) and `inverse()`. -/
structure Libm (K : Type) [LinearOrderedField K] where
  M_PI : K
  M_PI_pos : 0 < M_PI
  EPS : K
  sqrt : K → K
  sin : K → K
  cos : K → K
  atan2 : K → K → K
  llt : Matrix (Fin 7) (Fin 7) K → Matrix (Fin 7) (Fin 7) K
  inverse : (n : ℕ) → Matrix (Fin n) (Fin n) K → Matrix (Fin n) (Fin n) K

/-! ## Angle normalization (`ukf.cpp:233-234`, `298-299`, `311-312`, `348-349`, ...) -/

/-- The loop `while (a > M_PI) a -= 2.*M_PI;`. -/
def angleLoopDown {K : Type} [LinearOrderedField K] [FloorRing K]
    (pi : K) (hpi : 0 < pi) (a : K) : K :=
  if a > pi then angleLoopDown pi hpi (a - 2 * pi) else a
termination_by (⌈(a - pi) / (2 * pi)⌉).toNat
decreasing_by
  have h2 : (a - 2 * pi - pi) / (2 * pi) = (a - pi) / (2 * pi) - 1 := by
    field_simp
    ring
  rw [h2, Int.ceil_sub_one]
  have h3 : 0 < ⌈(a - pi) / (2 * pi)⌉ := by
    rw [Int.ceil_pos]
    apply div_pos <;> linarith
  omega

/-- The loop `while (a < -M_PI) a += 2.*M_PI;`. -/
def angleLoopUp {K : Type} [LinearOrderedField K] [FloorRing K]
    (pi : K) (hpi : 0 < pi) (a : K) : K :=
  if a < -pi then angleLoopUp pi hpi (a + 2 * pi) else a
termination_by (⌈(-pi - a) / (2 * pi)⌉).toNat
decreasing_by
  have h2 : (-pi - (a + 2 * pi)) / (2 * pi) = (-pi - a) / (2 * pi) - 1 := by
    field_simp
    ring
  rw [h2, Int.ceil_sub_one]
  have h3 : 0 < ⌈(-pi - a) / (2 * pi)⌉ := by
    rw [Int.ceil_pos]
    apply div_pos <;> linarith
  omega

/-- The pair of loops used at every use site:
`while (a > M_PI) a -= 2.*M_PI; while (a < -M_PI) a += 2.*M_PI;`. -/
def normalizeAngle {K : Type} [LinearOrderedField K] [FloorRing K]
    (pi : K) (hpi : 0 < pi) (a : K) : K :=
  angleLoopUp pi hpi (angleLoopDown pi hpi a)


/-! ## Loops and small helpers -/

/-- The accumulation loop `acc = init; for (i = 0; i < n; i++) acc = acc + f(i);`. -/
def sumLoop {M : Type} [Add M] (n : ℕ) (init : M) (f : Fin n → M) : M :=
  (List.finRange n).foldl (fun acc i => acc + f i) init

/-- Column `i` of a matrix (`M.col(i)`). -/
def colOf {K : Type} {r c : ℕ} (M : Matrix (Fin r) (Fin c) K) (i : Fin c) : Fin r → K :=
  fun k => M k i

/-! ## `tools.cpp`: the running RMSE meter -/

/-- The members of `Tools` (declared in `tools.h`): 4-vectors kept between calls. -/
structure Tools (K : Type) where
  mse : Fin 4 → K
  lastmse : Fin 4 → K
  kahanerror : Fin 4 → K
  residual : Fin 4 → K
  rmse : Fin 4 → K

/-- Method `Tools::CalculateRMSE` (`tools.cpp:46-94`). The two validity checks and the tolerance
check only print. `t` is the size of `estimations`; the element `t-1` of both lists is read,
and the result is `none` when that read is out of range (for `t = 0` the index `t-1` is
negative). Returns the value `rmse` and the updated members. -/
def Tools.CalculateRMSE {K : Type} [LinearOrderedField K] (m : Libm K) (self : Tools K)
    (estimations ground_truth : List (Fin 4 → K)) : Option ((Fin 4 → K) × Tools K) :=
  let t : ℕ := estimations.length
  if t = 0 then none
  else
    match estimations.get? (t - 1), ground_truth.get? (t - 1) with
    | some e, some g =>
      let mse := fun i => self.mse i * ((t : K) - 1)
      let residual := e - g
      let residual := residual * residual
      let residual := residual + self.kahanerror
      let mse := mse + residual
      let kahanerror := residual - (mse - self.lastmse)
      let lastmse := mse
      let mse := fun i => mse i / (estimations.length : K)
      let rmse := fun i => m.sqrt (mse i)
      some (rmse, { mse := mse, lastmse := lastmse, kahanerror := kahanerror,
                    residual := residual, rmse := rmse })
    | _, _ => none

/-- The batch computation kept as a comment in `tools.cpp:15-44`: the zero vector on empty
or mismatched input, otherwise the square root of the mean of the squared residuals. -/
def Tools.CalculateRMSE_batch {K : Type} [LinearOrderedField K] (m : Libm K)
    (estimations ground_truth : List (Fin 4 → K)) : Fin 4 → K :=
  let rmse : Fin 4 → K := ![0, 0, 0, 0]
  if estimations.length ≠ ground_truth.length ∨ estimations.length = 0 then rmse
  else
    let rmse := (List.zip estimations ground_truth).foldl
      (fun acc eg =>
        let residual := eg.1 - eg.2
        let residual := residual * residual
        acc + residual) rmse
    let rmse := fun i => rmse i / (estimations.length : K)
    fun i => m.sqrt (rmse i)

/-- The sum of the squared residuals of two histories, accumulated as in the batch loop
(`tools.cpp:28-35`). -/
def sqResidualSum {K : Type} [LinearOrderedField K]
    (estimations ground_truth : List (Fin 4 → K)) : Fin 4 → K :=
  (List.zip estimations ground_truth).foldl
    (fun acc eg => acc + (eg.1 - eg.2) * (eg.1 - eg.2)) 0

/-- The members after the meter has been called `k` times, call `j` (for `j = 1..k`) being
made on the first `j` entries of the two histories. -/
def Tools.afterCalls {K : Type} [LinearOrderedField K] (m : Libm K) (fresh : Tools K)
    (estimations ground_truth : List (Fin 4 → K)) : ℕ → Option (Tools K)
  | 0 => some fresh
  | k + 1 =>
    match Tools.afterCalls m fresh estimations ground_truth k with
    | some self =>
      (self.CalculateRMSE m (estimations.take (k + 1)) (ground_truth.take (k + 1))).map Prod.snd
    | none => none

/-- The value returned by call number `k` (`k ≥ 1`) of the meter in that run. -/
def Tools.kthOutput {K : Type} [LinearOrderedField K] (m : Libm K) (fresh : Tools K)
    (estimations ground_truth : List (Fin 4 → K)) (k : ℕ) : Option (Fin 4 → K) :=
  match Tools.afterCalls m fresh estimations ground_truth (k - 1) with
  | some self =>
    (self.CalculateRMSE m (estimations.take k) (ground_truth.take k)).map Prod.fst
  | none => none

/-! ## `ukf.cpp`: data -/

/-- A measurement package: the sensor kind, the timestamp in microseconds and the raw
vector, of length 2 `(px, py)` for the laser and 3 `(rho, phi, rho_dot)` for the radar. -/
inductive MeasurementPackage (K : Type) where
  | LASER (timestamp_ : ℤ) (raw_measurements_ : Fin 2 → K)
  | RADAR (timestamp_ : ℤ) (raw_measurements_ : Fin 3 → K)

/-- Field `timestamp_`. -/
def MeasurementPackage.timestamp_ {K : Type} : MeasurementPackage K → ℤ
  | .LASER ts _ => ts
  | .RADAR ts _ => ts

/-- The members of `UKF` (declared in `ukf.h`), with `n_x_ = 5`, `n_aug_ = 7` and
`2 * n_aug_ + 1 = 15` fixed in the shapes. -/
structure UKF (K : Type) where
  is_initialized_ : Bool
  use_laser_ : Bool
  use_radar_ : Bool
  x_ : Fin 5 → K
  P_ : Matrix (Fin 5) (Fin 5) K
  std_a_ : K
  std_yawdd_ : K
  std_laspx_ : K
  std_laspy_ : K
  std_radr_ : K
  std_radphi_ : K
  std_radrd_ : K
  n_x_ : ℕ
  n_aug_ : ℕ
  lambda_ : K
  Xsig_aug_ : Matrix (Fin 7) (Fin 15) K
  Xsig_pred_ : Matrix (Fin 5) (Fin 15) K
  weights_ : Fin 15 → K
  R_radar_ : Matrix (Fin 3) (Fin 3) K
  R_laser_ : Matrix (Fin 2) (Fin 2) K
  time_us_ : ℤ

/-- The weights loop of the constructor (`ukf.cpp:67-72`) for a general `n_aug`:
`weights_(0) = lambda/(lambda+n_aug)` and `weights_(i) = 0.5/(n_aug+lambda)` for
`i = 1 .. 2*n_aug`. -/
def sigmaWeights {K : Type} [LinearOrderedField K] (n_aug : ℕ) (lambda : K) :
    Fin (2 * n_aug + 1) → K :=
  fun i => if i.val = 0 then lambda / (lambda + n_aug) else 0.5 / (n_aug + lambda)

/-- The constructor `UKF::UKF()` (`ukf.cpp:18-83`). The members it allocates without
writing (`x_`, `P_`, the two sigma matrices, `time_us_`) keep the content `mem` of the
memory they are given. -/
def UKF.ctor {K : Type} [LinearOrderedField K] (mem : UKF K) : UKF K :=
  let std_laspx_ : K := 0.15
  let std_laspy_ : K := 0.15
  let std_radr_ : K := 0.3
  let std_radphi_ : K := 0.03
  let std_radrd_ : K := 0.3
  let n_x_ : ℕ := 5
  let n_aug_ : ℕ := n_x_ + 2
  let lambda_ : K := 3 - (n_aug_ : K)
  { mem with
    is_initialized_ := false
    use_laser_ := true
    use_radar_ := true
    std_a_ := 3
    std_yawdd_ := 0.5
    std_laspx_ := std_laspx_
    std_laspy_ := std_laspy_
    std_radr_ := std_radr_
    std_radphi_ := std_radphi_
    std_radrd_ := std_radrd_
    n_x_ := n_x_
    n_aug_ := n_aug_
    lambda_ := lambda_
    weights_ := sigmaWeights 7 lambda_
    R_radar_ := !![std_radr_ * std_radr_, 0, 0;
                   0, std_radphi_ * std_radphi_, 0;
                   0, 0, std_radrd_ * std_radrd_]
    R_laser_ := !![std_laspx_ * std_laspx_, 0;
                   0, std_laspy_ * std_laspy_] }

/-- The members that only the constructor writes hold the values it gives them; the flags,
`x_`, `P_`, the sigma matrices and `time_us_` are free. -/
def UKF.Configured {K : Type} [LinearOrderedField K] (self : UKF K) : Prop :=
  self.std_a_ = 3 ∧ self.std_yawdd_ = 0.5 ∧ self.std_laspx_ = 0.15 ∧ self.std_laspy_ = 0.15 ∧
    self.std_radr_ = 0.3 ∧ self.std_radphi_ = 0.03 ∧ self.std_radrd_ = 0.3 ∧
    self.n_x_ = 5 ∧ self.n_aug_ = 7 ∧ self.lambda_ = 3 - 7 ∧
    self.weights_ = sigmaWeights 7 (3 - 7) ∧
    self.R_radar_ = !![0.3 * 0.3, 0, 0; 0, 0.03 * 0.03, 0; 0, 0, 0.3 * 0.3] ∧
    self.R_laser_ = !![0.15 * 0.15, 0; 0, 0.15 * 0.15]

instance {K : Type} [LinearOrderedField K] (self : UKF K) : Decidable self.Configured := by
  unfold UKF.Configured
  infer_instance

/-! ## `ukf.cpp`: prediction -/

/-- The vector `x_aug` of `AugmentSigmaPoints`: `x_` followed by two zeros. -/
def UKF.x_aug {K : Type} [LinearOrderedField K] (self : UKF K) : Fin 7 → K :=
  fun i => if h : i.val < 5 then self.x_ ⟨i.val, h⟩ else 0

/-- The matrix `P_aug` of `AugmentSigmaPoints`: zero, with `P_` in the top left corner,
`std_a_*std_a_` at `(5,5)` and `std_yawdd_*std_yawdd_` at `(6,6)`. -/
def UKF.P_aug {K : Type} [LinearOrderedField K] (self : UKF K) : Matrix (Fin 7) (Fin 7) K :=
  Matrix.of fun i j =>
    if h : i.val < 5 ∧ j.val < 5 then self.P_ ⟨i.val, h.1⟩ ⟨j.val, h.2⟩
    else if i.val = 5 ∧ j.val = 5 then self.std_a_ * self.std_a_
    else if i.val = 6 ∧ j.val = 6 then self.std_yawdd_ * self.std_yawdd_
    else 0

/-- Method `UKF::AugmentSigmaPoints` (`ukf.cpp:149-168`): column 0 is `x_aug`, column `i+1` is
`x_aug + sqrt(lambda_+n_aug_) * A.col(i)` and column `i+1+n_aug_` is
`x_aug - sqrt(lambda_+n_aug_) * A.col(i)` for `i = 0..6`, with `A = P_aug.llt().matrixL()`. -/
def UKF.AugmentSigmaPoints {K : Type} [LinearOrderedField K] (m : Libm K) (self : UKF K) :
    UKF K :=
  let x_aug := self.x_aug
  let P_aug := self.P_aug
  let A := m.llt P_aug
  { self with
    Xsig_aug_ := Matrix.of fun r c =>
      if c.val = 0 then x_aug r
      else if h : c.val - 1 < 7 then
        x_aug r + m.sqrt (self.lambda_ + self.n_aug_) * A r ⟨c.val - 1, h⟩
      else
        x_aug r - m.sqrt (self.lambda_ + self.n_aug_) * A r ⟨c.val - 1 - 7, by omega⟩ }

/-- The body of the loop of `PredictSigmaPoint` (`ukf.cpp:175-214`): the predicted column
for one augmented sigma column. -/
def predictColumn {K : Type} [LinearOrderedField K] (m : Libm K) (delta_t : K)
    (col : Fin 7 → K) : Fin 5 → K :=
  let p_x := col 0
  let p_y := col 1
  let v := col 2
  let yaw := col 3
  let yawd := col 4
  let nu_a := col 5
  let nu_yawdd := col 6
  let px_p :=
    if |yawd| > m.EPS then p_x + v / yawd * (m.sin (yaw + yawd * delta_t) - m.sin yaw)
    else p_x + v * delta_t * m.cos yaw
  let py_p :=
    if |yawd| > m.EPS then p_y + v / yawd * (m.cos yaw - m.cos (yaw + yawd * delta_t))
    else p_y + v * delta_t * m.sin yaw
  let v_p := v
  let yaw_p := yaw + yawd * delta_t
  let yawd_p := yawd
  let px_p := px_p + 0.5 * nu_a * delta_t * delta_t * m.cos yaw
  let py_p := py_p + 0.5 * nu_a * delta_t * delta_t * m.sin yaw
  let v_p := v_p + nu_a * delta_t
  let yaw_p := yaw_p + 0.5 * nu_yawdd * delta_t * delta_t
  let yawd_p := yawd_p + nu_yawdd * delta_t
  ![px_p, py_p, v_p, yaw_p, yawd_p]

/-- Method `UKF::PredictSigmaPoint` (`ukf.cpp:170-216`). -/
def UKF.PredictSigmaPoint {K : Type} [LinearOrderedField K] (m : Libm K) (self : UKF K)
    (delta_t : K) : UKF K :=
  { self with
    Xsig_pred_ := Matrix.of fun r i => predictColumn m delta_t (colOf self.Xsig_aug_ i) r }

/-- A vector with its component `k` angle-normalized
(`while (v(k) > M_PI) v(k) -= 2.*M_PI; while (v(k) < -M_PI) v(k) += 2.*M_PI;`). -/
def normalizeAt {K : Type} [LinearOrderedField K] [FloorRing K] {n : ℕ} (m : Libm K)
    (k : Fin n) (v : Fin n → K) : Fin n → K :=
  Function.update v k (normalizeAngle m.M_PI m.M_PI_pos (v k))

/-- Method `UKF::PredictMeanAndCovariance` (`ukf.cpp:217-240`). -/
def UKF.PredictMeanAndCovariance {K : Type} [LinearOrderedField K] [FloorRing K]
    (m : Libm K) (self : UKF K) : UKF K :=
  let x : Fin 5 → K :=
    sumLoop 15 0 fun i => self.weights_ i • colOf self.Xsig_pred_ i
  let P : Matrix (Fin 5) (Fin 5) K :=
    sumLoop 15 0 fun i =>
      let x_diff := colOf self.Xsig_pred_ i - x
      let x_diff := normalizeAt m 3 x_diff
      self.weights_ i • Matrix.vecMulVec x_diff x_diff
  { self with x_ := x, P_ := P }

/-- Method `UKF::Prediction` (`ukf.cpp:241-245`). -/
def UKF.Prediction {K : Type} [LinearOrderedField K] [FloorRing K]
    (m : Libm K) (self : UKF K) (delta_t : K) : UKF K :=
  ((self.AugmentSigmaPoints m).PredictSigmaPoint m delta_t).PredictMeanAndCovariance m

/-! ## `ukf.cpp`: measurement updates -/

/-- Method `UKF::UpdateLidar` (`ukf.cpp:251-313`) for the raw vector `z` of a laser package. -/
def UKF.UpdateLidar {K : Type} [LinearOrderedField K] [FloorRing K]
    (m : Libm K) (self : UKF K) (z : Fin 2 → K) : UKF K :=
  let Zsig : Matrix (Fin 2) (Fin 15) K := Matrix.of fun r i =>
    let p_x := self.Xsig_pred_ 0 i
    let p_y := self.Xsig_pred_ 1 i
    ![p_x, p_y] r
  let z_pred : Fin 2 → K := sumLoop 15 0 fun i => self.weights_ i • colOf Zsig i
  let S : Matrix (Fin 2) (Fin 2) K :=
    sumLoop 15 0 fun i =>
      let z_diff := colOf Zsig i - z_pred
      self.weights_ i • Matrix.vecMulVec z_diff z_diff
  let S := S + self.R_laser_
  let Tc : Matrix (Fin 5) (Fin 2) K :=
    sumLoop 15 0 fun i =>
      let z_diff := colOf Zsig i - z_pred
      let x_diff := colOf self.Xsig_pred_ i - self.x_
      let x_diff := normalizeAt m 3 x_diff
      self.weights_ i • Matrix.vecMulVec x_diff z_diff
  let K_ := Tc * m.inverse 2 S
  let z_diff := z - z_pred
  let x_ := self.x_ + K_.mulVec z_diff
  let P_ := self.P_ - K_ * S * K_.transpose
  { self with x_ := normalizeAt m 3 x_, P_ := P_ }

/-- The body of the first loop of `UpdateRadar` (`ukf.cpp:328-340`): the measurement-space
image `(r, phi, r_dot)` of one predicted sigma column. The division of `r_dot` has no guard
in the source. Where its divisor `sqrt(p_x*p_x + p_y*p_y)` is zero the program computes
`0/0`, which is not a number, while the division of `K` returns `0`: the value of this
function, and of `UpdateRadar`, is that of the program only for columns with a nonzero
divisor (`UKF.radarDefined`). -/
def radarColumn {K : Type} [LinearOrderedField K] (m : Libm K) (col : Fin 5 → K) :
    Fin 3 → K :=
  let p_x := col 0
  let p_y := col 1
  let v := col 2
  let yaw := col 3
  let v1 := m.cos yaw * v
  let v2 := m.sin yaw * v
  ![m.sqrt (p_x * p_x + p_y * p_y),
    m.atan2 p_y p_x,
    (p_x * v1 + p_y * v2) / m.sqrt (p_x * p_x + p_y * p_y)]

/-- Method `UKF::UpdateRadar` (`ukf.cpp:319-403`) for the raw vector `z` of a radar package. -/
def UKF.UpdateRadar {K : Type} [LinearOrderedField K] [FloorRing K]
    (m : Libm K) (self : UKF K) (z : Fin 3 → K) : UKF K :=
  let Zsig : Matrix (Fin 3) (Fin 15) K :=
    Matrix.of fun r i => radarColumn m (colOf self.Xsig_pred_ i) r
  let z_pred : Fin 3 → K := sumLoop 15 0 fun i => self.weights_ i • colOf Zsig i
  let z_pred := normalizeAt m 1 z_pred
  let S : Matrix (Fin 3) (Fin 3) K :=
    sumLoop 15 0 fun i =>
      let z_diff := colOf Zsig i - z_pred
      let z_diff := normalizeAt m 1 z_diff
      self.weights_ i • Matrix.vecMulVec z_diff z_diff
  let S := S + self.R_radar_
  let Tc : Matrix (Fin 5) (Fin 3) K :=
    sumLoop 15 0 fun i =>
      let z_diff := colOf Zsig i - z_pred
      let z_diff := normalizeAt m 1 z_diff
      let x_diff := colOf self.Xsig_pred_ i - self.x_
      let x_diff := normalizeAt m 3 x_diff
      self.weights_ i • Matrix.vecMulVec x_diff z_diff
  let K_ := Tc * m.inverse 3 S
  let z_diff := z - z_pred
  let z_diff := normalizeAt m 1 z_diff
  let x_ := self.x_ + K_.mulVec z_diff
  let P_ := self.P_ - K_ * S * K_.transpose
  { self with x_ := normalizeAt m 3 x_, P_ := P_ }

/-! ## `ukf.cpp`: the entry point -/

/-- Method `UKF::ProcessMeasurement` (`ukf.cpp:91-141`); the two `cout` lines are left out. -/
def UKF.ProcessMeasurement {K : Type} [LinearOrderedField K] [FloorRing K]
    (m : Libm K) (self : UKF K) (meas_package : MeasurementPackage K) : UKF K :=
  if !self.is_initialized_ then
    let self : UKF K :=
      match meas_package with
      | .RADAR _ raw_measurements_ =>
        let rho := raw_measurements_ 0
        let phi := raw_measurements_ 1
        let rho_dot := raw_measurements_ 2
        let px := rho * m.cos phi
        let py := rho * m.sin phi
        let vx := rho_dot * m.cos phi
        let vy := rho_dot * m.sin phi
        let v := m.sqrt (vx * vx + vy * vy)
        { self with x_ := ![px, py, v, 0, 0] }
      | .LASER _ raw_measurements_ =>
        { self with x_ := ![raw_measurements_ 0, raw_measurements_ 1, 0, 0, 0] }
    let sig : K := 1.0
    { self with
      P_ := !![sig, 0, 0, 0, 0;
               0, sig, 0, 0, 0;
               0, 0, sig, 0, 0;
               0, 0, 0, sig, 0;
               0, 0, 0, 0, sig]
      time_us_ := meas_package.timestamp_
      is_initialized_ := true }
  else
    let delta_t : K := ((meas_package.timestamp_ - self.time_us_ : ℤ) : K) / 1000000.0
    let self : UKF K := { self with time_us_ := meas_package.timestamp_ }
    let self : UKF K := self.Prediction m delta_t
    match meas_package with
    | .RADAR _ raw_measurements_ =>
      if self.use_radar_ = true then self.UpdateRadar m raw_measurements_ else self
    | .LASER _ raw_measurements_ =>
      if self.use_laser_ = true then self.UpdateLidar m raw_measurements_ else self

/-! ## Column indices of the sigma matrices -/

/-- Column `i+1` of a sigma matrix, for `i = 0..6` (`ukf.cpp:165`). -/
def plusCol (i : Fin 7) : Fin 15 := ⟨i.val + 1, by omega⟩

/-- Column `i+1+n_aug_` of a sigma matrix, for `i = 0..6` (`ukf.cpp:166`). -/
def minusCol (i : Fin 7) : Fin 15 := ⟨i.val + 1 + 7, by omega⟩

/-! ## What the library routines are expected to return -/

/-- The matrix `L` is a lower Cholesky factor of `A`: lower triangular with positive diagonal and
`L * Lᵀ = A`; this is what `A.llt().matrixL()` returns on a positive definite `A`. -/
def IsCholeskyFactor {K : Type} [LinearOrderedField K] (A L : Matrix (Fin 7) (Fin 7) K) :
    Prop :=
  (∀ i j, i < j → L i j = 0) ∧ (∀ i, 0 < L i i) ∧ L * L.transpose = A

/-- Positive semi-definite: symmetric with a non-negative quadratic form (for a symmetric
matrix this is the same as all eigenvalues being non-negative). -/
def IsPSD {K : Type} [LinearOrderedField K] {n : ℕ} (M : Matrix (Fin n) (Fin n) K) : Prop :=
  M.IsSymm ∧ ∀ v : Fin n → K, 0 ≤ Matrix.dotProduct v (M.mulVec v)

/-- The matrix `H = [I₂ 0]` of the laser measurement model `Zsig(0,i) = p_x`,
`Zsig(1,i) = p_y` (`ukf.cpp:260-265`). -/
def laserH (K : Type) [LinearOrderedField K] : Matrix (Fin 2) (Fin 5) K :=
  Matrix.of fun r c => if c = Fin.castLE (by omega) r then 1 else 0

/-! ## Concrete inputs used in the instances below -/

/-- Memory holding zeros everywhere, for the members the constructor does not write. -/
def zeroMem {K : Type} [LinearOrderedField K] : UKF K :=
  { is_initialized_ := false, use_laser_ := false, use_radar_ := false, x_ := 0, P_ := 0,
    std_a_ := 0, std_yawdd_ := 0, std_laspx_ := 0, std_laspy_ := 0, std_radr_ := 0,
    std_radphi_ := 0, std_radrd_ := 0, n_x_ := 0, n_aug_ := 0, lambda_ := 0, Xsig_aug_ := 0,
    Xsig_pred_ := 0, weights_ := 0, R_radar_ := 0, R_laser_ := 0, time_us_ := 0 }

/-- An initialized filter with the constructor's configuration, `P_` the identity and the
state `(0, 0, 0, yaw, yawd)`. -/
def yawState {K : Type} [LinearOrderedField K] (yaw yawd : K) : UKF K :=
  { UKF.ctor zeroMem with
    is_initialized_ := true
    x_ := ![0, 0, 0, yaw, yawd]
    P_ := 1 }

/-- A predicted sigma matrix with column 0 zero and columns `i+1`, `i+1+7` equal to plus and
minus the `i`-th unit vector (`i = 0..4`): its weighted mean is 0 and its weighted
covariance is `(1/3)·I`. -/
def unitSigma {K : Type} [LinearOrderedField K] : Matrix (Fin 5) (Fin 15) K :=
  Matrix.of fun r c =>
    if c.val = r.val + 1 then 1 else if c.val = r.val + 1 + 7 then -1 else 0

/-- An initialized filter with the constructor's configuration, state 0, `P_ = (1/3)·I` and
predicted sigma matrix `unitSigma`. -/
def unitState {K : Type} [LinearOrderedField K] : UKF K :=
  { UKF.ctor zeroMem with
    is_initialized_ := true
    x_ := 0
    P_ := (1 / 3 : K) • 1
    Xsig_pred_ := unitSigma }

/-! ## Instrumented loops and named sub-expressions of the source -/

/-- The number of times the body of `while (a > M_PI) a -= 2.*M_PI;` runs from `a`. -/
def angleLoopDownCount {K : Type} [LinearOrderedField K] [FloorRing K]
    (pi : K) (hpi : 0 < pi) (a : K) : ℕ :=
  if a > pi then angleLoopDownCount pi hpi (a - 2 * pi) + 1 else 0
termination_by (⌈(a - pi) / (2 * pi)⌉).toNat
decreasing_by
  have h2 : (a - 2 * pi - pi) / (2 * pi) = (a - pi) / (2 * pi) - 1 := by
    field_simp
    ring
  rw [h2, Int.ceil_sub_one]
  have h3 : 0 < ⌈(a - pi) / (2 * pi)⌉ := by
    rw [Int.ceil_pos]
    apply div_pos <;> linarith
  omega

/-- The number of times the body of `while (a < -M_PI) a += 2.*M_PI;` runs from `a`. -/
def angleLoopUpCount {K : Type} [LinearOrderedField K] [FloorRing K]
    (pi : K) (hpi : 0 < pi) (a : K) : ℕ :=
  if a < -pi then angleLoopUpCount pi hpi (a + 2 * pi) + 1 else 0
termination_by (⌈(-pi - a) / (2 * pi)⌉).toNat
decreasing_by
  have h2 : (-pi - (a + 2 * pi)) / (2 * pi) = (-pi - a) / (2 * pi) - 1 := by
    field_simp
    ring
  rw [h2, Int.ceil_sub_one]
  have h3 : 0 < ⌈(-pi - a) / (2 * pi)⌉ := by
    rw [Int.ceil_pos]
    apply div_pos <;> linarith
  omega

/-- The position written by the turning branch of `PredictSigmaPoint` (`ukf.cpp:189-190`). -/
def ctrvTurn {K : Type} [LinearOrderedField K] (m : Libm K)
    (p_x p_y v yaw yawd delta_t : K) : K × K :=
  (p_x + v / yawd * (m.sin (yaw + yawd * delta_t) - m.sin yaw),
   p_y + v / yawd * (m.cos yaw - m.cos (yaw + yawd * delta_t)))

/-- The position written by the fallback branch of `PredictSigmaPoint`
(`ukf.cpp:193-194`). -/
def ctrvStraight {K : Type} [LinearOrderedField K] (m : Libm K)
    (p_x p_y v yaw delta_t : K) : K × K :=
  (p_x + v * delta_t * m.cos yaw, p_y + v * delta_t * m.sin yaw)

/-- The divisor `sqrt(p_x*p_x + p_y*p_y)` of the range rate `Zsig(2,i)` (`ukf.cpp:340`). -/
def radarDivisor {K : Type} [LinearOrderedField K] (m : Libm K) (col : Fin 5 → K) : K :=
  m.sqrt (col 0 * col 0 + col 1 * col 1)

/-- The domain of the unguarded division of `UpdateRadar` (`ukf.cpp:340`): every predicted
sigma column has a nonzero divisor `sqrt(p_x*p_x + p_y*p_y)`. Outside it the program's
`Zsig(2,i)`, and with it `z_pred`, `S`, `K` and the whole updated state, is not a number. -/
def UKF.radarDefined {K : Type} [LinearOrderedField K] (m : Libm K) (self : UKF K) : Prop :=
  ∀ i : Fin 15, radarDivisor m (colOf self.Xsig_pred_ i) ≠ 0

instance {K : Type} [LinearOrderedField K] (m : Libm K) (self : UKF K) :
    Decidable (self.radarDefined m) := by
  unfold UKF.radarDefined
  infer_instance

/-- The matrix `Zsig` of `UpdateLidar` (`ukf.cpp:256-266`). -/
def UKF.lidar_Zsig {K : Type} [LinearOrderedField K] (self : UKF K) :
    Matrix (Fin 2) (Fin 15) K :=
  Matrix.of fun r i =>
    let p_x := self.Xsig_pred_ 0 i
    let p_y := self.Xsig_pred_ 1 i
    ![p_x, p_y] r

/-- The vector `z_pred` of `UpdateLidar` (`ukf.cpp:268-272`). -/
def UKF.lidar_z_pred {K : Type} [LinearOrderedField K] (self : UKF K) : Fin 2 → K :=
  sumLoop 15 0 fun i => self.weights_ i • colOf self.lidar_Zsig i

/-- The matrix `S` of `UpdateLidar` after the measurement noise is added
(`ukf.cpp:275-284`). -/
def UKF.lidar_S {K : Type} [LinearOrderedField K] (self : UKF K) :
    Matrix (Fin 2) (Fin 2) K :=
  (sumLoop 15 0 fun i =>
    let z_diff := colOf self.lidar_Zsig i - self.lidar_z_pred
    self.weights_ i • Matrix.vecMulVec z_diff z_diff) + self.R_laser_

/-- The matrix `Tc` of `UpdateLidar` (`ukf.cpp:287-302`). -/
def UKF.lidar_Tc {K : Type} [LinearOrderedField K] [FloorRing K] (m : Libm K)
    (self : UKF K) : Matrix (Fin 5) (Fin 2) K :=
  sumLoop 15 0 fun i =>
    let z_diff := colOf self.lidar_Zsig i - self.lidar_z_pred
    let x_diff := colOf self.Xsig_pred_ i - self.x_
    let x_diff := normalizeAt m 3 x_diff
    self.weights_ i • Matrix.vecMulVec x_diff z_diff

/-- An initialized filter as `yawState 0 0` with the two sensor flags set as given. -/
def flagState {K : Type} [LinearOrderedField K] (use_laser use_radar : Bool) : UKF K :=
  { yawState 0 0 with use_laser_ := use_laser, use_radar_ := use_radar }

/-- The state of the constructed filter after a first laser package `(px, py)` with
timestamp `ts`: `x_ = (px, py, 0, 0, 0)`, `P_ = I`. -/
def seedState {K : Type} [LinearOrderedField K] (px py : K) (ts : ℤ) : UKF K :=
  { UKF.ctor zeroMem with
    is_initialized_ := true
    x_ := ![px, py, 0, 0, 0]
    P_ := 1
    time_us_ := ts }

/-- The diagonal of the Cholesky factor of the augmented covariance
`diag(1, 1, 1, 1, 1, 9, 1/4)` of `seedState`. -/
def seedCholDiag {K : Type} [LinearOrderedField K] : Fin 7 → K :=
  ![1, 1, 1, 1, 1, 3, 1 / 2]

/-- Column `j` is the direction in which the `j`-th pair of sigma columns of `seedState` has
moved after `Prediction(0.1)`: the predicted columns are `x ± sqrt(3)·seedSpread[:,j]`. -/
def seedSpread {K : Type} [LinearOrderedField K] : Matrix (Fin 5) (Fin 7) K :=
  !![1, 0, 0.1, 0, 0, 0.015, 0;
     0, 1, 0, 0, 0, 0, 0;
     0, 0, 1, 0, 0, 0.3, 0;
     0, 0, 0, 1, 0.1, 0, 0.0025;
     0, 0, 0, 0, 1, 0, 0.05]

/-! ## Lemmas on the two loops -/

section AngleLemmas

variable {K : Type} [LinearOrderedField K] [FloorRing K]

theorem angleLoopDown_of_le (pi : K) (hpi : 0 < pi) (a : K) (h : a ≤ pi) :
    angleLoopDown pi hpi a = a := by
  rw [angleLoopDown, if_neg (not_lt.mpr h)]

theorem angleLoopDown_of_gt (pi : K) (hpi : 0 < pi) (a : K) (h : pi < a) :
    angleLoopDown pi hpi a = angleLoopDown pi hpi (a - 2 * pi) := by
  rw [angleLoopDown, if_pos h]

theorem angleLoopUp_of_ge (pi : K) (hpi : 0 < pi) (a : K) (h : -pi ≤ a) :
    angleLoopUp pi hpi a = a := by
  rw [angleLoopUp, if_neg (not_lt.mpr h)]

theorem angleLoopUp_of_lt (pi : K) (hpi : 0 < pi) (a : K) (h : a < -pi) :
    angleLoopUp pi hpi a = angleLoopUp pi hpi (a + 2 * pi) := by
  rw [angleLoopUp, if_pos h]

/-- The first loop subtracts a whole number of turns, stops at or below `pi`, leaves values
at or below `pi` alone and never steps from above `pi` to `-pi` or lower. -/
theorem angleLoopDown_spec (pi : K) (hpi : 0 < pi) (a : K) :
    (∃ n : ℕ, angleLoopDown pi hpi a = a - n * (2 * pi)) ∧
      angleLoopDown pi hpi a ≤ pi ∧ (pi < a → -pi < angleLoopDown pi hpi a) := by
  induction a using angleLoopDown.induct pi hpi with
  | case1 a h ih =>
    obtain ⟨⟨n, hn⟩, hle, hgt⟩ := ih
    rw [angleLoopDown_of_gt pi hpi a h]
    refine ⟨⟨n + 1, ?_⟩, hle, fun _ => ?_⟩
    · rw [hn]
      push_cast
      ring
    · by_cases h3 : pi < a - 2 * pi
      · exact hgt h3
      · rw [angleLoopDown_of_le pi hpi _ (not_lt.mp h3)]
        linarith
  | case2 a h =>
    rw [angleLoopDown_of_le pi hpi a (not_lt.mp h)]
    exact ⟨⟨0, by simp⟩, not_lt.mp h, fun h2 => absurd h2 h⟩

/-- The second loop adds a whole number of turns, stops at or above `-pi`, leaves values at
or above `-pi` alone and never steps from below `-pi` to `pi` or higher. -/
theorem angleLoopUp_spec (pi : K) (hpi : 0 < pi) (a : K) :
    (∃ n : ℕ, angleLoopUp pi hpi a = a + n * (2 * pi)) ∧
      -pi ≤ angleLoopUp pi hpi a ∧ (a < -pi → angleLoopUp pi hpi a < pi) := by
  induction a using angleLoopUp.induct pi hpi with
  | case1 a h ih =>
    obtain ⟨⟨n, hn⟩, hge, hlt⟩ := ih
    rw [angleLoopUp_of_lt pi hpi a h]
    refine ⟨⟨n + 1, ?_⟩, hge, fun _ => ?_⟩
    · rw [hn]
      push_cast
      ring
    · by_cases h3 : a + 2 * pi < -pi
      · exact hlt h3
      · rw [angleLoopUp_of_ge pi hpi _ (not_lt.mp h3)]
        linarith
  | case2 a h =>
    rw [angleLoopUp_of_ge pi hpi a (not_lt.mp h)]
    exact ⟨⟨0, by simp⟩, not_lt.mp h, fun h2 => absurd h2 h⟩

/-- On the closed interval `[-pi, pi]` neither loop runs. -/
theorem normalizeAngle_of_mem (pi : K) (hpi : 0 < pi) (a : K) (h1 : -pi ≤ a) (h2 : a ≤ pi) :
    normalizeAngle pi hpi a = a := by
  rw [normalizeAngle, angleLoopDown_of_le pi hpi a h2, angleLoopUp_of_ge pi hpi a h1]

/-- The result always lies in the closed interval `[-pi, pi]`. -/
theorem normalizeAngle_mem_Icc (pi : K) (hpi : 0 < pi) (a : K) :
    normalizeAngle pi hpi a ∈ Set.Icc (-pi) pi := by
  obtain ⟨-, hle, hgt⟩ := angleLoopDown_spec pi hpi a
  obtain ⟨-, hge, hlt⟩ := angleLoopUp_spec pi hpi (angleLoopDown pi hpi a)
  refine ⟨hge, ?_⟩
  by_cases h : angleLoopDown pi hpi a < -pi
  · exact (hlt h).le
  · rw [normalizeAngle, angleLoopUp_of_ge pi hpi _ (not_lt.mp h)]
    exact hle

/-- The result differs from the input by a whole number of turns. -/
theorem normalizeAngle_turns (pi : K) (hpi : 0 < pi) (a : K) :
    ∃ k : ℤ, normalizeAngle pi hpi a = a + k * (2 * pi) := by
  obtain ⟨⟨n, hn⟩, -, -⟩ := angleLoopDown_spec pi hpi a
  obtain ⟨⟨m, hm⟩, -, -⟩ := angleLoopUp_spec pi hpi (angleLoopDown pi hpi a)
  refine ⟨(m : ℤ) - n, ?_⟩
  rw [normalizeAngle, hm, hn]
  push_cast
  ring

/-- Two values of a half-open interval of length one turn that differ by a whole number of
turns are equal. -/
theorem eq_of_turns_of_mem_Ioc (pi : K) (hpi : 0 < pi) (x y : K) (k : ℤ)
    (hx : x ∈ Set.Ioc (-pi) pi) (hy : y ∈ Set.Ioc (-pi) pi) (hk : y = x + k * (2 * pi)) :
    y = x := by
  obtain ⟨hx1, hx2⟩ := hx
  obtain ⟨hy1, hy2⟩ := hy
  have hk0 : k = 0 := by
    by_contra hne
    rcases lt_or_gt_of_ne hne with hlt | hgt
    · have h1 : (k : K) ≤ -1 := by exact_mod_cast Int.le_sub_one_of_lt hlt
      nlinarith
    · have h1 : (1 : K) ≤ k := by exact_mod_cast hgt
      nlinarith
  rw [hk, hk0]
  simp

end AngleLemmas

/-! ## C2: what the two loops compute -/

section AngleClaims

variable {K : Type} [LinearOrderedField K] [FloorRing K]

/-- From a value at or below `-pi` that is an odd multiple of `pi` the second loop stops
exactly at `-pi`. -/
theorem angleLoopUp_odd (pi : K) (hpi : 0 < pi) (k : ℕ) :
    angleLoopUp pi hpi (-pi - k * (2 * pi)) = -pi := by
  induction k with
  | zero =>
    rw [angleLoopUp_of_ge pi hpi _ (by simp)]
    simp
  | succ n ih =>
    have hn : (0 : K) ≤ n := Nat.cast_nonneg n
    have hlt : -pi - ((n + 1 : ℕ) : K) * (2 * pi) < -pi := by
      push_cast
      nlinarith
    rw [angleLoopUp_of_lt pi hpi _ hlt]
    have he : -pi - ((n + 1 : ℕ) : K) * (2 * pi) + 2 * pi = -pi - n * (2 * pi) := by
      push_cast
      ring
    rw [he, ih]

/-- C2 (as stated, refuted): at `θ = -π` neither loop runs, so the result is `-π`, which is
not in the half-open interval `(-π, π]`. -/
theorem normalizeAngle_neg_pi_not_mem_Ioc :
    normalizeAngle Real.pi Real.pi_pos (-Real.pi) = -Real.pi ∧
      normalizeAngle Real.pi Real.pi_pos (-Real.pi) ∉ Set.Ioc (-Real.pi) Real.pi := by
  have h : normalizeAngle Real.pi Real.pi_pos (-Real.pi) = -Real.pi :=
    normalizeAngle_of_mem Real.pi Real.pi_pos (-Real.pi) le_rfl
      (by linarith [Real.pi_pos])
  refine ⟨h, ?_⟩
  rw [h]
  simp

/-- C2 (amended): for every `θ` the two loops return a value of the closed interval
`[-π, π]` that differs from `θ` by an integer multiple of `2π`. When `θ` is not of the form
`-π - 2πk` with `k = 0, 1, 2, ...` the value lies in `(-π, π]` and is the only value there
that differs from `θ` by an integer multiple of `2π`; when `θ = -π - 2πk` the value is
`-π`. -/
theorem normalizeAngle_spec (pi : K) (hpi : 0 < pi) (θ : K) :
    normalizeAngle pi hpi θ ∈ Set.Icc (-pi) pi ∧
      (∃ k : ℤ, normalizeAngle pi hpi θ = θ + k * (2 * pi)) ∧
      ((∀ k : ℕ, θ ≠ -pi - k * (2 * pi)) →
        normalizeAngle pi hpi θ ∈ Set.Ioc (-pi) pi ∧
          ∀ y ∈ Set.Ioc (-pi) pi, (∃ k : ℤ, y = θ + k * (2 * pi)) →
            y = normalizeAngle pi hpi θ) ∧
      (∀ k : ℕ, θ = -pi - k * (2 * pi) → normalizeAngle pi hpi θ = -pi) := by
  have hIcc := normalizeAngle_mem_Icc pi hpi θ
  have hturn := normalizeAngle_turns pi hpi θ
  refine ⟨hIcc, hturn, fun hodd => ?_, fun k hk => ?_⟩
  · have hmem : normalizeAngle pi hpi θ ∈ Set.Ioc (-pi) pi := by
      refine ⟨lt_of_le_of_ne hIcc.1 fun heq => ?_, hIcc.2⟩
      obtain ⟨⟨n, hn⟩, -, -⟩ := angleLoopDown_spec pi hpi θ
      obtain ⟨⟨j, hj⟩, -, -⟩ := angleLoopUp_spec pi hpi (angleLoopDown pi hpi θ)
      by_cases hθ : θ ≤ pi
      · rw [normalizeAngle, angleLoopDown_of_le pi hpi θ hθ] at heq
        rw [angleLoopDown_of_le pi hpi θ hθ] at hj
        apply hodd j
        rw [hj] at heq
        linarith
      · obtain ⟨-, -, hgt⟩ := angleLoopDown_spec pi hpi θ
        have h1 := hgt (not_le.mp hθ)
        rw [normalizeAngle, angleLoopUp_of_ge pi hpi _ h1.le] at heq
        rw [← heq] at h1
        exact lt_irrefl _ h1
    refine ⟨hmem, fun y hy hyk => ?_⟩
    obtain ⟨k, hk⟩ := hyk
    obtain ⟨j, hj⟩ := hturn
    refine eq_of_turns_of_mem_Ioc pi hpi _ y (k - j) hmem hy ?_
    rw [hj, hk]
    push_cast
    ring
  · have hle : θ ≤ pi := by
      have hn : (0 : K) ≤ k := Nat.cast_nonneg k
      rw [hk]
      nlinarith
    rw [normalizeAngle, angleLoopDown_of_le pi hpi θ hle, hk]
    exact angleLoopUp_odd pi hpi k

/-- C2 (amended), instance: in `ℝ` with `π`, at `θ = 7` (not an odd multiple of `π`). -/
theorem normalizeAngle_spec_witness :
    (0 : ℝ) < Real.pi ∧
      normalizeAngle Real.pi Real.pi_pos 7 ∈ Set.Icc (-Real.pi) Real.pi ∧
      ∃ k : ℤ, normalizeAngle Real.pi Real.pi_pos 7 = 7 + k * (2 * Real.pi) :=
  ⟨Real.pi_pos, (normalizeAngle_spec Real.pi Real.pi_pos 7).1,
    (normalizeAngle_spec Real.pi Real.pi_pos 7).2.1⟩

end AngleClaims

/-! ## Loops as sums -/

theorem foldl_add_eq {M ι : Type} [AddCommMonoid M] (f : ι → M) (l : List ι) (init : M) :
    l.foldl (fun acc i => acc + f i) init = init + (l.map f).sum := by
  induction l generalizing init with
  | nil => simp
  | cons a l ih => simp [ih, add_assoc]

/-- The accumulation loop computes `init + ∑ i, f i`. -/
theorem sumLoop_eq {M : Type} [AddCommMonoid M] (n : ℕ) (init : M) (f : Fin n → M) :
    sumLoop n init f = init + ∑ i, f i := by
  rw [sumLoop, foldl_add_eq, Fin.sum_univ_def]

/-! ## C7: the weights -/

section Weights

variable {K : Type} [LinearOrderedField K]

theorem sigmaWeights_zero (n_aug : ℕ) (lambda : K) :
    sigmaWeights n_aug lambda 0 = lambda / (lambda + n_aug) := by
  simp [sigmaWeights]

theorem sigmaWeights_succ (n_aug : ℕ) (lambda : K) (i : Fin (2 * n_aug)) :
    sigmaWeights n_aug lambda i.succ = 0.5 / (n_aug + lambda) := by
  simp [sigmaWeights]

theorem sigmaWeights_sum (n_aug : ℕ) (lambda : K) :
    ∑ i, sigmaWeights n_aug lambda i =
      lambda / (lambda + n_aug) + (2 * n_aug : ℕ) * (0.5 / (n_aug + lambda)) := by
  rw [Fin.sum_univ_succ, sigmaWeights_zero]
  simp only [sigmaWeights_succ, Finset.sum_const, Finset.card_univ, Fintype.card_fin,
    nsmul_eq_mul]

/-- C7: with `lambda = 3 - n_aug` the weights written by the constructor's loop,
`w_0 = lambda/(lambda+n_aug)` and `w_i = 0.5/(n_aug+lambda)` for `i = 1..2*n_aug`, sum to
exactly 1 for every `n_aug` (so for every `n_aug ≥ 1`), both as a sum and as accumulated by a
loop; for the constructed filter (`n_aug = 7`) `w_0 = -4/3`, every other weight is `1/6` and
the fifteen weights sum to 1. -/
theorem weights_sum_eq_one (n_aug : ℕ) (mem : UKF K) :
    ∑ i, sigmaWeights n_aug (3 - (n_aug : K)) i = 1 ∧
      sumLoop (2 * n_aug + 1) 0 (sigmaWeights n_aug (3 - (n_aug : K))) = 1 ∧
      (UKF.ctor mem).weights_ 0 = -4 / 3 ∧
      (∀ i : Fin 15, i ≠ 0 → (UKF.ctor mem).weights_ i = 1 / 6) ∧
      ∑ i, (UKF.ctor mem).weights_ i = 1 := by
  have hsum : ∀ n : ℕ, ∑ i, sigmaWeights n (3 - (n : K)) i = 1 := by
    intro n
    rw [sigmaWeights_sum]
    have h3 : (3 : K) - n + n = 3 := by ring
    have h3' : (n : K) + (3 - n) = 3 := by ring
    rw [h3, h3']
    push_cast
    norm_num
    ring
  refine ⟨hsum n_aug, ?_, ?_, ?_, ?_⟩
  · rw [sumLoop_eq, hsum, zero_add]
  · simp only [UKF.ctor]
    rw [sigmaWeights_zero]
    norm_num
  · intro i hi
    obtain ⟨j, rfl⟩ := Fin.exists_succ_eq.mpr hi
    simp only [UKF.ctor]
    rw [show j.succ = (Fin.succ (n := 2 * 7) j) from rfl, sigmaWeights_succ]
    norm_num
  · have h := hsum 7
    simpa [UKF.ctor] using h

end Weights

/-! ## C5, C6: the first measurement -/

section ColdStart

variable {K : Type} [LinearOrderedField K] [FloorRing K]

/-- The matrix written to `P_` at initialization is the identity. -/
theorem initP_eq_one :
    (!![(1.0 : K), 0, 0, 0, 0; 0, 1.0, 0, 0, 0; 0, 0, 1.0, 0, 0; 0, 0, 0, 1.0, 0;
        0, 0, 0, 0, 1.0] : Matrix (Fin 5) (Fin 5) K) = 1 := by
  have h1 : (1.0 : K) = 1 := by norm_num
  rw [h1]
  ext i j
  fin_cases i <;> fin_cases j <;> rfl

/-- C5: on an uninitialized filter a laser package `(ts, (z_x, z_y))` leaves
`x_ = (z_x, z_y, 0, 0, 0)`, `P_` the 5×5 identity, `is_initialized_ = true` and
`time_us_ = ts`; every other member, in particular the two sigma-point matrices that a
prediction would write, is unchanged. -/
theorem laser_cold_start (m : Libm K) (self : UKF K) (ts : ℤ) (z : Fin 2 → K)
    (h : self.is_initialized_ = false) :
    self.ProcessMeasurement m (.LASER ts z) =
        { self with x_ := ![z 0, z 1, 0, 0, 0], P_ := 1, time_us_ := ts,
                    is_initialized_ := true } ∧
      (self.ProcessMeasurement m (.LASER ts z)).x_ = ![z 0, z 1, 0, 0, 0] ∧
      (self.ProcessMeasurement m (.LASER ts z)).P_ = 1 ∧
      (self.ProcessMeasurement m (.LASER ts z)).is_initialized_ = true ∧
      (self.ProcessMeasurement m (.LASER ts z)).time_us_ = ts ∧
      (self.ProcessMeasurement m (.LASER ts z)).Xsig_aug_ = self.Xsig_aug_ ∧
      (self.ProcessMeasurement m (.LASER ts z)).Xsig_pred_ = self.Xsig_pred_ := by
  have hP := initP_eq_one (K := K)
  have key : self.ProcessMeasurement m (.LASER ts z) =
      { self with x_ := ![z 0, z 1, 0, 0, 0], P_ := 1, time_us_ := ts,
                  is_initialized_ := true } := by
    simp only [UKF.ProcessMeasurement, h, Bool.not_false, if_true, hP,
      MeasurementPackage.timestamp_]
  rw [key]
  exact ⟨rfl, rfl, rfl, rfl, rfl, rfl, rfl⟩

/-- C5, instance (scenario S1): the constructed filter, `ts = 1000000`, raw `(1.0, 2.0)`. -/
theorem laser_cold_start_witness :
    (UKF.ctor (zeroMem : UKF ℝ)).is_initialized_ = false ∧
      ((UKF.ctor (zeroMem : UKF ℝ)).ProcessMeasurement
          ⟨Real.pi, Real.pi_pos, 1 / 1000, Real.sqrt, Real.sin, Real.cos,
            fun y x => Complex.arg ⟨x, y⟩, fun A => Classical.epsilon (IsCholeskyFactor A),
            fun _ M => M⁻¹⟩
          (.LASER 1000000 ![1.0, 2.0])).x_ = ![1.0, 2.0, 0, 0, 0] :=
  ⟨rfl, (laser_cold_start _ (UKF.ctor zeroMem) 1000000 ![1.0, 2.0] rfl).2.1⟩

/-- C6: on an uninitialized filter a radar package `(ts, (ρ, φ, ρ̇))` leaves
`x_ = (ρ cos φ, ρ sin φ, sqrt(vx² + vy²), 0, 0)` with `vx = ρ̇ cos φ`, `vy = ρ̇ sin φ`,
`P_` the 5×5 identity, `is_initialized_ = true` and `time_us_ = ts`, and every other member
unchanged. -/
theorem radar_cold_start (m : Libm K) (self : UKF K) (ts : ℤ) (z : Fin 3 → K)
    (h : self.is_initialized_ = false) :
    self.ProcessMeasurement m (.RADAR ts z) =
        { self with
          x_ := ![z 0 * m.cos (z 1), z 0 * m.sin (z 1),
                  m.sqrt (z 2 * m.cos (z 1) * (z 2 * m.cos (z 1)) +
                    z 2 * m.sin (z 1) * (z 2 * m.sin (z 1))), 0, 0]
          P_ := 1, time_us_ := ts, is_initialized_ := true } ∧
      (self.ProcessMeasurement m (.RADAR ts z)).x_ =
        ![z 0 * m.cos (z 1), z 0 * m.sin (z 1),
          m.sqrt (z 2 * m.cos (z 1) * (z 2 * m.cos (z 1)) +
            z 2 * m.sin (z 1) * (z 2 * m.sin (z 1))), 0, 0] ∧
      (self.ProcessMeasurement m (.RADAR ts z)).P_ = 1 := by
  have hP := initP_eq_one (K := K)
  have key : self.ProcessMeasurement m (.RADAR ts z) =
      { self with
        x_ := ![z 0 * m.cos (z 1), z 0 * m.sin (z 1),
                m.sqrt (z 2 * m.cos (z 1) * (z 2 * m.cos (z 1)) +
                  z 2 * m.sin (z 1) * (z 2 * m.sin (z 1))), 0, 0]
        P_ := 1, time_us_ := ts, is_initialized_ := true } := by
    simp only [UKF.ProcessMeasurement, h, Bool.not_false, if_true, hP,
      MeasurementPackage.timestamp_]
  rw [key]
  exact ⟨rfl, rfl, rfl⟩

/-- C6, instance (scenario S2): in `ℝ` with the real `sqrt`, `sin` and `cos`, the constructed
filter and raw `(5.0, 0.0, 2.0)` give `x_ = (5.0, 0.0, 2.0, 0, 0)`. -/
theorem radar_cold_start_witness :
    (UKF.ctor (zeroMem : UKF ℝ)).is_initialized_ = false ∧
      ((UKF.ctor (zeroMem : UKF ℝ)).ProcessMeasurement
          ⟨Real.pi, Real.pi_pos, 1 / 1000, Real.sqrt, Real.sin, Real.cos,
            fun y x => Complex.arg ⟨x, y⟩, fun A => Classical.epsilon (IsCholeskyFactor A),
            fun _ M => M⁻¹⟩
          (.RADAR 1000000 ![5.0, 0.0, 2.0])).x_ = ![5.0, 0.0, 2.0, 0, 0] := by
  refine ⟨rfl, ?_⟩
  rw [(radar_cold_start _ (UKF.ctor zeroMem) 1000000 ![5.0, 0.0, 2.0] rfl).2.1]
  have h0 : ((0.0 : ℝ)) = 0 := by norm_num
  have h4 : Real.sqrt (2.0 * 2.0 + 0) = 2.0 := by
    rw [add_zero]
    exact Real.sqrt_mul_self (by norm_num)
  simp only [Matrix.cons_val_zero, Matrix.cons_val_one, Matrix.head_cons, Matrix.cons_val_two,
    Matrix.tail_cons, h0, Real.cos_zero, Real.sin_zero, mul_one, mul_zero, h4]

end ColdStart

/-! ## C1: the running RMSE meter against the batch computation -/

section Rmse

variable {K : Type} [LinearOrderedField K]

theorem vec4_zero : (![0, 0, 0, 0] : Fin 4 → K) = 0 := by
  ext i
  fin_cases i <;> rfl

theorem CalculateRMSE_batch_eq (m : Libm K) (es gs : List (Fin 4 → K))
    (hlen : es.length = gs.length) (hne : es.length ≠ 0) :
    Tools.CalculateRMSE_batch m es gs =
      fun i => m.sqrt (sqResidualSum es gs i / (es.length : K)) := by
  simp only [Tools.CalculateRMSE_batch, sqResidualSum, vec4_zero]
  rw [if_neg (not_or.mpr ⟨not_not.mpr hlen, hne⟩)]

theorem sqResidualSum_take_succ (es gs : List (Fin 4 → K)) (k : ℕ) (hk : k < es.length)
    (hk2 : k < gs.length) :
    sqResidualSum (es.take (k + 1)) (gs.take (k + 1)) =
      sqResidualSum (es.take k) (gs.take k) +
        (es.get ⟨k, hk⟩ - gs.get ⟨k, hk2⟩) * (es.get ⟨k, hk⟩ - gs.get ⟨k, hk2⟩) := by
  have h1 : es.take (k + 1) = es.take k ++ [es.get ⟨k, hk⟩] := by
    rw [List.take_succ, List.getElem?_eq_getElem hk]
    rfl
  have h2 : gs.take (k + 1) = gs.take k ++ [gs.get ⟨k, hk2⟩] := by
    rw [List.take_succ, List.getElem?_eq_getElem hk2]
    rfl
  have h3 : (es.take k).length = (gs.take k).length := by
    rw [List.length_take, List.length_take]
    omega
  rw [sqResidualSum, h1, h2, List.zip_append h3, List.foldl_append]
  rfl

/-- One call of the meter on the first `k+1` entries, from members that hold the sum of the
first `k` squared residuals in `lastmse`, `k` times less in `mse` and no carried error:
the call returns the square root of the mean of `k+1` squared residuals and the members
hold the same relation for `k+1`. -/
theorem CalculateRMSE_step (m : Libm K) (self : Tools K) (es gs : List (Fin 4 → K)) (k : ℕ)
    (hk : k < es.length) (hk2 : k < gs.length)
    (hl : self.lastmse = sqResidualSum (es.take k) (gs.take k))
    (hka : self.kahanerror = 0)
    (hm : ∀ i, self.mse i * (k : K) = sqResidualSum (es.take k) (gs.take k) i) :
    ∃ next : Tools K,
      self.CalculateRMSE m (es.take (k + 1)) (gs.take (k + 1)) =
        some (fun i => m.sqrt (sqResidualSum (es.take (k + 1)) (gs.take (k + 1)) i /
          ((k + 1 : ℕ) : K)), next) ∧
      next.lastmse = sqResidualSum (es.take (k + 1)) (gs.take (k + 1)) ∧
      next.kahanerror = 0 ∧
      ∀ i, next.mse i * ((k + 1 : ℕ) : K) =
        sqResidualSum (es.take (k + 1)) (gs.take (k + 1)) i := by
  have hlen : (es.take (k + 1)).length = k + 1 := by
    rw [List.length_take]
    omega
  have hge : (es.take (k + 1)).get? k = some (es.get ⟨k, hk⟩) := by
    rw [List.get?_eq_getElem?, List.getElem?_take_of_lt (by omega),
      List.getElem?_eq_getElem hk]
    rfl
  have hgg : (gs.take (k + 1)).get? k = some (gs.get ⟨k, hk2⟩) := by
    rw [List.get?_eq_getElem?, List.getElem?_take_of_lt (by omega),
      List.getElem?_eq_getElem hk2]
    rfl
  have hmse : (fun i => self.mse i * (((k + 1 : ℕ) : K) - 1)) =
      sqResidualSum (es.take k) (gs.take k) := by
    ext i
    rw [← hm i]
    push_cast
    ring
  have hsucc := sqResidualSum_take_succ es gs k hk hk2
  have hne : ((k + 1 : ℕ) : K) ≠ 0 := by exact_mod_cast Nat.succ_ne_zero k
  rw [hsucc]
  simp only [Tools.CalculateRMSE, hlen, Nat.succ_ne_zero, if_false, Nat.add_sub_cancel, hge, hgg,
    hmse, hka, add_zero, hl]
  refine ⟨_, rfl, rfl, ?_, ?_⟩
  · rw [add_sub_cancel_left, sub_self]
  · intro i
    rw [div_mul_cancel₀ _ hne]

/-- The members after `k` calls (`k` at most the common length of the histories). -/
theorem afterCalls_inv (m : Libm K) (fresh : Tools K) (es gs : List (Fin 4 → K))
    (hm : fresh.mse = 0) (hl : fresh.lastmse = 0) (hka : fresh.kahanerror = 0)
    (hlen : es.length = gs.length) (k : ℕ) (hk : k ≤ es.length) :
    ∃ self : Tools K, Tools.afterCalls m fresh es gs k = some self ∧
      self.lastmse = sqResidualSum (es.take k) (gs.take k) ∧ self.kahanerror = 0 ∧
      ∀ i, self.mse i * (k : K) = sqResidualSum (es.take k) (gs.take k) i := by
  induction k with
  | zero =>
    refine ⟨fresh, rfl, ?_, hka, fun i => ?_⟩
    · simp [sqResidualSum, hl]
    · simp [sqResidualSum, hm]
  | succ n ih =>
    obtain ⟨self, hs, h1, h2, h3⟩ := ih (by omega)
    obtain ⟨next, hc, h4, h5, h6⟩ :=
      CalculateRMSE_step m self es gs n (by omega) (by omega) h1 h2 h3
    refine ⟨next, ?_, h4, h5, h6⟩
    rw [Tools.afterCalls, hs]
    simp only [hc, Option.map_some']

/-- C1: starting from members `mse`, `lastmse`, `kahanerror` equal to zero and calling the
meter at step `j = 1..n` on the first `j` entries of two histories of the same length `n`,
the value returned by call `k` (for every `1 ≤ k ≤ n`) is the value the batch computation
returns on the first `k` entries, that is, component by component,
`sqrt((1/k) * Σ_{i ≤ k} (e_i - g_i)²)`. -/
theorem rmse_meter_eq_batch (m : Libm K) (fresh : Tools K) (es gs : List (Fin 4 → K))
    (hm : fresh.mse = 0) (hl : fresh.lastmse = 0) (hka : fresh.kahanerror = 0)
    (hlen : es.length = gs.length) (k : ℕ) (hk1 : 1 ≤ k) (hkn : k ≤ es.length) :
    Tools.kthOutput m fresh es gs k =
        some (Tools.CalculateRMSE_batch m (es.take k) (gs.take k)) ∧
      ∀ c, Tools.CalculateRMSE_batch m (es.take k) (gs.take k) c =
        m.sqrt (1 / (k : K) *
          ((List.zip (es.take k) (gs.take k)).map fun eg => (eg.1 c - eg.2 c) ^ 2).sum) := by
  obtain ⟨n, rfl⟩ : ∃ n, k = n + 1 := ⟨k - 1, by omega⟩
  have hlen1 : (es.take (n + 1)).length = n + 1 := by
    rw [List.length_take]
    omega
  have hlen2 : (gs.take (n + 1)).length = n + 1 := by
    rw [List.length_take]
    omega
  have hb := CalculateRMSE_batch_eq m (es.take (n + 1)) (gs.take (n + 1))
    (by rw [hlen1, hlen2]) (by rw [hlen1]; exact Nat.succ_ne_zero n)
  rw [hlen1] at hb
  constructor
  · obtain ⟨self, hs, h1, h2, h3⟩ := afterCalls_inv m fresh es gs hm hl hka hlen n (by omega)
    obtain ⟨next, hc, -⟩ :=
      CalculateRMSE_step m self es gs n (by omega) (by omega) h1 h2 h3
    rw [Tools.kthOutput, Nat.add_sub_cancel, hs]
    simp only [hc, Option.map_some', hb]
  · intro c
    rw [hb]
    have hsum : ∀ (l : List ((Fin 4 → K) × (Fin 4 → K))) (init : Fin 4 → K),
        l.foldl (fun acc eg => acc + (eg.1 - eg.2) * (eg.1 - eg.2)) init c =
          init c + (l.map fun eg => (eg.1 c - eg.2 c) ^ 2).sum := by
      intro l
      induction l with
      | nil => intro init; simp
      | cons a l ih =>
        intro init
        rw [List.foldl_cons, ih]
        simp only [List.map_cons, List.sum_cons, Pi.add_apply, Pi.mul_apply, Pi.sub_apply]
        ring
    show m.sqrt (sqResidualSum (es.take (n + 1)) (gs.take (n + 1)) c / ((n + 1 : ℕ) : K)) = _
    rw [sqResidualSum, hsum]
    simp only [Pi.zero_apply, zero_add]
    congr 1
    ring

/-- C1, instance: in `ℝ` with the real `sqrt`, two histories of length 2, second call. -/
theorem rmse_meter_eq_batch_witness :
    Tools.kthOutput
        (⟨Real.pi, Real.pi_pos, 1 / 1000, Real.sqrt, Real.sin, Real.cos,
          fun y x => Complex.arg ⟨x, y⟩, fun A => Classical.epsilon (IsCholeskyFactor A),
          fun _ M => M⁻¹⟩ : Libm ℝ)
        ⟨0, 0, 0, 0, 0⟩ [![1, 2, 3, 4], ![2, 2, 2, 2]] [![1, 1, 1, 1], ![0, 0, 0, 0]] 2 =
      some (Tools.CalculateRMSE_batch
        (⟨Real.pi, Real.pi_pos, 1 / 1000, Real.sqrt, Real.sin, Real.cos,
          fun y x => Complex.arg ⟨x, y⟩, fun A => Classical.epsilon (IsCholeskyFactor A),
          fun _ M => M⁻¹⟩ : Libm ℝ)
        [![1, 2, 3, 4], ![2, 2, 2, 2]] [![1, 1, 1, 1], ![0, 0, 0, 0]]) :=
  (rmse_meter_eq_batch _ ⟨0, 0, 0, 0, 0⟩ [![1, 2, 3, 4], ![2, 2, 2, 2]]
    [![1, 1, 1, 1], ![0, 0, 0, 0]] rfl rfl rfl rfl 2 (by norm_num) (by simp)).1

end Rmse

/-! ## The sigma set and the predicted mean -/

section Sigma

variable {K : Type} [LinearOrderedField K]

/-- A sum over the 15 columns, split into column 0 and the 7 pairs of columns. -/
theorem sum_fin15 {M : Type} [AddCommMonoid M] (g : Fin 15 → M) :
    ∑ i, g i = g 0 + ∑ j : Fin 7, (g (plusCol j) + g (minusCol j)) := by
  rw [Fin.sum_univ_succ, Finset.sum_add_distrib]
  congr 1
  have h := Fin.sum_univ_add (M := M) (a := 7) (b := 7) (fun i => g (Fin.succ i))
  rw [show (∑ i : Fin 14, g i.succ) = ∑ i : Fin (7 + 7), g (Fin.succ i) from rfl, h]
  congr 1

theorem UKF.Configured.weights_zero {self : UKF K} (h : self.Configured) :
    self.weights_ 0 = -4 / 3 := by
  rw [h.2.2.2.2.2.2.2.2.2.2.1, sigmaWeights_zero]
  norm_num

theorem UKF.Configured.weights_plus {self : UKF K} (h : self.Configured) (j : Fin 7) :
    self.weights_ (plusCol j) = 1 / 6 := by
  rw [h.2.2.2.2.2.2.2.2.2.2.1]
  simp only [sigmaWeights, plusCol]
  norm_num

theorem UKF.Configured.weights_minus {self : UKF K} (h : self.Configured) (j : Fin 7) :
    self.weights_ (minusCol j) = 1 / 6 := by
  rw [h.2.2.2.2.2.2.2.2.2.2.1]
  simp only [sigmaWeights, minusCol]
  norm_num

/-- A weighted sum over the 15 columns with the constructor's weights. -/
theorem UKF.Configured.weighted_sum {M : Type} [AddCommGroup M] [Module K M] {self : UKF K}
    (h : self.Configured) (g : Fin 15 → M) :
    ∑ i, self.weights_ i • g i =
      (-4 / 3 : K) • g 0 + (1 / 6 : K) • ∑ j : Fin 7, (g (plusCol j) + g (minusCol j)) := by
  rw [sum_fin15, h.weights_zero, Finset.smul_sum]
  congr 1
  refine Finset.sum_congr rfl fun j _ => ?_
  rw [h.weights_plus, h.weights_minus, smul_add]

theorem AugmentSigmaPoints_col_zero (m : Libm K) (self : UKF K) :
    colOf (self.AugmentSigmaPoints m).Xsig_aug_ 0 = self.x_aug := by
  ext r
  simp [colOf, UKF.AugmentSigmaPoints]

theorem AugmentSigmaPoints_col_plus (m : Libm K) (self : UKF K) (j : Fin 7) :
    colOf (self.AugmentSigmaPoints m).Xsig_aug_ (plusCol j) =
      self.x_aug + m.sqrt (self.lambda_ + self.n_aug_) • colOf (m.llt self.P_aug) j := by
  ext r
  simp [colOf, UKF.AugmentSigmaPoints, plusCol]

theorem AugmentSigmaPoints_col_minus (m : Libm K) (self : UKF K) (j : Fin 7) :
    colOf (self.AugmentSigmaPoints m).Xsig_aug_ (minusCol j) =
      self.x_aug - m.sqrt (self.lambda_ + self.n_aug_) • colOf (m.llt self.P_aug) j := by
  ext r
  have h1 : ¬ (j.val + 1 + 7 - 1 < 7) := by omega
  have h2 : j.val + 1 + 7 - 1 - 7 = j.val := by omega
  simp [colOf, UKF.AugmentSigmaPoints, minusCol, h1, h2]

theorem UKF.Configured.lambda_add {self : UKF K} (h : self.Configured) :
    self.lambda_ + (self.n_aug_ : K) = 3 := by
  rw [h.2.2.2.2.2.2.2.2.2.1, h.2.2.2.2.2.2.2.2.1]
  norm_num

/-- The weighted mean of a symmetric sigma set `c, c + a_j, c - a_j` is its centre `c`. -/
theorem UKF.Configured.weighted_mean_symm {self : UKF K} (h : self.Configured)
    (g : Fin 15 → K) (c : K) (a : Fin 7 → K) (h0 : g 0 = c)
    (hp : ∀ j, g (plusCol j) = c + a j) (hm : ∀ j, g (minusCol j) = c - a j) :
    ∑ i, self.weights_ i * g i = c := by
  have hw := h.weighted_sum g
  simp only [smul_eq_mul] at hw
  rw [hw, h0]
  have h2 : ∀ j : Fin 7, g (plusCol j) + g (minusCol j) = 2 * c := by
    intro j
    rw [hp, hm]
    ring
  simp only [h2, Finset.sum_const, Finset.card_univ, Fintype.card_fin, nsmul_eq_mul]
  push_cast
  ring

/-- C8: for a filter with the constructor's configuration, if `llt` returns a factor `A` of
`P_aug` with `A * Aᵀ = P_aug` (and `sqrt(3)² = 3`, `3 = lambda_ + n_aug_`), the 15 columns
written by `AugmentSigmaPoints` have weighted mean `x_aug` and weighted outer-product sum of
deviations from `x_aug` equal to `P_aug`. -/
theorem sigma_reconstruction (m : Libm K) (self : UKF K) (hc : self.Configured)
    (hA : m.llt self.P_aug * (m.llt self.P_aug).transpose = self.P_aug)
    (hs : m.sqrt 3 * m.sqrt 3 = 3) :
    ∑ i, self.weights_ i • colOf (self.AugmentSigmaPoints m).Xsig_aug_ i = self.x_aug ∧
      ∑ i, self.weights_ i •
        Matrix.vecMulVec (colOf (self.AugmentSigmaPoints m).Xsig_aug_ i - self.x_aug)
          (colOf (self.AugmentSigmaPoints m).Xsig_aug_ i - self.x_aug) = self.P_aug := by
  constructor
  · ext r
    rw [Finset.sum_apply]
    simp only [Pi.smul_apply, smul_eq_mul]
    refine hc.weighted_mean_symm _ (self.x_aug r)
      (fun j => m.sqrt (self.lambda_ + self.n_aug_) * m.llt self.P_aug r j) ?_ ?_ ?_
    · rw [AugmentSigmaPoints_col_zero]
    · intro j
      rw [AugmentSigmaPoints_col_plus]
      rfl
    · intro j
      rw [AugmentSigmaPoints_col_minus]
      rfl
  · rw [hc.weighted_sum]
    simp only [AugmentSigmaPoints_col_zero, AugmentSigmaPoints_col_plus,
      AugmentSigmaPoints_col_minus, hc.lambda_add]
    ext r c
    have hrc : self.P_aug r c = ∑ j, m.llt self.P_aug r j * m.llt self.P_aug c j := by
      conv_lhs => rw [← hA]
      simp only [Matrix.mul_apply, Matrix.transpose_apply]
    rw [hrc]
    simp only [sub_self, add_sub_cancel_left, sub_sub_cancel_left, Matrix.add_apply,
      Matrix.smul_apply, Matrix.sum_apply, Matrix.vecMulVec_apply, Pi.zero_apply, Pi.smul_apply,
      Pi.neg_apply, smul_eq_mul, mul_zero, zero_add, Matrix.mul_apply, Matrix.transpose_apply,
      colOf]
    have h2 : ∀ j : Fin 7,
        m.sqrt 3 * m.llt self.P_aug r j * (m.sqrt 3 * m.llt self.P_aug c j) +
          -(m.sqrt 3 * m.llt self.P_aug r j) * -(m.sqrt 3 * m.llt self.P_aug c j) =
        6 * (m.llt self.P_aug r j * m.llt self.P_aug c j) := by
      intro j
      have e : m.sqrt 3 * m.llt self.P_aug r j * (m.sqrt 3 * m.llt self.P_aug c j) =
          m.sqrt 3 * m.sqrt 3 * (m.llt self.P_aug r j * m.llt self.P_aug c j) := by ring
      rw [neg_mul_neg, e, hs]
      ring
    simp only [h2, ← Finset.mul_sum]
    ring

end Sigma

section Instances

variable {K : Type} [LinearOrderedField K]

/-- The constructor establishes its configuration. -/
theorem ctor_Configured (mem : UKF K) : (UKF.ctor mem).Configured := by
  refine ⟨rfl, rfl, rfl, rfl, rfl, rfl, rfl, rfl, rfl, ?_, ?_, rfl, rfl⟩
  · simp only [UKF.ctor]
    norm_num
  · simp only [UKF.ctor]
    norm_num

theorem yawState_Configured (yaw yawd : K) : (yawState yaw yawd).Configured :=
  ctor_Configured zeroMem

/-- The augmented covariance of `yawState` is `diag(1, 1, 1, 1, 1, 9, 1/4)`, with Cholesky
factor `diag(1, 1, 1, 1, 1, 3, 1/2)`. -/
theorem yawState_cholesky (yaw yawd : K) :
    IsCholeskyFactor (yawState yaw yawd).P_aug (Matrix.diagonal ![1, 1, 1, 1, 1, 3, 1 / 2]) := by
  have hP : (yawState yaw yawd).P_aug =
      Matrix.diagonal ![1, 1, 1, 1, 1, 3 * 3, 0.5 * 0.5] := by
    ext i j
    fin_cases i <;> fin_cases j <;> rfl
  refine ⟨fun i j hij => Matrix.diagonal_apply_ne _ (ne_of_lt hij), fun i => ?_, ?_⟩
  · rw [Matrix.diagonal_apply_eq]
    fin_cases i
    all_goals
      first
      | (show (0 : K) < 1; norm_num)
      | (show (0 : K) < 3; norm_num)
      | (show (0 : K) < 1 / 2; norm_num)
  · rw [Matrix.diagonal_transpose, Matrix.diagonal_mul_diagonal, hP]
    refine congrArg Matrix.diagonal (funext fun i => ?_)
    fin_cases i
    all_goals
      first
      | (show (1 : K) * 1 = 1; norm_num)
      | (show (3 : K) * 3 = 3 * 3; rfl)
      | (show (1 / 2 : K) * (1 / 2) = 0.5 * 0.5; norm_num)

end Instances

/-- C8, instance: in `ℝ`, the state `yawState 0 0` (`P_ = I`), whose augmented covariance
`diag(1, 1, 1, 1, 1, 9, 1/4)` has the Cholesky factor `diag(1, 1, 1, 1, 1, 3, 1/2)`. -/
theorem sigma_reconstruction_witness :
    ∑ i, (yawState (0 : ℝ) 0).weights_ i •
        colOf ((yawState (0 : ℝ) 0).AugmentSigmaPoints
          ⟨Real.pi, Real.pi_pos, 1 / 1000, Real.sqrt, Real.sin, Real.cos,
            fun y x => Complex.arg ⟨x, y⟩, fun A => Classical.epsilon (IsCholeskyFactor A),
            fun _ M => M⁻¹⟩).Xsig_aug_ i = (yawState (0 : ℝ) 0).x_aug :=
  (sigma_reconstruction _ (yawState 0 0) (yawState_Configured 0 0)
    (Classical.epsilon_spec ⟨_, yawState_cholesky (0 : ℝ) 0⟩).2.2
    (Real.mul_self_sqrt (by norm_num))).1

/-! ## Prediction: the predicted mean -/

section PredictionMean

variable {K : Type} [LinearOrderedField K] [FloorRing K]

theorem Prediction_x_ (m : Libm K) (self : UKF K) (delta_t : K) :
    (self.Prediction m delta_t).x_ =
      ∑ i, self.weights_ i •
        predictColumn m delta_t (colOf (self.AugmentSigmaPoints m).Xsig_aug_ i) := by
  simp only [UKF.Prediction, UKF.PredictMeanAndCovariance, sumLoop_eq, zero_add]
  rfl

theorem predictColumn_two (m : Libm K) (delta_t : K) (col : Fin 7 → K) :
    predictColumn m delta_t col 2 = col 2 + col 5 * delta_t := rfl

theorem predictColumn_three (m : Libm K) (delta_t : K) (col : Fin 7 → K) :
    predictColumn m delta_t col 3 =
      col 3 + col 4 * delta_t + 0.5 * col 6 * delta_t * delta_t := rfl

theorem predictColumn_four (m : Libm K) (delta_t : K) (col : Fin 7 → K) :
    predictColumn m delta_t col 4 = col 4 + col 6 * delta_t := rfl

theorem x_aug_three (self : UKF K) : self.x_aug 3 = self.x_ 3 := rfl

theorem x_aug_four (self : UKF K) : self.x_aug 4 = self.x_ 4 := rfl

theorem x_aug_six (self : UKF K) : self.x_aug 6 = 0 := rfl

/-- The predicted mean yaw is `ψ + ψ̇·Δt`: the fifteen predicted yaws are symmetric about
that value and `PredictMeanAndCovariance` does not wrap the mean. -/
theorem Prediction_yaw (m : Libm K) (self : UKF K) (hc : self.Configured) (delta_t : K) :
    (self.Prediction m delta_t).x_ 3 = self.x_ 3 + self.x_ 4 * delta_t := by
  rw [Prediction_x_, Finset.sum_apply]
  simp only [Pi.smul_apply, smul_eq_mul, predictColumn_three]
  refine hc.weighted_mean_symm _ _
    (fun j => m.sqrt (self.lambda_ + self.n_aug_) *
      (m.llt self.P_aug 3 j + m.llt self.P_aug 4 j * delta_t +
        0.5 * m.llt self.P_aug 6 j * delta_t * delta_t)) ?_ ?_ ?_
  · rw [AugmentSigmaPoints_col_zero, x_aug_three, x_aug_four, x_aug_six]
    ring
  · intro j
    rw [AugmentSigmaPoints_col_plus]
    simp only [Pi.add_apply, Pi.smul_apply, smul_eq_mul, x_aug_three, x_aug_four, x_aug_six,
      colOf]
    ring
  · intro j
    rw [AugmentSigmaPoints_col_minus]
    simp only [Pi.sub_apply, Pi.smul_apply, smul_eq_mul, x_aug_three, x_aug_four, x_aug_six,
      colOf]
    ring

end PredictionMean

/-! ## C4: prediction does not wrap the mean yaw -/

section PredictionYaw

variable {K : Type} [LinearOrderedField K] [FloorRing K]

/-- C4 (amended): for a filter with the constructor's configuration and every `Δt` (in
particular `ψ = π − 1e-4`, `Δt > 0`) such that `ψ + ψ̇·Δt > π`, after `Prediction(Δt)` the
yaw component is `ψ + ψ̇·Δt`, unwrapped: it is greater than `π` and so outside `(−π, π]`. -/
theorem prediction_yaw_past_pi (m : Libm K) (self : UKF K) (hc : self.Configured) (delta_t : K)
    (hpast : m.M_PI < self.x_ 3 + self.x_ 4 * delta_t) :
    (self.Prediction m delta_t).x_ 3 = self.x_ 3 + self.x_ 4 * delta_t ∧
      m.M_PI < (self.Prediction m delta_t).x_ 3 ∧
      (self.Prediction m delta_t).x_ 3 ∉ Set.Ioc (-m.M_PI) m.M_PI := by
  have h := Prediction_yaw m self hc delta_t
  refine ⟨h, ?_, fun hmem => ?_⟩
  · rw [h]
    exact hpast
  · rw [h] at hmem
    exact absurd hmem.2 (not_le.mpr hpast)

end PredictionYaw

/-- C4 (as stated, refuted), scenario S4: in `ℝ`, from the state `(0, 0, 0, π − 1e-4, 0.01)`
with `P_ = I`, `Prediction(0.1)` leaves the yaw `π − 1e-4 + 0.001 > π`, outside `(−π, π]`,
whatever the library routines return. -/
theorem prediction_yaw_past_pi_counterexample :
    (yawState (Real.pi - 1e-4) 0.01).x_ 3 = Real.pi - 1e-4 ∧ (0 : ℝ) < 0.1 ∧
      Real.pi < (yawState (Real.pi - 1e-4) 0.01).x_ 3 +
        (yawState (Real.pi - 1e-4) 0.01).x_ 4 * 0.1 ∧
      ∀ m : Libm ℝ,
        ((yawState (Real.pi - 1e-4) 0.01).Prediction m 0.1).x_ 3 =
            Real.pi - 1e-4 + 0.01 * 0.1 ∧
          ((yawState (Real.pi - 1e-4) 0.01).Prediction m 0.1).x_ 3 ∉
            Set.Ioc (-Real.pi) Real.pi := by
  have hx3 : (yawState (Real.pi - 1e-4) 0.01).x_ 3 = Real.pi - 1e-4 := rfl
  have hx4 : (yawState (Real.pi - 1e-4) (0.01 : ℝ)).x_ 4 = 0.01 := rfl
  refine ⟨hx3, by norm_num, ?_, fun m => ?_⟩
  · rw [hx3, hx4]
    norm_num
    linarith
  · have h := Prediction_yaw m _ (yawState_Configured (Real.pi - 1e-4) (0.01 : ℝ)) 0.1
    rw [hx3, hx4] at h
    refine ⟨h, fun hmem => ?_⟩
    rw [h] at hmem
    have h2 := hmem.2
    norm_num at h2
    linarith

/-- C4 (amended), instance: the state of scenario S4 in `ℝ`. -/
theorem prediction_yaw_past_pi_witness :
    ((yawState (Real.pi - 1e-4) 0.01).Prediction
        ⟨Real.pi, Real.pi_pos, 1 / 1000, Real.sqrt, Real.sin, Real.cos,
          fun y x => Complex.arg ⟨x, y⟩, fun A => Classical.epsilon (IsCholeskyFactor A),
          fun _ M => M⁻¹⟩ 0.1).x_ 3 =
      (yawState (Real.pi - 1e-4) 0.01).x_ 3 + (yawState (Real.pi - 1e-4) 0.01).x_ 4 * 0.1 :=
  (prediction_yaw_past_pi _ (yawState (Real.pi - 1e-4) 0.01)
    (yawState_Configured (Real.pi - 1e-4) (0.01 : ℝ)) 0.1
    (by
      show Real.pi < (Real.pi - 1e-4) + 0.01 * 0.1
      norm_num
      linarith)).1

/-! ## C3: the yaw after a measurement update -/

section UpdateYaw

variable {K : Type} [LinearOrderedField K] [FloorRing K]

theorem normalizeAt_same {n : ℕ} (m : Libm K) (k : Fin n) (v : Fin n → K) :
    normalizeAt m k v k = normalizeAngle m.M_PI m.M_PI_pos (v k) := by
  rw [normalizeAt, Function.update_same]

/-- After initialization a laser package runs `Prediction` and then `UpdateLidar`. -/
theorem ProcessMeasurement_laser (m : Libm K) (self : UKF K) (ts : ℤ) (z : Fin 2 → K)
    (hi : self.is_initialized_ = true) (hl : self.use_laser_ = true) :
    self.ProcessMeasurement m (.LASER ts z) =
      (({ self with time_us_ := ts } : UKF K).Prediction m
        (((ts - self.time_us_ : ℤ) : K) / 1000000.0)).UpdateLidar m z := by
  have h : (({ self with time_us_ := ts } : UKF K).Prediction m
      (((ts - self.time_us_ : ℤ) : K) / 1000000.0)).use_laser_ = true := hl
  unfold UKF.ProcessMeasurement
  rw [if_neg (by simp [hi])]
  exact if_pos h

/-- After initialization a radar package runs `Prediction` and then `UpdateRadar`. -/
theorem ProcessMeasurement_radar (m : Libm K) (self : UKF K) (ts : ℤ) (z : Fin 3 → K)
    (hi : self.is_initialized_ = true) (hr : self.use_radar_ = true) :
    self.ProcessMeasurement m (.RADAR ts z) =
      (({ self with time_us_ := ts } : UKF K).Prediction m
        (((ts - self.time_us_ : ℤ) : K) / 1000000.0)).UpdateRadar m z := by
  have h : (({ self with time_us_ := ts } : UKF K).Prediction m
      (((ts - self.time_us_ : ℤ) : K) / 1000000.0)).use_radar_ = true := hr
  unfold UKF.ProcessMeasurement
  rw [if_neg (by simp [hi])]
  exact if_pos h

theorem UpdateLidar_yaw (m : Libm K) (self : UKF K) (z : Fin 2 → K) :
    ∃ y, (self.UpdateLidar m z).x_ 3 = normalizeAngle m.M_PI m.M_PI_pos y := by
  simp only [UKF.UpdateLidar, normalizeAt_same]
  exact ⟨_, rfl⟩

theorem UpdateRadar_yaw (m : Libm K) (self : UKF K) (z : Fin 3 → K) :
    ∃ y, (self.UpdateRadar m z).x_ 3 = normalizeAngle m.M_PI m.M_PI_pos y := by
  simp only [UKF.UpdateRadar, normalizeAt_same]
  exact ⟨_, rfl⟩

/-- C3 (amended): for every initialized filter with both sensors enabled and every laser or
radar package for which the update is defined, the yaw component after `ProcessMeasurement`
is the result of the two normalization loops on the updated yaw, and lies in the closed
interval `[−π, π]`. The update of a radar package is defined when no predicted sigma column
has the divisor `sqrt(p_x*p_x + p_y*p_y) = 0` in the unguarded division of `ukf.cpp:340`
(hypothesis `hd`, on the state that `Prediction` hands to `UpdateRadar`); where a divisor
is zero the program's state is not a number and the yaw is in no interval. The only other
division by a computed value, in `PredictSigmaPoint`, is guarded by `fabs(yawd) > EPS`,
which excludes a zero divisor when `0 ≤ EPS` (hypothesis `hE`); a laser update contains no
division. The library routines are functions into `K`: they return numbers. -/
theorem yaw_after_update_mem_Icc (m : Libm K) (self : UKF K) (meas : MeasurementPackage K)
    (hi : self.is_initialized_ = true) (hl : self.use_laser_ = true)
    (hr : self.use_radar_ = true) (hE : 0 ≤ m.EPS)
    (hd : ∀ ts z, meas = .RADAR ts z →
      (({ self with time_us_ := ts } : UKF K).Prediction m
        (((ts - self.time_us_ : ℤ) : K) / 1000000.0)).radarDefined m) :
    (∃ y, (self.ProcessMeasurement m meas).x_ 3 = normalizeAngle m.M_PI m.M_PI_pos y) ∧
      (self.ProcessMeasurement m meas).x_ 3 ∈ Set.Icc (-m.M_PI) m.M_PI := by
  have _ := hE
  have _ := hd
  have h : ∃ y, (self.ProcessMeasurement m meas).x_ 3 = normalizeAngle m.M_PI m.M_PI_pos y := by
    cases meas with
    | LASER ts z =>
      rw [ProcessMeasurement_laser m self ts z hi hl]
      exact UpdateLidar_yaw m _ z
    | RADAR ts z =>
      rw [ProcessMeasurement_radar m self ts z hi hr]
      exact UpdateRadar_yaw m _ z
  refine ⟨h, ?_⟩
  obtain ⟨y, hy⟩ := h
  rw [hy]
  exact normalizeAngle_mem_Icc m.M_PI m.M_PI_pos y

/-- With `Δt = 0` the position rows of a predicted column are those of the augmented one. -/
theorem predictColumn_zero_dt (m : Libm K) (col : Fin 7 → K) :
    predictColumn m 0 col 0 = col 0 ∧ predictColumn m 0 col 1 = col 1 := by
  constructor
  · show (if |col 4| > m.EPS then col 0 + col 2 / col 4 * (m.sin (col 3 + col 4 * 0) -
        m.sin (col 3)) else col 0 + col 2 * 0 * m.cos (col 3)) +
        0.5 * col 5 * 0 * 0 * m.cos (col 3) = col 0
    split_ifs <;> simp
  · show (if |col 4| > m.EPS then col 1 + col 2 / col 4 * (m.cos (col 3) -
        m.cos (col 3 + col 4 * 0)) else col 1 + col 2 * 0 * m.sin (col 3)) +
        0.5 * col 5 * 0 * 0 * m.sin (col 3) = col 1
    split_ifs <;> simp

/-- When the laser measurement equals the predicted measurement, `UpdateLidar` only
normalizes the yaw of `x_`. -/
theorem UpdateLidar_x_of_eq (m : Libm K) (self : UKF K) (z : Fin 2 → K)
    (hz : z = ∑ i, self.weights_ i • ![self.Xsig_pred_ 0 i, self.Xsig_pred_ 1 i]) :
    (self.UpdateLidar m z).x_ = normalizeAt m 3 self.x_ := by
  have h0 : z - (∑ i, self.weights_ i •
      colOf (Matrix.of fun r i => ![self.Xsig_pred_ 0 i, self.Xsig_pred_ 1 i] r) i) = 0 := by
    rw [hz]
    exact sub_self _
  simp only [UKF.UpdateLidar, sumLoop_eq, zero_add]
  rw [h0, Matrix.mulVec_zero, add_zero]

/-- The laser package that repeats the timestamp of `yawState yaw 0` and reports its
position `(0, 0)` leaves the yaw `normalizeAngle yaw`, whatever the library routines
return. -/
theorem yawState_laser_still (m : Libm K) (yaw : K) :
    ((yawState yaw 0).ProcessMeasurement m (.LASER 0 ![0, 0])).x_ 3 =
      normalizeAngle m.M_PI m.M_PI_pos yaw := by
  have hc := yawState_Configured yaw (0 : K)
  rw [ProcessMeasurement_laser m _ 0 _ rfl rfl]
  have ht : (yawState yaw (0 : K)).time_us_ = 0 := rfl
  have hdt : (((0 - 0 : ℤ) : K) / 1000000.0) = 0 := by simp
  rw [ht, hdt]
  have hs : ({ yawState yaw (0 : K) with time_us_ := 0 } : UKF K) = yawState yaw 0 := rfl
  rw [hs, UpdateLidar_x_of_eq, normalizeAt_same, Prediction_yaw m _ hc]
  · show normalizeAngle m.M_PI m.M_PI_pos (yaw + 0 * 0) = _
    rw [mul_zero, add_zero]
  · ext r
    rw [Finset.sum_apply]
    have hcol : ∀ i,
        ![((yawState yaw (0 : K)).Prediction m 0).Xsig_pred_ 0 i,
          ((yawState yaw (0 : K)).Prediction m 0).Xsig_pred_ 1 i] r =
        colOf ((yawState yaw (0 : K)).AugmentSigmaPoints m).Xsig_aug_ i
          (Fin.castLE (by omega) r) := by
      intro i
      fin_cases r
      · exact (predictColumn_zero_dt m _).1
      · exact (predictColumn_zero_dt m _).2
    simp only [Pi.smul_apply, smul_eq_mul, hcol]
    refine Eq.trans ?_ (hc.weighted_mean_symm
      (fun i => colOf ((yawState yaw (0 : K)).AugmentSigmaPoints m).Xsig_aug_ i
        (Fin.castLE (by omega) r))
      ((yawState yaw (0 : K)).x_aug (Fin.castLE (by omega) r))
      (fun j => m.sqrt ((yawState yaw (0 : K)).lambda_ + (yawState yaw (0 : K)).n_aug_) *
        m.llt (yawState yaw (0 : K)).P_aug (Fin.castLE (by omega) r) j) ?_ ?_ ?_).symm
    · fin_cases r <;> rfl
    · show colOf _ 0 _ = _
      rw [AugmentSigmaPoints_col_zero]
    · intro j
      show colOf _ (plusCol j) _ = _
      rw [AugmentSigmaPoints_col_plus]
      rfl
    · intro j
      show colOf _ (minusCol j) _ = _
      rw [AugmentSigmaPoints_col_minus]
      rfl

end UpdateYaw

/-- C3 (as stated, refuted): in `ℝ`, the initialized filter `yawState (-π) 0` (state
`(0, 0, 0, −π, 0)`, `P_ = I`, both sensors enabled, constructor's configuration) and the
laser package with the same timestamp and raw `(0, 0)`: after `ProcessMeasurement` the yaw
is `−π`, which is not in `(−π, π]`, whatever the library routines return. -/
theorem yaw_after_update_counterexample :
    (yawState (-Real.pi) 0).is_initialized_ = true ∧
      (yawState (-Real.pi) 0).use_laser_ = true ∧ (yawState (-Real.pi) 0).use_radar_ = true ∧
      ∀ m : Libm ℝ, m.M_PI = Real.pi →
        ((yawState (-Real.pi) 0).ProcessMeasurement m (.LASER 0 ![0, 0])).x_ 3 = -Real.pi ∧
          ((yawState (-Real.pi) 0).ProcessMeasurement m (.LASER 0 ![0, 0])).x_ 3 ∉
            Set.Ioc (-m.M_PI) m.M_PI := by
  refine ⟨rfl, rfl, rfl, fun m hm => ?_⟩
  have h : ((yawState (-Real.pi) 0).ProcessMeasurement m (.LASER 0 ![0, 0])).x_ 3 =
      -Real.pi := by
    rw [yawState_laser_still, normalizeAngle_of_mem]
    · rw [hm]
    · rw [hm]
      linarith [Real.pi_pos]
  refine ⟨h, ?_⟩
  rw [h, hm]
  simp

/-! ## C9: symmetry of the covariance -/

section Symmetry

variable {K : Type} [LinearOrderedField K] [FloorRing K]

theorem vecMulVec_self_isSymm {n : ℕ} (d : Fin n → K) : (Matrix.vecMulVec d d).IsSymm := by
  ext i j
  simp only [Matrix.transpose_apply, Matrix.vecMulVec_apply]
  exact mul_comm _ _

theorem mul_mul_transpose_isSymm {r c : ℕ} (G : Matrix (Fin r) (Fin c) K)
    (S : Matrix (Fin c) (Fin c) K) (hS : S.IsSymm) : (G * S * G.transpose).IsSymm := by
  rw [Matrix.IsSymm, Matrix.transpose_mul, Matrix.transpose_mul, Matrix.transpose_transpose,
    hS.eq, Matrix.mul_assoc]

theorem UKF.Configured.R_laser_isSymm {self : UKF K} (h : self.Configured) :
    self.R_laser_.IsSymm := by
  rw [h.2.2.2.2.2.2.2.2.2.2.2.2]
  ext i j
  fin_cases i <;> fin_cases j <;> rfl

end Symmetry

section LaserUpdate

variable {K : Type} [LinearOrderedField K] [FloorRing K]

theorem mul_laserH_transpose_apply (P : Matrix (Fin 5) (Fin 5) K) (r : Fin 5) (b : Fin 2) :
    (P * (laserH K).transpose) r b = P r (Fin.castLE (by omega) b) := by
  simp [Matrix.mul_apply, laserH]

theorem laserH_mul_mul_transpose_apply (P : Matrix (Fin 5) (Fin 5) K) (a b : Fin 2) :
    (laserH K * P * (laserH K).transpose) a b =
      P (Fin.castLE (by omega) a) (Fin.castLE (by omega) b) := by
  rw [Matrix.mul_assoc, Matrix.mul_apply]
  simp only [mul_laserH_transpose_apply]
  simp [laserH]

theorem normalizeAt_of_ne {n : ℕ} (m : Libm K) (k j : Fin n) (v : Fin n → K) (h : j ≠ k) :
    normalizeAt m k v j = v j := by
  rw [normalizeAt, Function.update_noteq h]

/-- The laser update written with `H = [I₂ 0]`: when `x_` is the weighted mean of the
predicted sigma columns and `P_` the weighted sum of the outer products of their
yaw-normalized deviations, `UpdateLidar` computes `S = H P_ Hᵀ + R_laser_`, the gain
`K = P_ Hᵀ S⁻¹` and writes `P_ − K S Kᵀ`. -/
theorem UpdateLidar_P_ (m : Libm K) (self : UKF K) (z : Fin 2 → K)
    (hx : self.x_ = ∑ i, self.weights_ i • colOf self.Xsig_pred_ i)
    (hP : self.P_ = ∑ i, self.weights_ i •
      Matrix.vecMulVec (normalizeAt m 3 (colOf self.Xsig_pred_ i - self.x_))
        (normalizeAt m 3 (colOf self.Xsig_pred_ i - self.x_))) :
    (self.UpdateLidar m z).P_ =
      self.P_ -
        self.P_ * (laserH K).transpose *
            m.inverse 2 (laserH K * self.P_ * (laserH K).transpose + self.R_laser_) *
          (laserH K * self.P_ * (laserH K).transpose + self.R_laser_) *
          (self.P_ * (laserH K).transpose *
            m.inverse 2 (laserH K * self.P_ * (laserH K).transpose + self.R_laser_)).transpose := by
  have hz : ∀ i, colOf (Matrix.of fun r i => ![self.Xsig_pred_ 0 i, self.Xsig_pred_ 1 i] r) i -
      (∑ i, self.weights_ i •
        colOf (Matrix.of fun r i => ![self.Xsig_pred_ 0 i, self.Xsig_pred_ 1 i] r) i) =
      fun a => normalizeAt m 3 (colOf self.Xsig_pred_ i - self.x_) (Fin.castLE (by omega) a) := by
    intro i
    ext a
    have hne : (Fin.castLE (by omega) a : Fin 5) ≠ 3 := by
      fin_cases a <;> decide
    rw [normalizeAt_of_ne m 3 _ _ hne]
    conv_rhs => rw [hx]
    simp only [Pi.sub_apply, Finset.sum_apply, Pi.smul_apply, colOf, Matrix.of_apply]
    fin_cases a <;> rfl
  have hS : (∑ i, self.weights_ i • Matrix.vecMulVec
      (colOf (Matrix.of fun r i => ![self.Xsig_pred_ 0 i, self.Xsig_pred_ 1 i] r) i -
        (∑ i, self.weights_ i •
          colOf (Matrix.of fun r i => ![self.Xsig_pred_ 0 i, self.Xsig_pred_ 1 i] r) i))
      (colOf (Matrix.of fun r i => ![self.Xsig_pred_ 0 i, self.Xsig_pred_ 1 i] r) i -
        (∑ i, self.weights_ i •
          colOf (Matrix.of fun r i => ![self.Xsig_pred_ 0 i, self.Xsig_pred_ 1 i] r) i))) =
      laserH K * self.P_ * (laserH K).transpose := by
    ext a b
    rw [laserH_mul_mul_transpose_apply]
    conv_rhs => rw [hP]
    simp only [hz, Matrix.sum_apply, Matrix.smul_apply, Matrix.vecMulVec_apply]
  have hT : (∑ i, self.weights_ i • Matrix.vecMulVec
      (normalizeAt m 3 (colOf self.Xsig_pred_ i - self.x_))
      (colOf (Matrix.of fun r i => ![self.Xsig_pred_ 0 i, self.Xsig_pred_ 1 i] r) i -
        (∑ i, self.weights_ i •
          colOf (Matrix.of fun r i => ![self.Xsig_pred_ 0 i, self.Xsig_pred_ 1 i] r) i))) =
      self.P_ * (laserH K).transpose := by
    ext r b
    rw [mul_laserH_transpose_apply]
    conv_rhs => rw [hP]
    simp only [hz, Matrix.sum_apply, Matrix.smul_apply, Matrix.vecMulVec_apply]
  simp only [UKF.UpdateLidar, sumLoop_eq, zero_add]
  rw [hT, hS]

theorem IsPSD.conj {r c : ℕ} {M : Matrix (Fin c) (Fin c) K} (hM : IsPSD M)
    (G : Matrix (Fin r) (Fin c) K) : IsPSD (G * M * G.transpose) := by
  refine ⟨mul_mul_transpose_isSymm G M hM.1, fun v => ?_⟩
  have h : Matrix.dotProduct v ((G * M * G.transpose).mulVec v) =
      Matrix.dotProduct (G.transpose.mulVec v) (M.mulVec (G.transpose.mulVec v)) := by
    rw [← Matrix.mulVec_mulVec, ← Matrix.mulVec_mulVec, Matrix.dotProduct_mulVec,
      ← Matrix.mulVec_transpose]
  rw [h]
  exact hM.2 _

theorem IsPSD.add {n : ℕ} {A B : Matrix (Fin n) (Fin n) K} (hA : IsPSD A) (hB : IsPSD B) :
    IsPSD (A + B) := by
  refine ⟨hA.1.add hB.1, fun v => ?_⟩
  rw [Matrix.add_mulVec, Matrix.dotProduct_add]
  exact add_nonneg (hA.2 v) (hB.2 v)

/-- A positive semi-definite matrix has no negative eigenvalue. -/
theorem IsPSD.eigenvalue_nonneg {n : ℕ} {M : Matrix (Fin n) (Fin n) K} (hM : IsPSD M)
    (μ : K) (v : Fin n → K) (hv : v ≠ 0) (he : M.mulVec v = μ • v) : 0 ≤ μ := by
  have h := hM.2 v
  rw [he, Matrix.dotProduct_smul, smul_eq_mul] at h
  have hvv : 0 < Matrix.dotProduct v v := by
    refine lt_of_le_of_ne (Finset.sum_nonneg fun i _ => mul_self_nonneg (v i)) fun h0 => ?_
    exact hv (Matrix.dotProduct_self_eq_zero.mp h0.symm)
  by_contra hneg
  have := mul_neg_of_neg_of_pos (not_le.mp hneg) hvv
  exact absurd h (not_le.mpr this)

theorem R_laser_quadratic (self : UKF K) (hc : self.Configured) (v : Fin 2 → K) :
    Matrix.dotProduct v (self.R_laser_.mulVec v) = 0.15 * 0.15 * (v 0 * v 0 + v 1 * v 1) := by
  rw [hc.2.2.2.2.2.2.2.2.2.2.2.2]
  simp only [Matrix.dotProduct, Matrix.mulVec, Fin.sum_univ_two, Matrix.of_apply,
    Matrix.cons_val_zero, Matrix.cons_val_one, Matrix.head_cons, Matrix.cons_val',
    Matrix.empty_val', Matrix.cons_val_fin_one, Matrix.vecHead]
  ring

theorem R_laser_isPSD (self : UKF K) (hc : self.Configured) : IsPSD self.R_laser_ := by
  refine ⟨hc.R_laser_isSymm, fun v => ?_⟩
  rw [R_laser_quadratic self hc]
  have h0 := mul_self_nonneg (v 0)
  have h1 := mul_self_nonneg (v 1)
  have hr : (0 : K) ≤ 0.15 * 0.15 := by norm_num
  exact mul_nonneg hr (add_nonneg h0 h1)

/-- The innovation covariance `S = H P Hᵀ + R_laser_` of a positive semi-definite `P` has a
non-zero determinant. -/
theorem laser_S_det_ne_zero (self : UKF K) (hc : self.Configured) (hpsd : IsPSD self.P_) :
    (laserH K * self.P_ * (laserH K).transpose + self.R_laser_).det ≠ 0 := by
  intro hdet
  obtain ⟨v, hv, hSv⟩ := Matrix.exists_mulVec_eq_zero_iff.mpr hdet
  have h1 : Matrix.dotProduct v
      ((laserH K * self.P_ * (laserH K).transpose + self.R_laser_).mulVec v) = 0 := by
    rw [hSv, Matrix.dotProduct_zero]
  rw [Matrix.add_mulVec, Matrix.dotProduct_add, R_laser_quadratic self hc] at h1
  have h2 := (hpsd.conj (laserH K)).2 v
  have hvv : 0 < v 0 * v 0 + v 1 * v 1 := by
    have h0 := mul_self_nonneg (v 0)
    have h1 := mul_self_nonneg (v 1)
    refine lt_of_le_of_ne (add_nonneg h0 h1) fun hz => hv ?_
    have hz0 : v 0 * v 0 = 0 := by linarith
    have hz1 : v 1 * v 1 = 0 := by linarith
    ext i
    fin_cases i
    · exact mul_self_eq_zero.mp hz0
    · exact mul_self_eq_zero.mp hz1
  have hr : (0 : K) < 0.15 * 0.15 := by norm_num
  have := mul_pos hr hvv
  linarith

/-- Joseph form of the covariance update: with `K S = P Hᵀ`, `S = H P Hᵀ + R` and symmetric
`P`, `S`, the matrix `P − K S Kᵀ` is `(I − K H) P (I − K H)ᵀ + K R Kᵀ`. -/
theorem joseph_form (P : Matrix (Fin 5) (Fin 5) K) (H : Matrix (Fin 2) (Fin 5) K)
    (R S : Matrix (Fin 2) (Fin 2) K) (G : Matrix (Fin 5) (Fin 2) K)
    (hP : P.IsSymm) (hSs : S.IsSymm) (hS : S = H * P * H.transpose + R)
    (hG : G * S = P * H.transpose) :
    P - G * S * G.transpose =
      (1 - G * H) * P * (1 - G * H).transpose + G * R * G.transpose := by
  have e1 : P * H.transpose * G.transpose = G * S * G.transpose := by rw [hG]
  have e2 : G * H * P = G * S * G.transpose := by
    have : H * P = S * G.transpose := by
      have h := congrArg Matrix.transpose hG
      rw [Matrix.transpose_mul, Matrix.transpose_mul, Matrix.transpose_transpose, hSs.eq,
        hP.eq] at h
      exact h.symm
    rw [Matrix.mul_assoc, this, Matrix.mul_assoc]
  have e3 : G * H * P * H.transpose * G.transpose + G * R * G.transpose =
      G * S * G.transpose := by
    rw [hS, Matrix.mul_add, Matrix.add_mul]
    simp only [Matrix.mul_assoc]
  have e4 : (1 - G * H) * P * (1 - G * H).transpose =
      P - P * H.transpose * G.transpose - G * H * P +
        G * H * P * H.transpose * G.transpose := by
    rw [Matrix.transpose_sub, Matrix.transpose_one, Matrix.transpose_mul]
    simp only [Matrix.sub_mul, Matrix.mul_sub, Matrix.one_mul, Matrix.mul_one, Matrix.mul_assoc]
    abel
  rw [e4, add_assoc, e3, e1, e2]
  abel

/-- C10: for a filter with the constructor's configuration, if on entry to `UpdateLidar`
`x_` is the weighted mean of the predicted sigma columns, `P_` is the weighted sum of the
outer products of their yaw-normalized deviations (the state left by `Prediction`) and `P_`
is symmetric positive semi-definite, then the covariance `P_ − K·S·Kᵀ` written by
`UpdateLidar` is positive semi-definite, and none of its eigenvalues is negative. `inverse`
is assumed to return a left inverse of every matrix with non-zero determinant. -/
theorem lidar_update_psd (m : Libm K) (self : UKF K) (z : Fin 2 → K) (hc : self.Configured)
    (hinv : ∀ M : Matrix (Fin 2) (Fin 2) K, M.det ≠ 0 → m.inverse 2 M * M = 1)
    (hx : self.x_ = ∑ i, self.weights_ i • colOf self.Xsig_pred_ i)
    (hP : self.P_ = ∑ i, self.weights_ i •
      Matrix.vecMulVec (normalizeAt m 3 (colOf self.Xsig_pred_ i - self.x_))
        (normalizeAt m 3 (colOf self.Xsig_pred_ i - self.x_)))
    (hpsd : IsPSD self.P_) :
    IsPSD (self.UpdateLidar m z).P_ ∧
      ∀ (μ : K) (v : Fin 5 → K), v ≠ 0 → (self.UpdateLidar m z).P_.mulVec v = μ • v →
        0 ≤ μ := by
  have key : IsPSD (self.UpdateLidar m z).P_ := by
    rw [UpdateLidar_P_ m self z hx hP]
    have hdet := laser_S_det_ne_zero self hc hpsd
    have hSs : (laserH K * self.P_ * (laserH K).transpose + self.R_laser_).IsSymm :=
      ((hpsd.conj (laserH K)).1).add hc.R_laser_isSymm
    have hG : self.P_ * (laserH K).transpose *
        m.inverse 2 (laserH K * self.P_ * (laserH K).transpose + self.R_laser_) *
        (laserH K * self.P_ * (laserH K).transpose + self.R_laser_) =
        self.P_ * (laserH K).transpose := by
      rw [Matrix.mul_assoc, hinv _ hdet, Matrix.mul_one]
    rw [joseph_form self.P_ (laserH K) self.R_laser_ _ _ hpsd.1 hSs rfl hG]
    exact (hpsd.conj _).add ((R_laser_isPSD self hc).conj _)
  exact ⟨key, fun μ v hv he => key.eigenvalue_nonneg μ v hv he⟩

end LaserUpdate

section UnitState

variable {K : Type} [LinearOrderedField K] [FloorRing K]

theorem unitState_Configured : (unitState : UKF K).Configured := ctor_Configured zeroMem

theorem unitSigma_col_zero : colOf (unitSigma : Matrix (Fin 5) (Fin 15) K) 0 = 0 := by
  ext r
  simp [colOf, unitSigma]

theorem unitSigma_col_plus (j : Fin 7) :
    colOf (unitSigma : Matrix (Fin 5) (Fin 15) K) (plusCol j) =
      fun r => if j.val = r.val then 1 else 0 := by
  ext r
  have h : ¬ (j.val + 1 = r.val + 1 + 7) := by omega
  simp [colOf, unitSigma, plusCol, h]

theorem unitSigma_col_minus (j : Fin 7) :
    colOf (unitSigma : Matrix (Fin 5) (Fin 15) K) (minusCol j) =
      fun r => if j.val = r.val then -1 else 0 := by
  ext r
  have h : ¬ (j.val + 1 + 7 = r.val + 1) := by omega
  simp [colOf, unitSigma, minusCol, h]

theorem unitState_x_ :
    (unitState : UKF K).x_ =
      ∑ i, (unitState : UKF K).weights_ i • colOf (unitState : UKF K).Xsig_pred_ i := by
  ext r
  rw [Finset.sum_apply]
  simp only [Pi.smul_apply, smul_eq_mul]
  refine ((unitState_Configured (K := K)).weighted_mean_symm _ 0
    (fun j => if j.val = r.val then 1 else 0) ?_ ?_ ?_).symm
  · exact congrFun unitSigma_col_zero r
  · intro j
    rw [zero_add]
    exact congrFun (unitSigma_col_plus j) r
  · intro j
    rw [zero_sub]
    have h : colOf (unitState : UKF K).Xsig_pred_ (minusCol j) r =
        if j.val = r.val then -1 else 0 := congrFun (unitSigma_col_minus j) r
    rw [h]
    beta_reduce
    split_ifs <;> simp

theorem unitState_normalizeAt (m : Libm K) (hpi : 1 ≤ m.M_PI) (i : Fin 15) :
    normalizeAt m 3 (colOf (unitState : UKF K).Xsig_pred_ i - (unitState : UKF K).x_) =
      colOf (unitSigma : Matrix (Fin 5) (Fin 15) K) i := by
  have hx : (unitState : UKF K).x_ = 0 := rfl
  have hX : (unitState : UKF K).Xsig_pred_ = unitSigma := rfl
  rw [hx, hX, sub_zero, normalizeAt]
  have hmem : -m.M_PI ≤ colOf (unitSigma : Matrix (Fin 5) (Fin 15) K) i 3 ∧
      colOf (unitSigma : Matrix (Fin 5) (Fin 15) K) i 3 ≤ m.M_PI := by
    simp only [colOf, unitSigma, Matrix.of_apply]
    split_ifs <;> constructor <;> linarith
  rw [normalizeAngle_of_mem _ _ _ hmem.1 hmem.2, Function.update_eq_self]

theorem unitState_P_ (m : Libm K) (hpi : 1 ≤ m.M_PI) :
    (unitState : UKF K).P_ =
      ∑ i, (unitState : UKF K).weights_ i •
        Matrix.vecMulVec
          (normalizeAt m 3 (colOf (unitState : UKF K).Xsig_pred_ i - (unitState : UKF K).x_))
          (normalizeAt m 3 (colOf (unitState : UKF K).Xsig_pred_ i - (unitState : UKF K).x_)) := by
  simp only [unitState_normalizeAt m hpi]
  rw [(unitState_Configured (K := K)).weighted_sum]
  simp only [unitSigma_col_zero, unitSigma_col_plus, unitSigma_col_minus]
  ext r c
  have hP : (unitState : UKF K).P_ r c = if r = c then 1 / 3 else 0 := by
    show ((1 / 3 : K) • (1 : Matrix (Fin 5) (Fin 5) K)) r c = _
    rw [Matrix.smul_apply, Matrix.one_apply]
    split_ifs <;> simp
  rw [hP]
  simp only [Matrix.add_apply, Matrix.smul_apply, Matrix.sum_apply, Matrix.vecMulVec_apply,
    Pi.zero_apply, mul_zero, smul_eq_mul, zero_add]
  have hterm : ∀ j : Fin 7,
      ((if j.val = r.val then (1 : K) else 0) * (if j.val = c.val then 1 else 0) +
        (if j.val = r.val then (-1 : K) else 0) * (if j.val = c.val then -1 else 0)) =
      if j = Fin.castLE (by omega) r then (if r = c then 2 else 0) else 0 := by
    intro j
    have e1 : j = Fin.castLE (by omega) r ↔ j.val = r.val := by
      rw [Fin.ext_iff]
      rfl
    have e2 : r = c ↔ r.val = c.val := Fin.ext_iff
    by_cases h1 : j.val = r.val
    · by_cases h2 : j.val = c.val
      · have h3 : r.val = c.val := by omega
        simp [e1, e2, h1, h2, h3]
        norm_num
      · have h3 : ¬ r.val = c.val := by omega
        simp [e1, e2, h1, h2, h3]
    · simp [e1, h1]
  simp only [hterm, Finset.sum_ite_eq', Finset.mem_univ, if_true]
  split_ifs <;> norm_num

theorem unitState_isPSD : IsPSD (unitState : UKF K).P_ := by
  have hP : (unitState : UKF K).P_ = (1 / 3 : K) • 1 := rfl
  rw [hP]
  refine ⟨?_, fun v => ?_⟩
  · rw [Matrix.IsSymm, Matrix.transpose_smul, Matrix.transpose_one]
  · rw [Matrix.smul_mulVec_assoc, Matrix.one_mulVec, Matrix.dotProduct_smul, smul_eq_mul]
    exact mul_nonneg (by norm_num) (Finset.sum_nonneg fun i _ => mul_self_nonneg (v i))

end UnitState

/-- C10, instance: in `ℝ`, the filter `unitState` (`P_ = (1/3)·I`, the weighted covariance
of its predicted sigma matrix) and the laser measurement `(1.0, 2.0)`. -/
theorem lidar_update_psd_witness :
    IsPSD ((unitState : UKF ℝ).UpdateLidar
      ⟨Real.pi, Real.pi_pos, 1 / 1000, Real.sqrt, Real.sin, Real.cos,
        fun y x => Complex.arg ⟨x, y⟩, fun A => Classical.epsilon (IsCholeskyFactor A),
        fun _ M => M⁻¹⟩ ![1.0, 2.0]).P_ :=
  (lidar_update_psd
    (⟨Real.pi, Real.pi_pos, 1 / 1000, Real.sqrt, Real.sin, Real.cos,
      fun y x => Complex.arg ⟨x, y⟩, fun A => Classical.epsilon (IsCholeskyFactor A),
      fun _ M => M⁻¹⟩ : Libm ℝ)
    unitState ![1.0, 2.0] unitState_Configured
    (fun M hM => Matrix.nonsing_inv_mul M (isUnit_iff_ne_zero.mpr hM))
    unitState_x_
    (unitState_P_ _ (by
      show (1 : ℝ) ≤ Real.pi
      linarith [Real.pi_gt_three]))
    unitState_isPSD).1

/-! ## C11: a disabled sensor -/

section DisabledSensor

variable {K : Type} [LinearOrderedField K] [FloorRing K]

/-- With the laser disabled, a laser package after initialization only runs `Prediction`. -/
theorem ProcessMeasurement_laser_off (m : Libm K) (self : UKF K) (ts : ℤ) (z : Fin 2 → K)
    (hi : self.is_initialized_ = true) (hl : self.use_laser_ = false) :
    self.ProcessMeasurement m (.LASER ts z) =
      ({ self with time_us_ := ts } : UKF K).Prediction m
        (((ts - self.time_us_ : ℤ) : K) / 1000000.0) := by
  have h : ¬ (({ self with time_us_ := ts } : UKF K).Prediction m
      (((ts - self.time_us_ : ℤ) : K) / 1000000.0)).use_laser_ = true := by
    show ¬ self.use_laser_ = true
    rw [hl]
    exact Bool.false_ne_true
  unfold UKF.ProcessMeasurement
  rw [if_neg (by simp [hi])]
  exact if_neg h

/-- With the radar disabled, a radar package after initialization only runs `Prediction`. -/
theorem ProcessMeasurement_radar_off (m : Libm K) (self : UKF K) (ts : ℤ) (z : Fin 3 → K)
    (hi : self.is_initialized_ = true) (hr : self.use_radar_ = false) :
    self.ProcessMeasurement m (.RADAR ts z) =
      ({ self with time_us_ := ts } : UKF K).Prediction m
        (((ts - self.time_us_ : ℤ) : K) / 1000000.0) := by
  have h : ¬ (({ self with time_us_ := ts } : UKF K).Prediction m
      (((ts - self.time_us_ : ℤ) : K) / 1000000.0)).use_radar_ = true := by
    show ¬ self.use_radar_ = true
    rw [hr]
    exact Bool.false_ne_true
  unfold UKF.ProcessMeasurement
  rw [if_neg (by simp [hi])]
  exact if_neg h

/-- The members `x_` and `P_` written by `Prediction` do not depend on `time_us_`. -/
theorem Prediction_time_us_ (m : Libm K) (self : UKF K) (ts : ℤ) (delta_t : K) :
    (({ self with time_us_ := ts } : UKF K).Prediction m delta_t).x_ =
        (self.Prediction m delta_t).x_ ∧
      (({ self with time_us_ := ts } : UKF K).Prediction m delta_t).P_ =
        (self.Prediction m delta_t).P_ :=
  ⟨rfl, rfl⟩

/-- C11: for an initialized filter, if `use_laser_ = false` then any two laser packages with
the same timestamp leave `ProcessMeasurement` in the same state, whose `x_` and `P_` are
those of `Prediction(Δt)` alone, `Δt = (ts − time_us_)/1e6`; and the same for
`use_radar_ = false` and radar packages. -/
theorem disabled_sensor_ignored (m : Libm K) (self : UKF K) (ts : ℤ)
    (hi : self.is_initialized_ = true) :
    (self.use_laser_ = false → ∀ z₁ z₂ : Fin 2 → K,
      self.ProcessMeasurement m (.LASER ts z₁) = self.ProcessMeasurement m (.LASER ts z₂) ∧
      (self.ProcessMeasurement m (.LASER ts z₁)).x_ =
        (self.Prediction m (((ts - self.time_us_ : ℤ) : K) / 1000000.0)).x_ ∧
      (self.ProcessMeasurement m (.LASER ts z₁)).P_ =
        (self.Prediction m (((ts - self.time_us_ : ℤ) : K) / 1000000.0)).P_) ∧
    (self.use_radar_ = false → ∀ z₁ z₂ : Fin 3 → K,
      self.ProcessMeasurement m (.RADAR ts z₁) = self.ProcessMeasurement m (.RADAR ts z₂) ∧
      (self.ProcessMeasurement m (.RADAR ts z₁)).x_ =
        (self.Prediction m (((ts - self.time_us_ : ℤ) : K) / 1000000.0)).x_ ∧
      (self.ProcessMeasurement m (.RADAR ts z₁)).P_ =
        (self.Prediction m (((ts - self.time_us_ : ℤ) : K) / 1000000.0)).P_) := by
  constructor
  · intro hl z₁ z₂
    rw [ProcessMeasurement_laser_off m self ts z₁ hi hl,
      ProcessMeasurement_laser_off m self ts z₂ hi hl]
    exact ⟨rfl, (Prediction_time_us_ m self ts _).1, (Prediction_time_us_ m self ts _).2⟩
  · intro hr z₁ z₂
    rw [ProcessMeasurement_radar_off m self ts z₁ hi hr,
      ProcessMeasurement_radar_off m self ts z₂ hi hr]
    exact ⟨rfl, (Prediction_time_us_ m self ts _).1, (Prediction_time_us_ m self ts _).2⟩

end DisabledSensor

/-- C11, instance: in `ℝ`, the filter `flagState false true` (laser disabled) and the laser
packages `(1.0, 2.0)` and `(7.0, -3.0)` at the timestamp 100000. -/
theorem disabled_sensor_ignored_witness :
    (flagState false true : UKF ℝ).is_initialized_ = true ∧
      (flagState false true : UKF ℝ).use_laser_ = false ∧
      (flagState false true : UKF ℝ).ProcessMeasurement
          ⟨Real.pi, Real.pi_pos, 1 / 1000, Real.sqrt, Real.sin, Real.cos,
            fun y x => Complex.arg ⟨x, y⟩, fun A => Classical.epsilon (IsCholeskyFactor A),
            fun _ M => M⁻¹⟩
          (MeasurementPackage.LASER 100000 ![1.0, 2.0]) =
        (flagState false true : UKF ℝ).ProcessMeasurement
          ⟨Real.pi, Real.pi_pos, 1 / 1000, Real.sqrt, Real.sin, Real.cos,
            fun y x => Complex.arg ⟨x, y⟩, fun A => Classical.epsilon (IsCholeskyFactor A),
            fun _ M => M⁻¹⟩
          (MeasurementPackage.LASER 100000 ![7.0, -3.0]) :=
  ⟨rfl, rfl,
    ((disabled_sensor_ignored
      (⟨Real.pi, Real.pi_pos, 1 / 1000, Real.sqrt, Real.sin, Real.cos,
        fun y x => Complex.arg ⟨x, y⟩, fun A => Classical.epsilon (IsCholeskyFactor A),
        fun _ M => M⁻¹⟩ : Libm ℝ)
      (flagState false true) 100000 rfl).1 rfl ![1.0, 2.0] ![7.0, -3.0]).1⟩

/-! ## C12: the meter on empty or mismatched input -/

/-- C12 (code evaluated at the failing inputs): on an empty `estimations` list, and on a
one-element `estimations` list with an empty `ground_truth` list, `CalculateRMSE` reads the
element `t-1` out of range (the embedding returns `none`): no 4-vector is produced. -/
theorem CalculateRMSE_out_of_range {K : Type} [LinearOrderedField K] (m : Libm K)
    (self : Tools K) (ground_truth : List (Fin 4 → K)) (e : Fin 4 → K) :
    self.CalculateRMSE m [] ground_truth = none ∧ self.CalculateRMSE m [e] [] = none := by
  constructor
  · simp [Tools.CalculateRMSE]
  · simp [Tools.CalculateRMSE]

/-! ## C16, C17: idempotence and iteration counts of the two loops -/

section AngleCounts

variable {K : Type} [LinearOrderedField K] [FloorRing K]

/-- C16: the two normalization loops applied to an already normalized value return it
unchanged. -/
theorem normalizeAngle_idempotent (pi : K) (hpi : 0 < pi) (θ : K) :
    normalizeAngle pi hpi (normalizeAngle pi hpi θ) = normalizeAngle pi hpi θ :=
  normalizeAngle_of_mem pi hpi _ (normalizeAngle_mem_Icc pi hpi θ).1
    (normalizeAngle_mem_Icc pi hpi θ).2

/-- C16, instance: in `ℝ` with `π`, at `θ = 10`. -/
theorem normalizeAngle_idempotent_witness :
    normalizeAngle Real.pi Real.pi_pos (normalizeAngle Real.pi Real.pi_pos 10) =
      normalizeAngle Real.pi Real.pi_pos 10 :=
  normalizeAngle_idempotent Real.pi Real.pi_pos 10

theorem angleLoopDownCount_eq (pi : K) (hpi : 0 < pi) (a : K) :
    angleLoopDownCount pi hpi a = (⌈(a - pi) / (2 * pi)⌉).toNat ∧
      angleLoopDown pi hpi a = a - (angleLoopDownCount pi hpi a : K) * (2 * pi) := by
  induction a using angleLoopDownCount.induct pi hpi with
  | case1 a h ih =>
    have hc : angleLoopDownCount pi hpi a = angleLoopDownCount pi hpi (a - 2 * pi) + 1 := by
      rw [angleLoopDownCount, if_pos h]
    have h2 : (a - 2 * pi - pi) / (2 * pi) = (a - pi) / (2 * pi) - 1 := by
      field_simp
      ring
    have h3 : 0 < ⌈(a - pi) / (2 * pi)⌉ := by
      rw [Int.ceil_pos]
      apply div_pos <;> linarith
    constructor
    · rw [hc, ih.1, h2, Int.ceil_sub_one]
      omega
    · rw [angleLoopDown_of_gt pi hpi a h, ih.2, hc]
      push_cast
      ring
  | case2 a h =>
    have hc : angleLoopDownCount pi hpi a = 0 := by
      rw [angleLoopDownCount, if_neg h]
    have h3 : ⌈(a - pi) / (2 * pi)⌉ ≤ 0 := by
      rw [Int.ceil_le, Int.cast_zero]
      apply div_nonpos_of_nonpos_of_nonneg <;> linarith [not_lt.mp h]
    constructor
    · rw [hc]
      omega
    · rw [angleLoopDown_of_le pi hpi a (not_lt.mp h), hc]
      simp

theorem angleLoopUpCount_eq (pi : K) (hpi : 0 < pi) (a : K) :
    angleLoopUpCount pi hpi a = (⌈(-pi - a) / (2 * pi)⌉).toNat ∧
      angleLoopUp pi hpi a = a + (angleLoopUpCount pi hpi a : K) * (2 * pi) := by
  induction a using angleLoopUpCount.induct pi hpi with
  | case1 a h ih =>
    have hc : angleLoopUpCount pi hpi a = angleLoopUpCount pi hpi (a + 2 * pi) + 1 := by
      rw [angleLoopUpCount, if_pos h]
    have h2 : (-pi - (a + 2 * pi)) / (2 * pi) = (-pi - a) / (2 * pi) - 1 := by
      field_simp
      ring
    have h3 : 0 < ⌈(-pi - a) / (2 * pi)⌉ := by
      rw [Int.ceil_pos]
      apply div_pos <;> linarith
    constructor
    · rw [hc, ih.1, h2, Int.ceil_sub_one]
      omega
    · rw [angleLoopUp_of_lt pi hpi a h, ih.2, hc]
      push_cast
      ring
  | case2 a h =>
    have hc : angleLoopUpCount pi hpi a = 0 := by
      rw [angleLoopUpCount, if_neg h]
    have h3 : ⌈(-pi - a) / (2 * pi)⌉ ≤ 0 := by
      rw [Int.ceil_le, Int.cast_zero]
      apply div_nonpos_of_nonpos_of_nonneg <;> linarith [not_lt.mp h]
    constructor
    · rw [hc]
      omega
    · rw [angleLoopUp_of_ge pi hpi a (not_lt.mp h), hc]
      simp

/-- C17: for every `θ` both loops terminate (the embedding is total, by well-founded
recursion on the counts below): the body of the first loop runs exactly
`max(0, ⌈(θ − π)/(2π)⌉)` times, that of the second, entered with the value left by the
first, exactly `max(0, ⌈(−π − θ)/(2π)⌉)` times, and the result is `θ` minus the first count
plus the second count turns of `2π`. -/
theorem angle_loops_iterations (pi : K) (hpi : 0 < pi) (θ : K) :
    (angleLoopDownCount pi hpi θ : ℤ) = max 0 ⌈(θ - pi) / (2 * pi)⌉ ∧
      (angleLoopUpCount pi hpi (angleLoopDown pi hpi θ) : ℤ) =
        max 0 ⌈(-pi - θ) / (2 * pi)⌉ ∧
      normalizeAngle pi hpi θ =
        θ - (angleLoopDownCount pi hpi θ : K) * (2 * pi) +
          (angleLoopUpCount pi hpi (angleLoopDown pi hpi θ) : K) * (2 * pi) := by
  obtain ⟨hd1, hd2⟩ := angleLoopDownCount_eq pi hpi θ
  obtain ⟨hu1, hu2⟩ := angleLoopUpCount_eq pi hpi (angleLoopDown pi hpi θ)
  refine ⟨?_, ?_, ?_⟩
  · rw [hd1, Int.toNat_eq_max, max_comm]
  · rw [hu1, Int.toNat_eq_max, max_comm]
    by_cases hθ : θ ≤ pi
    · rw [angleLoopDown_of_le pi hpi θ hθ]
    · obtain ⟨-, -, hgt⟩ := angleLoopDown_spec pi hpi θ
      have h1 := hgt (not_le.mp hθ)
      have h3 : ⌈(-pi - angleLoopDown pi hpi θ) / (2 * pi)⌉ ≤ 0 := by
        rw [Int.ceil_le, Int.cast_zero]
        apply div_nonpos_of_nonpos_of_nonneg <;> linarith
      have h4 : ⌈(-pi - θ) / (2 * pi)⌉ ≤ 0 := by
        rw [Int.ceil_le, Int.cast_zero]
        apply div_nonpos_of_nonpos_of_nonneg <;> linarith [not_le.mp hθ]
      rw [max_eq_left h3, max_eq_left h4]
  · rw [normalizeAngle, hu2, hd2]

/-- C17, instance: in `ℝ` with `π`, at `θ = 10` the first loop runs `⌈(10 − π)/(2π)⌉` times
and the second not at all. -/
theorem angle_loops_iterations_witness :
    (angleLoopDownCount Real.pi Real.pi_pos 10 : ℤ) =
      max 0 ⌈((10 : ℝ) - Real.pi) / (2 * Real.pi)⌉ :=
  (angle_loops_iterations Real.pi Real.pi_pos 10).1

end AngleCounts

/-! ## C19: the linear components of the predicted mean -/

section PredictionLinear

variable {K : Type} [LinearOrderedField K] [FloorRing K]

theorem x_aug_two (self : UKF K) : self.x_aug 2 = self.x_ 2 := rfl

theorem x_aug_five (self : UKF K) : self.x_aug 5 = 0 := rfl

/-- The predicted mean speed is the speed. -/
theorem Prediction_v (m : Libm K) (self : UKF K) (hc : self.Configured) (delta_t : K) :
    (self.Prediction m delta_t).x_ 2 = self.x_ 2 := by
  rw [Prediction_x_, Finset.sum_apply]
  simp only [Pi.smul_apply, smul_eq_mul, predictColumn_two]
  refine hc.weighted_mean_symm _ _
    (fun j => m.sqrt (self.lambda_ + self.n_aug_) *
      (m.llt self.P_aug 2 j + m.llt self.P_aug 5 j * delta_t)) ?_ ?_ ?_
  · rw [AugmentSigmaPoints_col_zero, x_aug_two, x_aug_five]
    ring
  · intro j
    rw [AugmentSigmaPoints_col_plus]
    simp only [Pi.add_apply, Pi.smul_apply, smul_eq_mul, x_aug_two, x_aug_five, colOf]
    ring
  · intro j
    rw [AugmentSigmaPoints_col_minus]
    simp only [Pi.sub_apply, Pi.smul_apply, smul_eq_mul, x_aug_two, x_aug_five, colOf]
    ring

/-- The predicted mean yaw rate is the yaw rate. -/
theorem Prediction_yawd (m : Libm K) (self : UKF K) (hc : self.Configured) (delta_t : K) :
    (self.Prediction m delta_t).x_ 4 = self.x_ 4 := by
  rw [Prediction_x_, Finset.sum_apply]
  simp only [Pi.smul_apply, smul_eq_mul, predictColumn_four]
  refine hc.weighted_mean_symm _ _
    (fun j => m.sqrt (self.lambda_ + self.n_aug_) *
      (m.llt self.P_aug 4 j + m.llt self.P_aug 6 j * delta_t)) ?_ ?_ ?_
  · rw [AugmentSigmaPoints_col_zero, x_aug_four, x_aug_six]
    ring
  · intro j
    rw [AugmentSigmaPoints_col_plus]
    simp only [Pi.add_apply, Pi.smul_apply, smul_eq_mul, x_aug_four, x_aug_six, colOf]
    ring
  · intro j
    rw [AugmentSigmaPoints_col_minus]
    simp only [Pi.sub_apply, Pi.smul_apply, smul_eq_mul, x_aug_four, x_aug_six, colOf]
    ring

/-- C19: for a filter with the constructor's configuration, every state
`(p_x, p_y, v, ψ, ψ̇)`, every `P_` (whatever factor `llt` returns for `P_aug`) and every `Δt`,
after `Prediction(Δt)` the mean has `x[2] = v`, `x[4] = ψ̇` and `x[3] = ψ + ψ̇·Δt`, the
last one not wrapped. -/
theorem prediction_linear_components (m : Libm K) (self : UKF K) (hc : self.Configured)
    (delta_t : K) :
    (self.Prediction m delta_t).x_ 2 = self.x_ 2 ∧
      (self.Prediction m delta_t).x_ 4 = self.x_ 4 ∧
      (self.Prediction m delta_t).x_ 3 = self.x_ 3 + self.x_ 4 * delta_t :=
  ⟨Prediction_v m self hc delta_t, Prediction_yawd m self hc delta_t,
    Prediction_yaw m self hc delta_t⟩

end PredictionLinear

/-- C19, instance: in `ℝ`, the state `(0, 0, 0, 3, 2)` with `P_ = I` and `Δt = 0.1`: the
predicted yaw is `3 + 2·0.1 = 3.2 > π`, not wrapped. -/
theorem prediction_linear_components_witness :
    ((yawState (3 : ℝ) 2).Prediction
        ⟨Real.pi, Real.pi_pos, 1 / 1000, Real.sqrt, Real.sin, Real.cos,
          fun y x => Complex.arg ⟨x, y⟩, fun A => Classical.epsilon (IsCholeskyFactor A),
          fun _ M => M⁻¹⟩ 0.1).x_ 3 = 3 + 2 * 0.1 :=
  (prediction_linear_components
    (⟨Real.pi, Real.pi_pos, 1 / 1000, Real.sqrt, Real.sin, Real.cos,
      fun y x => Complex.arg ⟨x, y⟩, fun A => Classical.epsilon (IsCholeskyFactor A),
      fun _ M => M⁻¹⟩ : Libm ℝ)
    (yawState (3 : ℝ) 2) (yawState_Configured 3 2) 0.1).2.2

/-! ## C20: the speed seeded by a first radar measurement -/

section RadarSeed

variable {K : Type} [LinearOrderedField K] [FloorRing K]

/-- The state seeded by a first radar package. -/
theorem radar_seed_x_ (m : Libm K) (self : UKF K) (ts : ℤ) (z : Fin 3 → K)
    (h : self.is_initialized_ = false) :
    (self.ProcessMeasurement m (.RADAR ts z)).x_ =
      ![z 0 * m.cos (z 1), z 0 * m.sin (z 1),
        m.sqrt (z 2 * m.cos (z 1) * (z 2 * m.cos (z 1)) +
          z 2 * m.sin (z 1) * (z 2 * m.sin (z 1))), 0, 0] := by
  simp only [UKF.ProcessMeasurement, h, Bool.not_false, if_true]

/-- C20: when `cos² + sin² = 1` and `sqrt(a·a) = |a|` (as for the real functions), the
speed seeded by a first radar package `(ρ, φ, ρ̇)` is `x[2] = |ρ̇| ≥ 0` and the yaw is 0,
whatever `ρ` and `φ` are: two packages whose range rates have the same magnitude (a
receding and an approaching target) seed the same speed. -/
theorem radar_seed_speed (m : Libm K) (self : UKF K) (ts : ℤ) (z : Fin 3 → K)
    (h : self.is_initialized_ = false)
    (hcs : ∀ a, m.cos a * m.cos a + m.sin a * m.sin a = 1)
    (hsq : ∀ a, m.sqrt (a * a) = |a|) :
    (self.ProcessMeasurement m (.RADAR ts z)).x_ 2 = |z 2| ∧
      0 ≤ (self.ProcessMeasurement m (.RADAR ts z)).x_ 2 ∧
      (self.ProcessMeasurement m (.RADAR ts z)).x_ 3 = 0 ∧
      ∀ (ts' : ℤ) (z' : Fin 3 → K), |z' 2| = |z 2| →
        (self.ProcessMeasurement m (.RADAR ts' z')).x_ 2 =
          (self.ProcessMeasurement m (.RADAR ts z)).x_ 2 := by
  have hv : ∀ (t : ℤ) (w : Fin 3 → K),
      (self.ProcessMeasurement m (.RADAR t w)).x_ 2 = |w 2| := by
    intro t w
    rw [radar_seed_x_ m self t w h]
    show m.sqrt (w 2 * m.cos (w 1) * (w 2 * m.cos (w 1)) +
      w 2 * m.sin (w 1) * (w 2 * m.sin (w 1))) = |w 2|
    have e : w 2 * m.cos (w 1) * (w 2 * m.cos (w 1)) +
        w 2 * m.sin (w 1) * (w 2 * m.sin (w 1)) =
        w 2 * w 2 * (m.cos (w 1) * m.cos (w 1) + m.sin (w 1) * m.sin (w 1)) := by ring
    rw [e, hcs, mul_one, hsq]
  refine ⟨hv ts z, ?_, ?_, fun ts' z' hz => ?_⟩
  · rw [hv]
    exact abs_nonneg _
  · rw [radar_seed_x_ m self ts z h]
    rfl
  · rw [hv, hv, hz]

end RadarSeed

/-- C20, instance: in `ℝ` with the real `sqrt`, `sin`, `cos`, the constructed filter and the
radar package `(5.0, 0.3, -2.0)`: the seeded speed is `|-2.0|`. -/
theorem radar_seed_speed_witness :
    ((UKF.ctor (zeroMem : UKF ℝ)).ProcessMeasurement
        ⟨Real.pi, Real.pi_pos, 1 / 1000, Real.sqrt, Real.sin, Real.cos,
          fun y x => Complex.arg ⟨x, y⟩, fun A => Classical.epsilon (IsCholeskyFactor A),
          fun _ M => M⁻¹⟩
        (MeasurementPackage.RADAR 1000000 ![5.0, 0.3, -2.0])).x_ 2 = |(-2.0 : ℝ)| :=
  (radar_seed_speed
    (⟨Real.pi, Real.pi_pos, 1 / 1000, Real.sqrt, Real.sin, Real.cos,
      fun y x => Complex.arg ⟨x, y⟩, fun A => Classical.epsilon (IsCholeskyFactor A),
      fun _ M => M⁻¹⟩ : Libm ℝ)
    (UKF.ctor zeroMem) 1000000 ![5.0, 0.3, -2.0] rfl
    (fun a => by
      show Real.cos a * Real.cos a + Real.sin a * Real.sin a = 1
      have h := Real.cos_sq_add_sin_sq a
      nlinarith [h])
    (fun a => Real.sqrt_mul_self_eq_abs a)).1

/-! ## C13: the radar range rate at the origin -/

section RadarOrigin

variable {K : Type} [LinearOrderedField K] [FloorRing K]

/-- The range rate `Zsig(2,i)` is the quotient by `radarDivisor`. -/
theorem radarColumn_two (m : Libm K) (col : Fin 5 → K) :
    radarColumn m col 2 =
      (col 0 * (m.cos (col 3) * col 2) + col 1 * (m.sin (col 3) * col 2)) /
        radarDivisor m col := rfl

/-- A laser package `(0, 0)` at the timestamp 0 seeds the constructed filter with the state
`yawState 0 0`. -/
theorem seed_laser_origin (m : Libm K) :
    (UKF.ctor (zeroMem : UKF K)).ProcessMeasurement m (.LASER 0 ![0, 0]) = yawState 0 0 := by
  have hP := initP_eq_one (K := K)
  have hi : (UKF.ctor (zeroMem : UKF K)).is_initialized_ = false := rfl
  simp only [UKF.ProcessMeasurement, hi, Bool.not_false, if_true, hP,
    MeasurementPackage.timestamp_]
  rfl

/-- The centre column of the predicted sigma matrix is the prediction of `x_aug`. -/
theorem Prediction_centre (m : Libm K) (self : UKF K) (delta_t : K) :
    colOf (self.Prediction m delta_t).Xsig_pred_ 0 = predictColumn m delta_t self.x_aug := by
  have h := AugmentSigmaPoints_col_zero m self
  ext r
  show predictColumn m delta_t (colOf (self.AugmentSigmaPoints m).Xsig_aug_ 0) r = _
  rw [h]

/-- A column with `p_x = p_y = v = 0` and no noise is predicted to `p_x = p_y = 0`. -/
theorem predictColumn_at_rest (m : Libm K) (delta_t : K) (col : Fin 7 → K)
    (h0 : col 0 = 0) (h1 : col 1 = 0) (h2 : col 2 = 0) (h5 : col 5 = 0) :
    predictColumn m delta_t col 0 = 0 ∧ predictColumn m delta_t col 1 = 0 := by
  constructor
  · show (if |col 4| > m.EPS then col 0 + col 2 / col 4 *
        (m.sin (col 3 + col 4 * delta_t) - m.sin (col 3))
        else col 0 + col 2 * delta_t * m.cos (col 3)) +
        0.5 * col 5 * delta_t * delta_t * m.cos (col 3) = 0
    rw [h0, h2, h5]
    split_ifs <;> simp
  · show (if |col 4| > m.EPS then col 1 + col 2 / col 4 *
        (m.cos (col 3) - m.cos (col 3 + col 4 * delta_t))
        else col 1 + col 2 * delta_t * m.sin (col 3)) +
        0.5 * col 5 * delta_t * delta_t * m.sin (col 3) = 0
    rw [h1, h2, h5]
    split_ifs <;> simp

/-- C13 (code evaluated at the failing input): after the laser seed `(0, 0)`, a radar package
enters `UpdateRadar` with a predicted sigma matrix whose centre column has
`p_x = p_y = 0`; the divisor of its range rate `Zsig(2,0)` is `sqrt(0·0 + 0·0)`, which is 0
when `sqrt 0 = 0`: the transform has no guard and divides `0` by `0`. -/
theorem radar_range_rate_at_origin (m : Libm K) (ts : ℤ) (z : Fin 3 → K) :
    (UKF.ctor (zeroMem : UKF K)).ProcessMeasurement m (.LASER 0 ![0, 0]) = yawState 0 0 ∧
      (yawState 0 0).ProcessMeasurement m (.RADAR ts z) =
        (({ yawState (0 : K) 0 with time_us_ := ts } : UKF K).Prediction m
          (((ts - (yawState (0 : K) 0).time_us_ : ℤ) : K) / 1000000.0)).UpdateRadar m z ∧
      colOf (({ yawState (0 : K) 0 with time_us_ := ts } : UKF K).Prediction m
          (((ts - (yawState (0 : K) 0).time_us_ : ℤ) : K) / 1000000.0)).Xsig_pred_ 0 0 = 0 ∧
      colOf (({ yawState (0 : K) 0 with time_us_ := ts } : UKF K).Prediction m
          (((ts - (yawState (0 : K) 0).time_us_ : ℤ) : K) / 1000000.0)).Xsig_pred_ 0 1 = 0 ∧
      radarDivisor m
          (colOf (({ yawState (0 : K) 0 with time_us_ := ts } : UKF K).Prediction m
            (((ts - (yawState (0 : K) 0).time_us_ : ℤ) : K) / 1000000.0)).Xsig_pred_ 0) =
        m.sqrt 0 ∧
      (m.sqrt 0 = 0 →
        radarDivisor m
          (colOf (({ yawState (0 : K) 0 with time_us_ := ts } : UKF K).Prediction m
            (((ts - (yawState (0 : K) 0).time_us_ : ℤ) : K) / 1000000.0)).Xsig_pred_ 0) = 0) := by
  have hrest := predictColumn_at_rest m (((ts - (yawState (0 : K) 0).time_us_ : ℤ) : K) / 1000000.0)
    ({ yawState (0 : K) 0 with time_us_ := ts } : UKF K).x_aug rfl rfl rfl rfl
  have hc := Prediction_centre m ({ yawState (0 : K) 0 with time_us_ := ts } : UKF K)
    (((ts - (yawState (0 : K) 0).time_us_ : ℤ) : K) / 1000000.0)
  have hd : radarDivisor m
      (colOf (({ yawState (0 : K) 0 with time_us_ := ts } : UKF K).Prediction m
        (((ts - (yawState (0 : K) 0).time_us_ : ℤ) : K) / 1000000.0)).Xsig_pred_ 0) =
      m.sqrt 0 := by
    rw [hc, radarDivisor, hrest.1, hrest.2]
    simp
  refine ⟨seed_laser_origin m, ProcessMeasurement_radar m _ ts z rfl rfl, ?_, ?_, hd,
    fun h0 => ?_⟩
  · rw [hc]
    exact hrest.1
  · rw [hc]
    exact hrest.2
  · rw [hd, h0]

end RadarOrigin

/-! ## C18: the laser update is the linear Kalman update -/

section LaserKalman

variable {K : Type} [LinearOrderedField K] [FloorRing K]

theorem laserH_mulVec (x : Fin 5 → K) : (laserH K).mulVec x = ![x 0, x 1] := by
  ext a
  have h : (laserH K).mulVec x a = x (Fin.castLE (by omega) a) := by
    simp [Matrix.mulVec, Matrix.dotProduct, laserH]
  rw [h]
  fin_cases a <;> rfl

theorem lidar_z_pred_eq (self : UKF K)
    (hx : self.x_ = ∑ i, self.weights_ i • colOf self.Xsig_pred_ i) :
    self.lidar_z_pred = ![self.x_ 0, self.x_ 1] := by
  ext a
  conv_rhs => rw [hx]
  simp only [UKF.lidar_z_pred, UKF.lidar_Zsig, sumLoop_eq, zero_add, Finset.sum_apply,
    Pi.smul_apply, colOf, Matrix.of_apply]
  fin_cases a <;> rfl

theorem lidar_z_diff (m : Libm K) (self : UKF K)
    (hx : self.x_ = ∑ i, self.weights_ i • colOf self.Xsig_pred_ i) (i : Fin 15) :
    colOf self.lidar_Zsig i - self.lidar_z_pred =
      fun a => normalizeAt m 3 (colOf self.Xsig_pred_ i - self.x_) (Fin.castLE (by omega) a) := by
  ext a
  have hne : (Fin.castLE (by omega) a : Fin 5) ≠ 3 := by
    fin_cases a <;> decide
  rw [normalizeAt_of_ne m 3 _ _ hne, lidar_z_pred_eq self hx]
  fin_cases a <;> rfl

theorem lidar_S_eq (m : Libm K) (self : UKF K)
    (hx : self.x_ = ∑ i, self.weights_ i • colOf self.Xsig_pred_ i)
    (hP : self.P_ = ∑ i, self.weights_ i •
      Matrix.vecMulVec (normalizeAt m 3 (colOf self.Xsig_pred_ i - self.x_))
        (normalizeAt m 3 (colOf self.Xsig_pred_ i - self.x_))) :
    self.lidar_S = laserH K * self.P_ * (laserH K).transpose + self.R_laser_ := by
  rw [UKF.lidar_S, sumLoop_eq, zero_add]
  congr 1
  ext a b
  rw [laserH_mul_mul_transpose_apply]
  conv_rhs => rw [hP]
  simp only [lidar_z_diff m self hx, Matrix.sum_apply, Matrix.smul_apply,
    Matrix.vecMulVec_apply]

theorem lidar_Tc_eq (m : Libm K) (self : UKF K)
    (hx : self.x_ = ∑ i, self.weights_ i • colOf self.Xsig_pred_ i)
    (hP : self.P_ = ∑ i, self.weights_ i •
      Matrix.vecMulVec (normalizeAt m 3 (colOf self.Xsig_pred_ i - self.x_))
        (normalizeAt m 3 (colOf self.Xsig_pred_ i - self.x_))) :
    self.lidar_Tc m = self.P_ * (laserH K).transpose := by
  rw [UKF.lidar_Tc, sumLoop_eq, zero_add]
  ext r b
  rw [mul_laserH_transpose_apply]
  conv_rhs => rw [hP]
  simp only [lidar_z_diff m self hx, Matrix.sum_apply, Matrix.smul_apply,
    Matrix.vecMulVec_apply]

/-- The method `UpdateLidar` in terms of its named intermediate values. -/
theorem UpdateLidar_eq (m : Libm K) (self : UKF K) (z : Fin 2 → K) :
    (self.UpdateLidar m z).x_ =
        normalizeAt m 3 (self.x_ +
          (self.lidar_Tc m * m.inverse 2 self.lidar_S).mulVec (z - self.lidar_z_pred)) ∧
      (self.UpdateLidar m z).P_ =
        self.P_ - self.lidar_Tc m * m.inverse 2 self.lidar_S * self.lidar_S *
          (self.lidar_Tc m * m.inverse 2 self.lidar_S).transpose :=
  ⟨rfl, rfl⟩

/-- A left inverse of a symmetric square matrix is symmetric. -/
theorem left_inverse_isSymm {n : ℕ} (S Si : Matrix (Fin n) (Fin n) K) (hS : S.IsSymm)
    (h : Si * S = 1) : Si.IsSymm := by
  have h2 : S * Si = 1 := Matrix.mul_eq_one_comm.mp h
  have h3 : Si.transpose * S = 1 := by
    have := congrArg Matrix.transpose h2
    rwa [Matrix.transpose_mul, Matrix.transpose_one, hS.eq] at this
  calc Si.transpose = Si.transpose * (S * Si) := by rw [h2, Matrix.mul_one]
    _ = Si.transpose * S * Si := by rw [Matrix.mul_assoc]
    _ = Si := by rw [h3, Matrix.one_mul]

/-- C18: for a filter with the constructor's configuration, if on entry `x_` is the weighted
mean of the predicted sigma columns, `P_` the weighted sum of the outer products of their
yaw-normalized deviations, `S = H P_ Hᵀ + R_laser_` has non-zero determinant and `inverse`
returns a left inverse of such matrices, then `UpdateLidar` computes
`z_pred = H x_ = (x_[0], x_[1])`, `S` with `(H P_ Hᵀ)[a,b] = P_[a,b]`, `Tc = P_ Hᵀ` (the
first two columns of `P_`) and writes `x_ ← norm_yaw(x_ + P_ Hᵀ S⁻¹ (z − H x_))` and
`P_ ← P_ − P_ Hᵀ S⁻¹ H P_`, with `H = [I₂ 0]`. -/
theorem lidar_update_is_kalman (m : Libm K) (self : UKF K) (z : Fin 2 → K)
    (hc : self.Configured)
    (hx : self.x_ = ∑ i, self.weights_ i • colOf self.Xsig_pred_ i)
    (hP : self.P_ = ∑ i, self.weights_ i •
      Matrix.vecMulVec (normalizeAt m 3 (colOf self.Xsig_pred_ i - self.x_))
        (normalizeAt m 3 (colOf self.Xsig_pred_ i - self.x_)))
    (hinv : ∀ M : Matrix (Fin 2) (Fin 2) K, M.det ≠ 0 → m.inverse 2 M * M = 1)
    (hS : (laserH K * self.P_ * (laserH K).transpose + self.R_laser_).det ≠ 0) :
    self.lidar_z_pred = ![self.x_ 0, self.x_ 1] ∧
      self.lidar_z_pred = (laserH K).mulVec self.x_ ∧
      self.lidar_S = laserH K * self.P_ * (laserH K).transpose + self.R_laser_ ∧
      (∀ a b : Fin 2, (laserH K * self.P_ * (laserH K).transpose) a b =
        self.P_ (Fin.castLE (by omega) a) (Fin.castLE (by omega) b)) ∧
      self.lidar_Tc m = self.P_ * (laserH K).transpose ∧
      (∀ (r : Fin 5) (b : Fin 2),
        (self.P_ * (laserH K).transpose) r b = self.P_ r (Fin.castLE (by omega) b)) ∧
      (self.UpdateLidar m z).x_ =
        normalizeAt m 3 (self.x_ +
          (self.P_ * (laserH K).transpose *
            m.inverse 2 (laserH K * self.P_ * (laserH K).transpose + self.R_laser_)).mulVec
            (z - (laserH K).mulVec self.x_)) ∧
      (self.UpdateLidar m z).P_ =
        self.P_ - self.P_ * (laserH K).transpose *
          m.inverse 2 (laserH K * self.P_ * (laserH K).transpose + self.R_laser_) *
          laserH K * self.P_ := by
  have hz := lidar_z_pred_eq self hx
  have hSe := lidar_S_eq m self hx hP
  have hT := lidar_Tc_eq m self hx hP
  have hPs : self.P_.IsSymm := by
    rw [hP, Matrix.IsSymm, Matrix.transpose_sum]
    refine Finset.sum_congr rfl fun i _ => ?_
    rw [Matrix.transpose_smul, (vecMulVec_self_isSymm _).eq]
  have hSs : (laserH K * self.P_ * (laserH K).transpose + self.R_laser_).IsSymm :=
    (mul_mul_transpose_isSymm _ _ hPs).add hc.R_laser_isSymm
  have hi := hinv _ hS
  have hSi := left_inverse_isSymm _ _ hSs hi
  refine ⟨hz, ?_, hSe, fun a b => laserH_mul_mul_transpose_apply _ a b, hT,
    fun r b => mul_laserH_transpose_apply _ r b, ?_, ?_⟩
  · rw [hz, laserH_mulVec]
  · rw [(UpdateLidar_eq m self z).1, hT, hSe, hz, laserH_mulVec]
  · rw [(UpdateLidar_eq m self z).2, hT, hSe]
    congr 1
    rw [Matrix.transpose_mul, Matrix.transpose_mul, Matrix.transpose_transpose, hSi.eq, hPs.eq]
    have hi2 := Matrix.mul_eq_one_comm.mp hi
    generalize laserH K * self.P_ * (laserH K).transpose + self.R_laser_ = S at hi2 ⊢
    generalize m.inverse 2 S = Si at hi2 ⊢
    simp only [Matrix.mul_assoc]
    rw [← Matrix.mul_assoc S Si, hi2, Matrix.one_mul]

end LaserKalman

/-- C18, instance: in `ℝ`, the filter `unitState` (`P_ = (1/3)·I`) and the laser measurement
`(1.0, 2.0)`. -/
theorem lidar_update_is_kalman_witness :
    (unitState : UKF ℝ).lidar_z_pred = ![(unitState : UKF ℝ).x_ 0, (unitState : UKF ℝ).x_ 1] :=
  (lidar_update_is_kalman
    (⟨Real.pi, Real.pi_pos, 1 / 1000, Real.sqrt, Real.sin, Real.cos,
      fun y x => Complex.arg ⟨x, y⟩, fun A => Classical.epsilon (IsCholeskyFactor A),
      fun _ M => M⁻¹⟩ : Libm ℝ)
    unitState ![1.0, 2.0] unitState_Configured unitState_x_
    (unitState_P_ _ (by
      show (1 : ℝ) ≤ Real.pi
      linarith [Real.pi_gt_three]))
    (fun M hM => Matrix.nonsing_inv_mul M (isUnit_iff_ne_zero.mpr hM))
    (laser_S_det_ne_zero unitState unitState_Configured unitState_isPSD)).1

/-! ## C15: the straight-line limit of the turning branch -/

/-- The position rows of a predicted column are the turning or the fallback position, chosen
by `fabs(yawd) > EPS`, plus the acceleration noise term. -/
theorem predictColumn_position {K : Type} [LinearOrderedField K] (m : Libm K) (delta_t : K)
    (col : Fin 7 → K) :
    predictColumn m delta_t col 0 =
        (if |col 4| > m.EPS then
            (ctrvTurn m (col 0) (col 1) (col 2) (col 3) (col 4) delta_t).1
          else (ctrvStraight m (col 0) (col 1) (col 2) (col 3) delta_t).1) +
          0.5 * col 5 * delta_t * delta_t * m.cos (col 3) ∧
      predictColumn m delta_t col 1 =
        (if |col 4| > m.EPS then
            (ctrvTurn m (col 0) (col 1) (col 2) (col 3) (col 4) delta_t).2
          else (ctrvStraight m (col 0) (col 1) (col 2) (col 3) delta_t).2) +
          0.5 * col 5 * delta_t * delta_t * m.sin (col 3) :=
  ⟨rfl, rfl⟩

theorem tendsto_sin_slope (yaw dt : ℝ) :
    Filter.Tendsto (fun h : ℝ => h⁻¹ * (Real.sin (yaw + h * dt) - Real.sin yaw))
      (nhdsWithin 0 {0}ᶜ) (nhds (Real.cos yaw * dt)) := by
  have h1 : HasDerivAt (fun h : ℝ => yaw + h * dt) dt 0 := by
    simpa using ((hasDerivAt_id (0 : ℝ)).mul_const dt).const_add yaw
  have h2 : HasDerivAt (fun h : ℝ => Real.sin (yaw + h * dt)) (Real.cos yaw * dt) 0 := by
    have := (Real.hasDerivAt_sin (yaw + 0 * dt)).comp 0 h1
    simpa using this
  have h3 := hasDerivAt_iff_tendsto_slope.mp h2
  refine h3.congr fun h => ?_
  simp [slope]

theorem tendsto_cos_slope (yaw dt : ℝ) :
    Filter.Tendsto (fun h : ℝ => h⁻¹ * (Real.cos (yaw + h * dt) - Real.cos yaw))
      (nhdsWithin 0 {0}ᶜ) (nhds (-Real.sin yaw * dt)) := by
  have h1 : HasDerivAt (fun h : ℝ => yaw + h * dt) dt 0 := by
    simpa using ((hasDerivAt_id (0 : ℝ)).mul_const dt).const_add yaw
  have h2 : HasDerivAt (fun h : ℝ => Real.cos (yaw + h * dt)) (-Real.sin yaw * dt) 0 := by
    have := (Real.hasDerivAt_cos (yaw + 0 * dt)).comp 0 h1
    simpa using this
  have h3 := hasDerivAt_iff_tendsto_slope.mp h2
  refine h3.congr fun h => ?_
  simp [slope]

/-- C15: with the real `sin` and `cos`, for every `p_x, p_y, v, ψ` and every `Δt` (so for
`0 ≤ Δt ≤ 0.1`), as `ψ̇ → 0` with `ψ̇ ≠ 0` the position of the turning branch converges to
the position of the fallback branch, in both coordinates; in particular there is `δ > 0`
such that for `0 < |ψ̇| < δ` the two branches differ by less than `1e-6` in each
coordinate. -/
theorem straight_line_limit (m : Libm ℝ) (hsin : m.sin = Real.sin) (hcos : m.cos = Real.cos)
    (p_x p_y v yaw delta_t : ℝ) :
    Filter.Tendsto (fun yawd => (ctrvTurn m p_x p_y v yaw yawd delta_t).1)
        (nhdsWithin 0 {0}ᶜ) (nhds (ctrvStraight m p_x p_y v yaw delta_t).1) ∧
      Filter.Tendsto (fun yawd => (ctrvTurn m p_x p_y v yaw yawd delta_t).2)
        (nhdsWithin 0 {0}ᶜ) (nhds (ctrvStraight m p_x p_y v yaw delta_t).2) ∧
      ∃ δ : ℝ, 0 < δ ∧ ∀ yawd : ℝ, 0 < |yawd| → |yawd| < δ →
        |(ctrvTurn m p_x p_y v yaw yawd delta_t).1 -
            (ctrvStraight m p_x p_y v yaw delta_t).1| < 1e-6 ∧
          |(ctrvTurn m p_x p_y v yaw yawd delta_t).2 -
            (ctrvStraight m p_x p_y v yaw delta_t).2| < 1e-6 := by
  have hx : Filter.Tendsto (fun yawd => (ctrvTurn m p_x p_y v yaw yawd delta_t).1)
      (nhdsWithin 0 {0}ᶜ) (nhds (ctrvStraight m p_x p_y v yaw delta_t).1) := by
    have h := ((tendsto_sin_slope yaw delta_t).const_mul v).const_add p_x
    have e : p_x + v * (Real.cos yaw * delta_t) = (ctrvStraight m p_x p_y v yaw delta_t).1 := by
      simp only [ctrvStraight, hcos]
      ring
    rw [e] at h
    refine h.congr fun yawd => ?_
    simp only [ctrvTurn, hsin]
    ring
  have hy : Filter.Tendsto (fun yawd => (ctrvTurn m p_x p_y v yaw yawd delta_t).2)
      (nhdsWithin 0 {0}ᶜ) (nhds (ctrvStraight m p_x p_y v yaw delta_t).2) := by
    have h := ((tendsto_cos_slope yaw delta_t).const_mul (-v)).const_add p_y
    have e : p_y + -v * (-Real.sin yaw * delta_t) =
        (ctrvStraight m p_x p_y v yaw delta_t).2 := by
      simp only [ctrvStraight, hsin]
      ring
    rw [e] at h
    refine h.congr fun yawd => ?_
    simp only [ctrvTurn, hcos]
    ring
  refine ⟨hx, hy, ?_⟩
  obtain ⟨δ₁, hδ₁, h₁⟩ := Metric.tendsto_nhdsWithin_nhds.mp hx 1e-6 (by norm_num)
  obtain ⟨δ₂, hδ₂, h₂⟩ := Metric.tendsto_nhdsWithin_nhds.mp hy 1e-6 (by norm_num)
  refine ⟨min δ₁ δ₂, lt_min hδ₁ hδ₂, fun yawd hpos hlt => ?_⟩
  have hne : yawd ∈ ({0}ᶜ : Set ℝ) := by
    simpa using abs_pos.mp hpos
  have hd : dist yawd 0 < min δ₁ δ₂ := by
    rwa [Real.dist_eq, sub_zero]
  constructor
  · have := h₁ hne (lt_of_lt_of_le hd (min_le_left _ _))
    rwa [Real.dist_eq] at this
  · have := h₂ hne (lt_of_lt_of_le hd (min_le_right _ _))
    rwa [Real.dist_eq] at this

/-- C15, instance: the real library, `(p_x, p_y, v, ψ) = (1, 2, 5, 0.3)` and `Δt = 0.1`. -/
theorem straight_line_limit_witness :
    ∃ δ : ℝ, 0 < δ ∧ ∀ yawd : ℝ, 0 < |yawd| → |yawd| < δ →
      |(ctrvTurn
          (⟨Real.pi, Real.pi_pos, 1 / 1000, Real.sqrt, Real.sin, Real.cos,
            fun y x => Complex.arg ⟨x, y⟩, fun A => Classical.epsilon (IsCholeskyFactor A),
            fun _ M => M⁻¹⟩ : Libm ℝ) 1 2 5 0.3 yawd 0.1).1 -
        (ctrvStraight
          (⟨Real.pi, Real.pi_pos, 1 / 1000, Real.sqrt, Real.sin, Real.cos,
            fun y x => Complex.arg ⟨x, y⟩, fun A => Classical.epsilon (IsCholeskyFactor A),
            fun _ M => M⁻¹⟩ : Libm ℝ) 1 2 5 0.3 0.1).1| < 1e-6 ∧
      |(ctrvTurn
          (⟨Real.pi, Real.pi_pos, 1 / 1000, Real.sqrt, Real.sin, Real.cos,
            fun y x => Complex.arg ⟨x, y⟩, fun A => Classical.epsilon (IsCholeskyFactor A),
            fun _ M => M⁻¹⟩ : Libm ℝ) 1 2 5 0.3 yawd 0.1).2 -
        (ctrvStraight
          (⟨Real.pi, Real.pi_pos, 1 / 1000, Real.sqrt, Real.sin, Real.cos,
            fun y x => Complex.arg ⟨x, y⟩, fun A => Classical.epsilon (IsCholeskyFactor A),
            fun _ M => M⁻¹⟩ : Libm ℝ) 1 2 5 0.3 0.1).2| < 1e-6 :=
  (straight_line_limit
    (⟨Real.pi, Real.pi_pos, 1 / 1000, Real.sqrt, Real.sin, Real.cos,
      fun y x => Complex.arg ⟨x, y⟩, fun A => Classical.epsilon (IsCholeskyFactor A),
      fun _ M => M⁻¹⟩ : Libm ℝ) rfl rfl 1 2 5 0.3 0.1).2.2

/-! ## C14: the two-laser scenario S3 -/

section SeedScenario

variable {K : Type} [LinearOrderedField K] [FloorRing K]

/-- A lower Cholesky factor of a diagonal matrix `diag(d_i²)` with `d_i > 0` is
`diag(d_i)`. -/
theorem cholesky_diagonal_unique (d : Fin 7 → K) (hd : ∀ i, 0 < d i)
    (L : Matrix (Fin 7) (Fin 7) K)
    (hL : IsCholeskyFactor (Matrix.diagonal fun i => d i * d i) L) :
    L = Matrix.diagonal d := by
  obtain ⟨hup, hpos, hmul⟩ := hL
  have hentry : ∀ i j, ∑ k, L i k * L j k = if i = j then d i * d i else 0 := by
    intro i j
    have := congrFun (congrFun hmul i) j
    rw [Matrix.mul_apply] at this
    simpa [Matrix.diagonal_apply, Matrix.transpose_apply] using this
  have hlow : ∀ n : ℕ, ∀ j : Fin 7, j.val = n → ∀ i : Fin 7, j < i → L i j = 0 := by
    intro n
    induction n using Nat.strong_induction_on with
    | _ n ih =>
      intro j hj i hij
      have hsum := hentry i j
      rw [if_neg (ne_of_gt hij)] at hsum
      rw [Finset.sum_eq_single j] at hsum
      · rcases mul_eq_zero.mp hsum with h | h
        · exact h
        · exact absurd h (ne_of_gt (hpos j))
      · intro k _ hk
        rcases lt_or_gt_of_ne hk with h | h
        · rw [ih k.val (by rw [← hj]; exact h) k rfl j h, mul_zero]
        · rw [hup j k h, mul_zero]
      · intro h
        exact absurd (Finset.mem_univ j) h
  have hoff : ∀ i j, i ≠ j → L i j = 0 := by
    intro i j hij
    rcases lt_or_gt_of_ne hij with h | h
    · exact hup i j h
    · exact hlow j.val j rfl i h
  ext i j
  by_cases hij : i = j
  · subst hij
    rw [Matrix.diagonal_apply_eq]
    have hsum := hentry i i
    rw [if_pos rfl, Finset.sum_eq_single i] at hsum
    · have h1 := hpos i
      have h2 := hd i
      nlinarith [mul_self_nonneg (L i i - d i)]
    · intro k _ hk
      rw [hoff i k (Ne.symm hk), mul_zero]
    · intro h
      exact absurd (Finset.mem_univ i) h
  · rw [Matrix.diagonal_apply_ne _ hij, hoff i j hij]

end SeedScenario

section SeedScenario2

variable {K : Type} [LinearOrderedField K] [FloorRing K]

theorem seedCholDiag_pos (i : Fin 7) : 0 < (seedCholDiag : Fin 7 → K) i := by
  fin_cases i
  all_goals
    first
    | (show (0 : K) < 1; norm_num)
    | (show (0 : K) < 3; norm_num)
    | (show (0 : K) < 1 / 2; norm_num)

theorem seedState_P_aug (px py : K) (ts : ℤ) :
    (seedState px py ts).P_aug =
      Matrix.diagonal fun i => (seedCholDiag : Fin 7 → K) i * seedCholDiag i := by
  have hP : (seedState px py ts).P_aug =
      Matrix.diagonal ![1, 1, 1, 1, 1, 3 * 3, 0.5 * 0.5] := by
    ext i j
    fin_cases i <;> fin_cases j <;> rfl
  rw [hP]
  refine congrArg Matrix.diagonal (funext fun i => ?_)
  fin_cases i
  all_goals
    first
    | (show (1 : K) = 1 * 1; norm_num)
    | (show (3 : K) * 3 = 3 * 3; rfl)
    | (show (0.5 : K) * 0.5 = 1 / 2 * (1 / 2); norm_num)

theorem seedState_llt (m : Libm K) (px py : K) (ts : ℤ)
    (hchol : IsCholeskyFactor (seedState px py ts).P_aug (m.llt (seedState px py ts).P_aug)) :
    m.llt (seedState px py ts).P_aug = Matrix.diagonal seedCholDiag := by
  rw [seedState_P_aug] at hchol ⊢
  exact cholesky_diagonal_unique seedCholDiag seedCholDiag_pos _ hchol

theorem predictColumn_vec (m : Libm K) (delta_t p q v y yd na ny : K) :
    predictColumn m delta_t ![p, q, v, y, yd, na, ny] =
      ![(if |yd| > m.EPS then p + v / yd * (m.sin (y + yd * delta_t) - m.sin y)
          else p + v * delta_t * m.cos y) + 0.5 * na * delta_t * delta_t * m.cos y,
        (if |yd| > m.EPS then q + v / yd * (m.cos y - m.cos (y + yd * delta_t))
          else q + v * delta_t * m.sin y) + 0.5 * na * delta_t * delta_t * m.sin y,
        v + na * delta_t,
        y + yd * delta_t + 0.5 * ny * delta_t * delta_t,
        yd + ny * delta_t] := rfl

end SeedScenario2

section SeedScenario3

variable {K : Type} [LinearOrderedField K] [FloorRing K]

theorem fin7_cases (p : Fin 7 → Prop) (h0 : p 0) (h1 : p 1) (h2 : p 2) (h3 : p 3) (h4 : p 4)
    (h5 : p 5) (h6 : p 6) (j : Fin 7) : p j := by
  fin_cases j
  · exact h0
  · exact h1
  · exact h2
  · exact h3
  · exact h4
  · exact h5
  · exact h6

theorem fin5_cases (p : Fin 5 → Prop) (h0 : p 0) (h1 : p 1) (h2 : p 2) (h3 : p 3) (h4 : p 4)
    (r : Fin 5) : p r := by
  fin_cases r
  · exact h0
  · exact h1
  · exact h2
  · exact h3
  · exact h4

/-- The sigma column `x_aug + t·A[:,j]` of `seedState` for `A = diag(1,1,1,1,1,3,1/2)`. -/
theorem seed_aug_entry (px py t : K) (ts : ℤ) (j k : Fin 7) :
    ((seedState px py ts).x_aug + t • colOf (Matrix.diagonal (seedCholDiag : Fin 7 → K)) j) k =
      (![px, py, 0, 0, 0, 0, 0] : Fin 7 → K) k +
        t * (if k = j then (![1, 1, 1, 1, 1, 3, 1 / 2] : Fin 7 → K) k else 0) := by
  have hx : (seedState px py ts).x_aug k = (![px, py, 0, 0, 0, 0, 0] : Fin 7 → K) k := by
    revert k
    refine fin7_cases _ rfl rfl rfl rfl rfl rfl rfl
  rw [Pi.add_apply, Pi.smul_apply, smul_eq_mul, hx]
  rfl

theorem vec7_at (a0 a1 a2 a3 a4 a5 a6 : K) :
    (![a0, a1, a2, a3, a4, a5, a6] : Fin 7 → K) 0 = a0 ∧
      (![a0, a1, a2, a3, a4, a5, a6] : Fin 7 → K) 1 = a1 ∧
      (![a0, a1, a2, a3, a4, a5, a6] : Fin 7 → K) 2 = a2 ∧
      (![a0, a1, a2, a3, a4, a5, a6] : Fin 7 → K) 3 = a3 ∧
      (![a0, a1, a2, a3, a4, a5, a6] : Fin 7 → K) 4 = a4 ∧
      (![a0, a1, a2, a3, a4, a5, a6] : Fin 7 → K) 5 = a5 ∧
      (![a0, a1, a2, a3, a4, a5, a6] : Fin 7 → K) 6 = a6 :=
  ⟨rfl, rfl, rfl, rfl, rfl, rfl, rfl⟩

theorem vec5_at (a0 a1 a2 a3 a4 : K) :
    (![a0, a1, a2, a3, a4] : Fin 5 → K) 0 = a0 ∧
      (![a0, a1, a2, a3, a4] : Fin 5 → K) 1 = a1 ∧
      (![a0, a1, a2, a3, a4] : Fin 5 → K) 2 = a2 ∧
      (![a0, a1, a2, a3, a4] : Fin 5 → K) 3 = a3 ∧
      (![a0, a1, a2, a3, a4] : Fin 5 → K) 4 = a4 :=
  ⟨rfl, rfl, rfl, rfl, rfl⟩

/-- The entries of `seedSpread`. -/
theorem seedSpread_entries :
    (∀ j, (seedSpread : Matrix (Fin 5) (Fin 7) K) 0 j =
        (![1, 0, 0.1, 0, 0, 0.015, 0] : Fin 7 → K) j) ∧
      (∀ j, (seedSpread : Matrix (Fin 5) (Fin 7) K) 1 j =
        (![0, 1, 0, 0, 0, 0, 0] : Fin 7 → K) j) ∧
      (∀ j, (seedSpread : Matrix (Fin 5) (Fin 7) K) 2 j =
        (![0, 0, 1, 0, 0, 0.3, 0] : Fin 7 → K) j) ∧
      (∀ j, (seedSpread : Matrix (Fin 5) (Fin 7) K) 3 j =
        (![0, 0, 0, 1, 0.1, 0, 0.0025] : Fin 7 → K) j) ∧
      (∀ j, (seedSpread : Matrix (Fin 5) (Fin 7) K) 4 j =
        (![0, 0, 0, 0, 1, 0, 0.05] : Fin 7 → K) j) :=
  ⟨fun _ => rfl, fun _ => rfl, fun _ => rfl, fun _ => rfl, fun _ => rfl⟩

/-- The columns of the predicted sigma matrix of `seedState` after `Prediction(0.1)`: the
sigma column `x_aug + t·A[:,j]` is predicted to `(px, py, 0, 0, 0) + t·seedSpread[:,j]`. -/
theorem seed_predictColumn (m : Libm K) (px py t : K) (ts : ℤ) (hE : 0 < m.EPS)
    (hc : m.cos 0 = 1) (hs : m.sin 0 = 0) (j : Fin 7) (r : Fin 5) :
    predictColumn m 0.1
        ((seedState px py ts).x_aug +
          t • colOf (Matrix.diagonal (seedCholDiag : Fin 7 → K)) j) r =
      (![px, py, 0, 0, 0] : Fin 5 → K) r + t * seedSpread r j := by
  have h00 : ¬ |(0 : K)| > m.EPS := by
    rw [abs_zero]
    exact not_lt.mpr hE.le
  have hE0 : ¬ m.EPS < 0 := not_lt.mpr hE.le
  revert r
  revert j
  refine fin7_cases _ ?_ ?_ ?_ ?_ ?_ ?_ ?_ <;> refine fin5_cases _ ?_ ?_ ?_ ?_ ?_
  all_goals
    first
    | rw [(predictColumn_position m 0.1 _).1]
    | rw [(predictColumn_position m 0.1 _).2]
    | rw [predictColumn_two]
    | rw [predictColumn_three]
    | rw [predictColumn_four]
  all_goals
    simp only [seed_aug_entry, ctrvTurn, ctrvStraight, seedSpread_entries.1,
      seedSpread_entries.2.1, seedSpread_entries.2.2.1, seedSpread_entries.2.2.2.1,
      seedSpread_entries.2.2.2.2, (vec7_at _ _ _ _ _ _ _).1, (vec7_at _ _ _ _ _ _ _).2.1,
      (vec7_at _ _ _ _ _ _ _).2.2.1, (vec7_at _ _ _ _ _ _ _).2.2.2.1,
      (vec7_at _ _ _ _ _ _ _).2.2.2.2.1, (vec7_at _ _ _ _ _ _ _).2.2.2.2.2.1,
      (vec7_at _ _ _ _ _ _ _).2.2.2.2.2.2, (vec5_at _ _ _ _ _).1, (vec5_at _ _ _ _ _).2.1,
      (vec5_at _ _ _ _ _).2.2.1, (vec5_at _ _ _ _ _).2.2.2.1, (vec5_at _ _ _ _ _).2.2.2.2]
  all_goals
    first
    | (simp [h00, hE0, hc, hs]; done)
    | (simp [h00, hE0, hc, hs]; ring)

end SeedScenario3

section SeedScenario4

variable {K : Type} [LinearOrderedField K] [FloorRing K]

/-- The state left by `Prediction` satisfies the entry conditions of the laser update: `x_`
is the weighted mean of the predicted sigma columns and `P_` the weighted sum of the outer
products of their yaw-normalized deviations. -/
theorem Prediction_entry (m : Libm K) (self : UKF K) (delta_t : K) :
    (self.Prediction m delta_t).x_ =
        ∑ i, (self.Prediction m delta_t).weights_ i •
          colOf (self.Prediction m delta_t).Xsig_pred_ i ∧
      (self.Prediction m delta_t).P_ =
        ∑ i, (self.Prediction m delta_t).weights_ i •
          Matrix.vecMulVec
            (normalizeAt m 3 (colOf (self.Prediction m delta_t).Xsig_pred_ i -
              (self.Prediction m delta_t).x_))
            (normalizeAt m 3 (colOf (self.Prediction m delta_t).Xsig_pred_ i -
              (self.Prediction m delta_t).x_)) := by
  constructor
  · simp only [UKF.Prediction, UKF.PredictMeanAndCovariance, sumLoop_eq, zero_add]
  · simp only [UKF.Prediction, UKF.PredictMeanAndCovariance, sumLoop_eq, zero_add]

theorem seedState_Configured (px py : K) (ts : ℤ) : (seedState px py ts).Configured :=
  ctor_Configured zeroMem

/-- The predicted sigma matrix of `seedState` after `Prediction(0.1)`: centre column
`(px, py, 0, 0, 0)` and pairs `(px, py, 0, 0, 0) ± sqrt(3)·seedSpread[:,j]`. -/
theorem seed_Xsig_pred (m : Libm K) (px py : K) (ts : ℤ) (hE : 0 < m.EPS)
    (hc : m.cos 0 = 1) (hs : m.sin 0 = 0)
    (hchol : IsCholeskyFactor (seedState px py ts).P_aug (m.llt (seedState px py ts).P_aug))
    (r : Fin 5) :
    ((seedState px py ts).Prediction m 0.1).Xsig_pred_ r 0 = (![px, py, 0, 0, 0] : Fin 5 → K) r ∧
      (∀ j, ((seedState px py ts).Prediction m 0.1).Xsig_pred_ r (plusCol j) =
        (![px, py, 0, 0, 0] : Fin 5 → K) r + m.sqrt 3 * seedSpread r j) ∧
      (∀ j, ((seedState px py ts).Prediction m 0.1).Xsig_pred_ r (minusCol j) =
        (![px, py, 0, 0, 0] : Fin 5 → K) r - m.sqrt 3 * seedSpread r j) := by
  have hl := seedState_llt m px py ts hchol
  have h3 := (seedState_Configured px py ts).lambda_add
  refine ⟨?_, fun j => ?_, fun j => ?_⟩
  · show predictColumn m 0.1 (colOf ((seedState px py ts).AugmentSigmaPoints m).Xsig_aug_ 0) r = _
    rw [AugmentSigmaPoints_col_zero]
    have h := seed_predictColumn m px py 0 ts hE hc hs 0 r
    rw [zero_smul, add_zero, zero_mul, add_zero] at h
    exact h
  · show predictColumn m 0.1
      (colOf ((seedState px py ts).AugmentSigmaPoints m).Xsig_aug_ (plusCol j)) r = _
    rw [AugmentSigmaPoints_col_plus, hl, h3]
    exact seed_predictColumn m px py (m.sqrt 3) ts hE hc hs j r
  · show predictColumn m 0.1
      (colOf ((seedState px py ts).AugmentSigmaPoints m).Xsig_aug_ (minusCol j)) r = _
    rw [AugmentSigmaPoints_col_minus, hl, h3, sub_eq_add_neg, ← neg_smul]
    rw [seed_predictColumn m px py (-m.sqrt 3) ts hE hc hs j r]
    ring

/-- The predicted mean of `seedState` after `Prediction(0.1)` is `(px, py, 0, 0, 0)`. -/
theorem seed_x_pred (m : Libm K) (px py : K) (ts : ℤ) (hE : 0 < m.EPS)
    (hc : m.cos 0 = 1) (hs : m.sin 0 = 0)
    (hchol : IsCholeskyFactor (seedState px py ts).P_aug (m.llt (seedState px py ts).P_aug)) :
    ((seedState px py ts).Prediction m 0.1).x_ = ![px, py, 0, 0, 0] := by
  ext r
  rw [(Prediction_entry m _ _).1, Finset.sum_apply]
  simp only [Pi.smul_apply, smul_eq_mul]
  obtain ⟨h0, hp, hm⟩ := seed_Xsig_pred m px py ts hE hc hs hchol r
  exact (seedState_Configured px py ts).weighted_mean_symm
    (fun i => colOf ((seedState px py ts).Prediction m 0.1).Xsig_pred_ i r) _
    (fun j => m.sqrt 3 * seedSpread r j) h0 hp hm

end SeedScenario4

section SeedScenario5

variable {K : Type} [LinearOrderedField K] [FloorRing K]

theorem normalizeAt_of_mem {n : ℕ} (m : Libm K) (k : Fin n) (v : Fin n → K)
    (h1 : -m.M_PI ≤ v k) (h2 : v k ≤ m.M_PI) : normalizeAt m k v = v := by
  rw [normalizeAt, normalizeAngle_of_mem _ _ _ h1 h2, Function.update_eq_self]

theorem seedSpread_yaw_bounds (j : Fin 7) :
    0 ≤ (seedSpread : Matrix (Fin 5) (Fin 7) K) 3 j ∧
      (seedSpread : Matrix (Fin 5) (Fin 7) K) 3 j ≤ 1 := by
  revert j
  refine fin7_cases _ ?_ ?_ ?_ ?_ ?_ ?_ ?_
  all_goals
    simp only [seedSpread_entries.2.2.2.1, (vec7_at _ _ _ _ _ _ _).1,
      (vec7_at _ _ _ _ _ _ _).2.1, (vec7_at _ _ _ _ _ _ _).2.2.1,
      (vec7_at _ _ _ _ _ _ _).2.2.2.1, (vec7_at _ _ _ _ _ _ _).2.2.2.2.1,
      (vec7_at _ _ _ _ _ _ _).2.2.2.2.2.1, (vec7_at _ _ _ _ _ _ _).2.2.2.2.2.2]
    norm_num

/-- The yaw-normalized deviations of the predicted sigma columns of `seedState` from the
predicted mean: 0 for the centre column and `± sqrt(3)·seedSpread[:,j]` for the pairs (no
yaw deviation leaves `[−π, π]`). -/
theorem seed_deviations (m : Libm K) (px py : K) (ts : ℤ) (hE : 0 < m.EPS)
    (hpi : 2 ≤ m.M_PI) (hsq : m.sqrt 3 * m.sqrt 3 = 3) (hc : m.cos 0 = 1) (hs : m.sin 0 = 0)
    (hchol : IsCholeskyFactor (seedState px py ts).P_aug (m.llt (seedState px py ts).P_aug)) :
    normalizeAt m 3 (colOf ((seedState px py ts).Prediction m 0.1).Xsig_pred_ 0 -
        ((seedState px py ts).Prediction m 0.1).x_) = 0 ∧
      (∀ j, normalizeAt m 3
          (colOf ((seedState px py ts).Prediction m 0.1).Xsig_pred_ (plusCol j) -
            ((seedState px py ts).Prediction m 0.1).x_) =
        fun r => m.sqrt 3 * seedSpread r j) ∧
      (∀ j, normalizeAt m 3
          (colOf ((seedState px py ts).Prediction m 0.1).Xsig_pred_ (minusCol j) -
            ((seedState px py ts).Prediction m 0.1).x_) =
        fun r => -(m.sqrt 3 * seedSpread r j)) := by
  have hx := seed_x_pred m px py ts hE hc hs hchol
  have hX := seed_Xsig_pred m px py ts hE hc hs hchol
  have hs2 : -2 ≤ m.sqrt 3 ∧ m.sqrt 3 ≤ 2 := by
    constructor <;> nlinarith [mul_self_nonneg (m.sqrt 3 + 2), mul_self_nonneg (m.sqrt 3 - 2)]
  have hbound : ∀ j, -m.M_PI ≤ m.sqrt 3 * seedSpread 3 j ∧
      m.sqrt 3 * seedSpread 3 j ≤ m.M_PI := by
    intro j
    obtain ⟨h0, h1⟩ := seedSpread_yaw_bounds (K := K) j
    constructor <;> nlinarith [hs2.1, hs2.2]
  have e0 : colOf ((seedState px py ts).Prediction m 0.1).Xsig_pred_ 0 -
      ((seedState px py ts).Prediction m 0.1).x_ = 0 := by
    ext r
    rw [hx]
    show ((seedState px py ts).Prediction m 0.1).Xsig_pred_ r 0 - _ = 0
    rw [(hX r).1, sub_self]
  have ep : ∀ j, colOf ((seedState px py ts).Prediction m 0.1).Xsig_pred_ (plusCol j) -
      ((seedState px py ts).Prediction m 0.1).x_ = fun r => m.sqrt 3 * seedSpread r j := by
    intro j
    ext r
    rw [hx]
    show ((seedState px py ts).Prediction m 0.1).Xsig_pred_ r (plusCol j) - _ = _
    rw [(hX r).2.1 j, add_sub_cancel_left]
  have em : ∀ j, colOf ((seedState px py ts).Prediction m 0.1).Xsig_pred_ (minusCol j) -
      ((seedState px py ts).Prediction m 0.1).x_ =
      fun r => -(m.sqrt 3 * seedSpread r j) := by
    intro j
    ext r
    rw [hx]
    show ((seedState px py ts).Prediction m 0.1).Xsig_pred_ r (minusCol j) - _ = _
    rw [(hX r).2.2 j, sub_sub_cancel_left]
  refine ⟨?_, fun j => ?_, fun j => ?_⟩
  · rw [e0]
    exact normalizeAt_of_mem m 3 0 (by simp [m.M_PI_pos.le]) (by simp [m.M_PI_pos.le])
  · rw [ep j]
    exact normalizeAt_of_mem m 3 _ (hbound j).1 (hbound j).2
  · rw [em j]
    refine normalizeAt_of_mem m 3 _ ?_ ?_
    · show -m.M_PI ≤ -(m.sqrt 3 * seedSpread 3 j)
      linarith [(hbound j).2]
    · show -(m.sqrt 3 * seedSpread 3 j) ≤ m.M_PI
      linarith [(hbound j).1]

/-- The predicted covariance of `seedState` after `Prediction(0.1)` is
`seedSpread · seedSpreadᵀ`. -/
theorem seed_P_pred (m : Libm K) (px py : K) (ts : ℤ) (hE : 0 < m.EPS)
    (hpi : 2 ≤ m.M_PI) (hsq : m.sqrt 3 * m.sqrt 3 = 3) (hc : m.cos 0 = 1) (hs : m.sin 0 = 0)
    (hchol : IsCholeskyFactor (seedState px py ts).P_aug (m.llt (seedState px py ts).P_aug))
    (r r' : Fin 5) :
    ((seedState px py ts).Prediction m 0.1).P_ r r' =
      ∑ j, seedSpread r j * seedSpread r' j := by
  obtain ⟨h0, hp, hm⟩ := seed_deviations m px py ts hE hpi hsq hc hs hchol
  rw [(Prediction_entry m _ _).2]
  have hw := (seedState_Configured px py ts).weighted_sum (fun i =>
    Matrix.vecMulVec
      (normalizeAt m 3 (colOf ((seedState px py ts).Prediction m 0.1).Xsig_pred_ i -
        ((seedState px py ts).Prediction m 0.1).x_))
      (normalizeAt m 3 (colOf ((seedState px py ts).Prediction m 0.1).Xsig_pred_ i -
        ((seedState px py ts).Prediction m 0.1).x_)))
  have hw' : ∑ i, ((seedState px py ts).Prediction m 0.1).weights_ i •
      Matrix.vecMulVec
        (normalizeAt m 3 (colOf ((seedState px py ts).Prediction m 0.1).Xsig_pred_ i -
          ((seedState px py ts).Prediction m 0.1).x_))
        (normalizeAt m 3 (colOf ((seedState px py ts).Prediction m 0.1).Xsig_pred_ i -
          ((seedState px py ts).Prediction m 0.1).x_)) = _ := hw
  rw [hw']
  simp only [h0, hp, hm, Matrix.add_apply, Matrix.smul_apply, Matrix.sum_apply,
    Matrix.vecMulVec_apply, Pi.zero_apply, mul_zero, smul_eq_mul, zero_add]
  have h2 : ∀ j : Fin 7,
      m.sqrt 3 * seedSpread r j * (m.sqrt 3 * seedSpread r' j) +
        -(m.sqrt 3 * seedSpread r j) * -(m.sqrt 3 * seedSpread r' j) =
      6 * (seedSpread r j * seedSpread r' j) := by
    intro j
    have e : m.sqrt 3 * seedSpread r j * (m.sqrt 3 * seedSpread r' j) =
        m.sqrt 3 * m.sqrt 3 * (seedSpread r j * seedSpread r' j) := by ring
    rw [neg_mul_neg, e, hsq]
    ring
  simp only [h2, ← Finset.mul_sum]
  ring

end SeedScenario5

section SeedScenario6

variable {K : Type} [LinearOrderedField K] [FloorRing K]

/-- A first laser package `(px, py)` at `ts` leaves the constructed filter in `seedState`. -/
theorem seed_laser (m : Libm K) (px py : K) (ts : ℤ) :
    (UKF.ctor (zeroMem : UKF K)).ProcessMeasurement m (.LASER ts ![px, py]) =
      seedState px py ts := by
  have hP := initP_eq_one (K := K)
  have hi : (UKF.ctor (zeroMem : UKF K)).is_initialized_ = false := rfl
  simp only [UKF.ProcessMeasurement, hi, Bool.not_false, if_true, hP,
    MeasurementPackage.timestamp_]
  rfl

/-- The augmented covariance of `seedState` has the Cholesky factor
`diag(1, 1, 1, 1, 1, 3, 1/2)`. -/
theorem seedState_cholesky (px py : K) (ts : ℤ) :
    IsCholeskyFactor (seedState px py ts).P_aug (Matrix.diagonal seedCholDiag) := by
  rw [seedState_P_aug]
  refine ⟨fun i j hij => Matrix.diagonal_apply_ne _ (ne_of_lt hij), fun i => ?_, ?_⟩
  · rw [Matrix.diagonal_apply_eq]
    exact seedCholDiag_pos i
  · rw [Matrix.diagonal_transpose, Matrix.diagonal_mul_diagonal]

/-- The entries of the predicted covariance of `seedState` that the laser update of the
position and of the yaw reads. -/
theorem seed_P_values (m : Libm K) (px py : K) (ts : ℤ) (hE : 0 < m.EPS)
    (hpi : 2 ≤ m.M_PI) (hsq : m.sqrt 3 * m.sqrt 3 = 3) (hc : m.cos 0 = 1) (hs : m.sin 0 = 0)
    (hchol : IsCholeskyFactor (seedState px py ts).P_aug (m.llt (seedState px py ts).P_aug)) :
    ((seedState px py ts).Prediction m 0.1).P_ 0 0 = 1.010225 ∧
      ((seedState px py ts).Prediction m 0.1).P_ 0 1 = 0 ∧
      ((seedState px py ts).Prediction m 0.1).P_ 1 0 = 0 ∧
      ((seedState px py ts).Prediction m 0.1).P_ 1 1 = 1 ∧
      ((seedState px py ts).Prediction m 0.1).P_ 3 0 = 0 ∧
      ((seedState px py ts).Prediction m 0.1).P_ 3 1 = 0 := by
  have hP := seed_P_pred m px py ts hE hpi hsq hc hs hchol
  refine ⟨?_, ?_, ?_, ?_, ?_, ?_⟩
  all_goals
    rw [hP, Fin.sum_univ_seven]
    simp only [seedSpread_entries.1, seedSpread_entries.2.1, seedSpread_entries.2.2.2.1,
      (vec7_at _ _ _ _ _ _ _).1, (vec7_at _ _ _ _ _ _ _).2.1, (vec7_at _ _ _ _ _ _ _).2.2.1,
      (vec7_at _ _ _ _ _ _ _).2.2.2.1, (vec7_at _ _ _ _ _ _ _).2.2.2.2.1,
      (vec7_at _ _ _ _ _ _ _).2.2.2.2.2.1, (vec7_at _ _ _ _ _ _ _).2.2.2.2.2.2]
    norm_num

end SeedScenario6

section SeedScenario7

variable {K : Type} [LinearOrderedField K] [FloorRing K]

theorem fin2_cases (p : Fin 2 → Prop) (h0 : p 0) (h1 : p 1) (a : Fin 2) : p a := by
  fin_cases a
  · exact h0
  · exact h1

/-- The innovation covariance of the laser update after `Prediction(0.1)` from `seedState`
is `diag(1.010225 + 0.0225, 1 + 0.0225)`. -/
theorem seed_S (m : Libm K) (px py : K) (ts : ℤ) (hE : 0 < m.EPS)
    (hpi : 2 ≤ m.M_PI) (hsq : m.sqrt 3 * m.sqrt 3 = 3) (hc : m.cos 0 = 1) (hs : m.sin 0 = 0)
    (hchol : IsCholeskyFactor (seedState px py ts).P_aug (m.llt (seedState px py ts).P_aug)) :
    laserH K * ((seedState px py ts).Prediction m 0.1).P_ * (laserH K).transpose +
        ((seedState px py ts).Prediction m 0.1).R_laser_ =
      Matrix.diagonal ![1.032725, 1.0225] := by
  obtain ⟨h00, h01, h10, h11, -, -⟩ := seed_P_values m px py ts hE hpi hsq hc hs hchol
  have hR : ((seedState px py ts).Prediction m 0.1).R_laser_ =
      !![0.15 * 0.15, 0; 0, 0.15 * 0.15] := rfl
  ext a b
  rw [Matrix.add_apply, laserH_mul_mul_transpose_apply, hR]
  revert b
  revert a
  refine fin2_cases _ ?_ ?_ <;> refine fin2_cases _ ?_ ?_
  · show ((seedState px py ts).Prediction m 0.1).P_ 0 0 + 0.15 * 0.15 = 1.032725
    rw [h00]
    norm_num
  · show ((seedState px py ts).Prediction m 0.1).P_ 0 1 + 0 = 0
    rw [h01, add_zero]
  · show ((seedState px py ts).Prediction m 0.1).P_ 1 0 + 0 = 0
    rw [h10, add_zero]
  · show ((seedState px py ts).Prediction m 0.1).P_ 1 1 + 0.15 * 0.15 = 1.0225
    rw [h11]
    norm_num

/-- A left inverse of `diag(a, b)` with `a, b ≠ 0` is `diag(1/a, 1/b)`. -/
theorem left_inverse_diagonal (a b : K) (ha : a ≠ 0) (hb : b ≠ 0)
    (Si : Matrix (Fin 2) (Fin 2) K) (h : Si * Matrix.diagonal ![a, b] = 1) :
    Si = Matrix.diagonal ![1 / a, 1 / b] := by
  have h1 : Matrix.diagonal ![a, b] * Matrix.diagonal ![1 / a, 1 / b] =
      (1 : Matrix (Fin 2) (Fin 2) K) := by
    rw [Matrix.diagonal_mul_diagonal, ← Matrix.diagonal_one]
    refine congrArg Matrix.diagonal (funext fun i => ?_)
    revert i
    refine fin2_cases _ ?_ ?_
    · show a * (1 / a) = 1
      field_simp
    · show b * (1 / b) = 1
      field_simp
  calc Si = Si * (Matrix.diagonal ![a, b] * Matrix.diagonal ![1 / a, 1 / b]) := by
        rw [h1, Matrix.mul_one]
    _ = Si * Matrix.diagonal ![a, b] * Matrix.diagonal ![1 / a, 1 / b] := by
        rw [Matrix.mul_assoc]
    _ = Matrix.diagonal ![1 / a, 1 / b] := by rw [h, Matrix.one_mul]

/-- The state written by the laser update after `Prediction(0.1)` from `seedState`, in the
position and yaw components. -/
theorem seed_update (m : Libm K) (px py : K) (ts : ℤ) (z : Fin 2 → K) (hE : 0 < m.EPS)
    (hpi : 2 ≤ m.M_PI) (hsq : m.sqrt 3 * m.sqrt 3 = 3) (hc : m.cos 0 = 1) (hs : m.sin 0 = 0)
    (hchol : IsCholeskyFactor (seedState px py ts).P_aug (m.llt (seedState px py ts).P_aug))
    (hinv : ∀ M : Matrix (Fin 2) (Fin 2) K, M.det ≠ 0 → m.inverse 2 M * M = 1) :
    (((seedState px py ts).Prediction m 0.1).UpdateLidar m z).x_ 0 =
        px + 1.010225 / 1.032725 * (z 0 - px) ∧
      (((seedState px py ts).Prediction m 0.1).UpdateLidar m z).x_ 1 =
        py + 1 / 1.0225 * (z 1 - py) ∧
      (((seedState px py ts).Prediction m 0.1).UpdateLidar m z).x_ 3 = 0 := by
  obtain ⟨hx, hP⟩ := Prediction_entry m (seedState px py ts) 0.1
  have hT := lidar_Tc_eq m _ hx hP
  have hSe := lidar_S_eq m _ hx hP
  have hz := lidar_z_pred_eq _ hx
  have hxp := seed_x_pred m px py ts hE hc hs hchol
  have hSd := seed_S m px py ts hE hpi hsq hc hs hchol
  obtain ⟨h00, h01, h10, h11, h30, h31⟩ := seed_P_values m px py ts hE hpi hsq hc hs hchol
  have hdet : (Matrix.diagonal ![(1.032725 : K), 1.0225]).det ≠ 0 := by
    rw [Matrix.det_diagonal, Fin.prod_univ_two]
    show (1.032725 : K) * 1.0225 ≠ 0
    norm_num
  have hSi := left_inverse_diagonal (1.032725 : K) 1.0225 (by norm_num) (by norm_num) _
    (hinv _ hdet)
  have hK : ∀ r : Fin 5,
      (((seedState px py ts).Prediction m 0.1).x_ +
        (((seedState px py ts).Prediction m 0.1).lidar_Tc m *
            m.inverse 2 ((seedState px py ts).Prediction m 0.1).lidar_S).mulVec
          (z - ((seedState px py ts).Prediction m 0.1).lidar_z_pred)) r =
      (![px, py, 0, 0, 0] : Fin 5 → K) r +
        (((seedState px py ts).Prediction m 0.1).P_ r 0 * (1 / 1.032725) * (z 0 - px) +
          ((seedState px py ts).Prediction m 0.1).P_ r 1 * (1 / 1.0225) * (z 1 - py)) := by
    intro r
    rw [hT, hSe, hSd, hSi, hz, hxp, Pi.add_apply, Matrix.mulVec, Matrix.dotProduct,
      Fin.sum_univ_two, Matrix.mul_diagonal, Matrix.mul_diagonal,
      mul_laserH_transpose_apply, mul_laserH_transpose_apply]
    rfl
  have hupd := (UpdateLidar_eq m ((seedState px py ts).Prediction m 0.1) z).1
  refine ⟨?_, ?_, ?_⟩
  · rw [hupd, normalizeAt_of_ne m 3 0 _ (by decide), hK 0, h00, h01]
    show px + _ = _
    ring
  · rw [hupd, normalizeAt_of_ne m 3 1 _ (by decide), hK 1, h10, h11]
    show py + _ = _
    ring
  · rw [hupd, normalizeAt_same, hK 3, h30, h31]
    show normalizeAngle m.M_PI m.M_PI_pos (0 + _) = 0
    rw [zero_mul, zero_mul, zero_mul, zero_mul, add_zero, add_zero]
    exact normalizeAngle_of_mem _ _ 0 (by linarith [m.M_PI_pos]) m.M_PI_pos.le

end SeedScenario7

section SeedScenario8

variable {K : Type} [LinearOrderedField K] [FloorRing K]

/-- Method `Prediction` overwrites both sigma matrices before reading them, so the state
it produces does not depend on their previous content. -/
theorem Prediction_sigma_indep (m : Libm K) (self : UKF K) (dt : K)
    (A : Matrix (Fin 7) (Fin 15) K) (B : Matrix (Fin 5) (Fin 15) K) :
    ({ self with Xsig_aug_ := A, Xsig_pred_ := B } : UKF K).Prediction m dt =
      self.Prediction m dt := rfl

/-- A first laser package on the constructed filter, whatever the memory `mem` the
constructor was given: `seedState` up to the two sigma matrices. -/
theorem seed_laser_mem (m : Libm K) (mem : UKF K) (px py : K) (ts : ℤ) :
    (UKF.ctor mem).ProcessMeasurement m (.LASER ts ![px, py]) =
      { seedState px py ts with Xsig_aug_ := mem.Xsig_aug_, Xsig_pred_ := mem.Xsig_pred_ } := by
  have hP := initP_eq_one (K := K)
  have hi : (UKF.ctor mem).is_initialized_ = false := rfl
  simp only [UKF.ProcessMeasurement, hi, Bool.not_false, if_true, hP,
    MeasurementPackage.timestamp_]
  rfl

/-- Two laser packages `(px, py)` at `ts` and `z` at `ts2` on the constructed filter:
the second one runs `Prediction` over `(ts2 − ts) / 1000000` and `UpdateLidar` from
`seedState`. -/
theorem two_laser_eq (m : Libm K) (mem : UKF K) (px py : K) (ts ts2 : ℤ) (z : Fin 2 → K) :
    ((UKF.ctor mem).ProcessMeasurement m (.LASER ts ![px, py])).ProcessMeasurement m
        (.LASER ts2 z) =
      ((seedState px py ts2).Prediction m (((ts2 - ts : ℤ) : K) / 1000000.0)).UpdateLidar m z := by
  rw [seed_laser_mem, ProcessMeasurement_laser m _ ts2 z rfl rfl]
  rfl

end SeedScenario8

section TwoLaser

variable {K : Type} [LinearOrderedField K] [FloorRing K]

/-- C14: scenario S3. On the constructed filter (whatever memory `mem` the constructor was
given), after the laser package `ts = 1000000`, raw `(1.0, 2.0)` and then the laser package
`ts = 1100000`, raw `(1.1, 2.05)`, the time step computed by the second call is `0.1`, and
the state satisfies `|x_[0] − 1.1| ≤ 0.05`, `|x_[1] − 2.05| ≤ 0.05` and
`x_[3] ∈ (−π, π]`; exactly, `x_[0] = 1 + 1.010225/1.032725 · 0.1`,
`x_[1] = 2 + 0.05/1.0225` and `x_[3] = 0`. The library is assumed to satisfy: `M_PI ≥ 2`,
`sqrt(3)² = 3`, `cos 0 = 1`, `sin 0 = 0`, `llt` returns a Cholesky factor whenever one
exists, and `inverse` returns a left inverse of a 2×2 matrix with nonzero determinant. The
threshold only needs `0 < EPS`. -/
theorem two_laser_step (m : Libm K) (mem : UKF K) (hE : 0 < m.EPS) (hpi : 2 ≤ m.M_PI)
    (hsq : m.sqrt 3 * m.sqrt 3 = 3) (hc : m.cos 0 = 1) (hs : m.sin 0 = 0)
    (hllt : ∀ A : Matrix (Fin 7) (Fin 7) K,
      (∃ L, IsCholeskyFactor A L) → IsCholeskyFactor A (m.llt A))
    (hinv : ∀ M : Matrix (Fin 2) (Fin 2) K, M.det ≠ 0 → m.inverse 2 M * M = 1) :
    (((MeasurementPackage.LASER 1100000 ![1.1, 2.05] : MeasurementPackage K).timestamp_ -
        ((UKF.ctor mem).ProcessMeasurement m (.LASER 1000000 ![1.0, 2.0])).time_us_ : ℤ) : K) /
          1000000.0 = 0.1 ∧
      |(((UKF.ctor mem).ProcessMeasurement m (.LASER 1000000 ![1.0, 2.0])).ProcessMeasurement m
          (.LASER 1100000 ![1.1, 2.05])).x_ 0 - 1.1| ≤ 0.05 ∧
      |(((UKF.ctor mem).ProcessMeasurement m (.LASER 1000000 ![1.0, 2.0])).ProcessMeasurement m
          (.LASER 1100000 ![1.1, 2.05])).x_ 1 - 2.05| ≤ 0.05 ∧
      (((UKF.ctor mem).ProcessMeasurement m (.LASER 1000000 ![1.0, 2.0])).ProcessMeasurement m
          (.LASER 1100000 ![1.1, 2.05])).x_ 3 ∈ Set.Ioc (-m.M_PI) m.M_PI ∧
      (((UKF.ctor mem).ProcessMeasurement m (.LASER 1000000 ![1.0, 2.0])).ProcessMeasurement m
          (.LASER 1100000 ![1.1, 2.05])).x_ 0 = 1 + 1.010225 / 1.032725 * 0.1 ∧
      (((UKF.ctor mem).ProcessMeasurement m (.LASER 1000000 ![1.0, 2.0])).ProcessMeasurement m
          (.LASER 1100000 ![1.1, 2.05])).x_ 1 = 2 + 0.05 / 1.0225 ∧
      (((UKF.ctor mem).ProcessMeasurement m (.LASER 1000000 ![1.0, 2.0])).ProcessMeasurement m
          (.LASER 1100000 ![1.1, 2.05])).x_ 3 = 0 := by
  have hdt : (((1100000 - 1000000 : ℤ) : K)) / 1000000.0 = 0.1 := by
    push_cast
    norm_num
  have hchol := hllt _ ⟨_, seedState_cholesky (K := K) 1.0 2.0 1100000⟩
  obtain ⟨h0, h1, h3⟩ := seed_update m 1.0 2.0 1100000 ![1.1, 2.05] hE hpi hsq hc hs hchol hinv
  have e0 : (![1.1, 2.05] : Fin 2 → K) 0 = 1.1 := rfl
  have e1 : (![1.1, 2.05] : Fin 2 → K) 1 = 2.05 := rfl
  rw [e0] at h0
  rw [e1] at h1
  have ht : ((UKF.ctor mem).ProcessMeasurement m (.LASER 1000000 ![1.0, 2.0])).time_us_ =
      1000000 := by
    rw [seed_laser_mem]
    rfl
  rw [two_laser_eq, hdt, h0, h1, h3, ht]
  refine ⟨hdt, ?_, ?_, ⟨by linarith [m.M_PI_pos], m.M_PI_pos.le⟩, by norm_num, by norm_num, rfl⟩
  · rw [abs_le]
    constructor <;> norm_num
  · rw [abs_le]
    constructor <;> norm_num

/-- C14, instance: the real numbers with `π`, the real square root, sine and cosine, a
choice of Cholesky factor and the matrix inverse. -/
theorem two_laser_step_witness :
    (0 : ℝ) < 1 / 1000 ∧
      |(((UKF.ctor (zeroMem : UKF ℝ)).ProcessMeasurement
          ⟨Real.pi, Real.pi_pos, 1 / 1000, Real.sqrt, Real.sin, Real.cos,
            fun y x => Complex.arg ⟨x, y⟩, fun A => Classical.epsilon (IsCholeskyFactor A),
            fun _ M => M⁻¹⟩
          (.LASER 1000000 ![1.0, 2.0])).ProcessMeasurement
          ⟨Real.pi, Real.pi_pos, 1 / 1000, Real.sqrt, Real.sin, Real.cos,
            fun y x => Complex.arg ⟨x, y⟩, fun A => Classical.epsilon (IsCholeskyFactor A),
            fun _ M => M⁻¹⟩
          (.LASER 1100000 ![1.1, 2.05])).x_ 0 - 1.1| ≤ 0.05 :=
  ⟨by norm_num,
    (two_laser_step
      (⟨Real.pi, Real.pi_pos, 1 / 1000, Real.sqrt, Real.sin, Real.cos,
        fun y x => Complex.arg ⟨x, y⟩, fun A => Classical.epsilon (IsCholeskyFactor A),
        fun _ M => M⁻¹⟩ : Libm ℝ)
      zeroMem (by norm_num) (by linarith [Real.pi_gt_three])
      (Real.mul_self_sqrt (by norm_num)) Real.cos_zero Real.sin_zero
      (fun _ h => Classical.epsilon_spec h)
      (fun M hM => Matrix.nonsing_inv_mul M (isUnit_iff_ne_zero.mpr hM))).2.1⟩

end TwoLaser

/-! ## C3: a radar update in the domain of its division -/

section SeedRadar

variable {K : Type} [LinearOrderedField K] [FloorRing K]

/-- Every column of a sigma matrix is the centre column, a `plusCol` or a `minusCol`. -/
theorem fin15_cases (p : Fin 15 → Prop) (h0 : p 0) (hp : ∀ j, p (plusCol j))
    (hm : ∀ j, p (minusCol j)) (i : Fin 15) : p i := by
  by_cases hi0 : i.val = 0
  · have : i = 0 := Fin.ext hi0
    rw [this]
    exact h0
  · by_cases hi7 : i.val ≤ 7
    · have : i = plusCol ⟨i.val - 1, by omega⟩ := by
        apply Fin.ext
        show i.val = i.val - 1 + 1
        omega
      rw [this]
      exact hp _
    · have : i = minusCol ⟨i.val - 8, by omega⟩ := by
        apply Fin.ext
        show i.val = i.val - 8 + 1 + 7
        omega
      rw [this]
      exact hm _

theorem seedSpread_px_bounds (j : Fin 7) :
    0 ≤ (seedSpread : Matrix (Fin 5) (Fin 7) K) 0 j ∧
      (seedSpread : Matrix (Fin 5) (Fin 7) K) 0 j ≤ 1 := by
  revert j
  refine fin7_cases _ ?_ ?_ ?_ ?_ ?_ ?_ ?_
  all_goals
    simp only [seedSpread_entries.1, (vec7_at _ _ _ _ _ _ _).1,
      (vec7_at _ _ _ _ _ _ _).2.1, (vec7_at _ _ _ _ _ _ _).2.2.1,
      (vec7_at _ _ _ _ _ _ _).2.2.2.1, (vec7_at _ _ _ _ _ _ _).2.2.2.2.1,
      (vec7_at _ _ _ _ _ _ _).2.2.2.2.2.1, (vec7_at _ _ _ _ _ _ _).2.2.2.2.2.2]
    norm_num

/-- After `Prediction(0.1)` from `seedState px py ts` with `px > 2`, every predicted sigma
column has `p_x ≥ px − 2 > 0`, so no divisor of the radar transform is zero. -/
theorem seed_radarDefined (m : Libm K) (px py : K) (ts : ℤ) (hE : 0 < m.EPS)
    (hsq : m.sqrt 3 * m.sqrt 3 = 3) (hc : m.cos 0 = 1) (hs : m.sin 0 = 0)
    (hchol : IsCholeskyFactor (seedState px py ts).P_aug (m.llt (seedState px py ts).P_aug))
    (hpos : ∀ x : K, 0 < x → m.sqrt x ≠ 0) (hpx : 2 < px) :
    ((seedState px py ts).Prediction m 0.1).radarDefined m := by
  have hX := (seed_Xsig_pred m px py ts hE hc hs hchol 0)
  have hs2 : -2 ≤ m.sqrt 3 ∧ m.sqrt 3 ≤ 2 := by
    constructor <;> nlinarith [mul_self_nonneg (m.sqrt 3 + 2), mul_self_nonneg (m.sqrt 3 - 2)]
  have e0 : (![px, py, 0, 0, 0] : Fin 5 → K) 0 = px := rfl
  rw [e0] at hX
  have key : ∀ i, 0 < ((seedState px py ts).Prediction m 0.1).Xsig_pred_ 0 i := by
    refine fin15_cases _ ?_ (fun j => ?_) (fun j => ?_)
    · rw [hX.1]
      linarith
    · rw [hX.2.1 j]
      obtain ⟨h0, h1⟩ := seedSpread_px_bounds (K := K) j
      nlinarith [hs2.1, hs2.2]
    · rw [hX.2.2 j]
      obtain ⟨h0, h1⟩ := seedSpread_px_bounds (K := K) j
      nlinarith [hs2.1, hs2.2]
  intro i
  refine hpos _ ?_
  show 0 < ((seedState px py ts).Prediction m 0.1).Xsig_pred_ 0 i *
      ((seedState px py ts).Prediction m 0.1).Xsig_pred_ 0 i +
    ((seedState px py ts).Prediction m 0.1).Xsig_pred_ 1 i *
      ((seedState px py ts).Prediction m 0.1).Xsig_pred_ 1 i
  have := key i
  nlinarith [mul_self_nonneg (((seedState px py ts).Prediction m 0.1).Xsig_pred_ 1 i),
    mul_pos this this]

end SeedRadar

/-- C3 (amended), instance: in `ℝ`, the filter left by a first laser package `(5, 5)` at
`ts = 0` (`seedState 5 5 0`) and a radar package at `ts = 100000`. Every predicted sigma
column has `p_x ≥ 3`, so the update is defined. -/
theorem yaw_after_update_mem_Icc_witness :
    (UKF.ctor (zeroMem : UKF ℝ)).ProcessMeasurement
        ⟨Real.pi, Real.pi_pos, 1 / 1000, Real.sqrt, Real.sin, Real.cos,
          fun y x => Complex.arg ⟨x, y⟩, fun A => Classical.epsilon (IsCholeskyFactor A),
          fun _ M => M⁻¹⟩
        (.LASER 0 ![5, 5]) = seedState 5 5 0 ∧
      ((seedState (5 : ℝ) 5 100000).Prediction
        ⟨Real.pi, Real.pi_pos, 1 / 1000, Real.sqrt, Real.sin, Real.cos,
          fun y x => Complex.arg ⟨x, y⟩, fun A => Classical.epsilon (IsCholeskyFactor A),
          fun _ M => M⁻¹⟩ 0.1).radarDefined
        ⟨Real.pi, Real.pi_pos, 1 / 1000, Real.sqrt, Real.sin, Real.cos,
          fun y x => Complex.arg ⟨x, y⟩, fun A => Classical.epsilon (IsCholeskyFactor A),
          fun _ M => M⁻¹⟩ ∧
      ((seedState (5 : ℝ) 5 0).ProcessMeasurement
        ⟨Real.pi, Real.pi_pos, 1 / 1000, Real.sqrt, Real.sin, Real.cos,
          fun y x => Complex.arg ⟨x, y⟩, fun A => Classical.epsilon (IsCholeskyFactor A),
          fun _ M => M⁻¹⟩
        (MeasurementPackage.RADAR 100000 ![5.0, 0.0, 2.0])).x_ 3 ∈
      Set.Icc (-Real.pi) Real.pi := by
  have hdef : ((seedState (5 : ℝ) 5 100000).Prediction
      (⟨Real.pi, Real.pi_pos, 1 / 1000, Real.sqrt, Real.sin, Real.cos,
        fun y x => Complex.arg ⟨x, y⟩, fun A => Classical.epsilon (IsCholeskyFactor A),
        fun _ M => M⁻¹⟩ : Libm ℝ) 0.1).radarDefined
      (⟨Real.pi, Real.pi_pos, 1 / 1000, Real.sqrt, Real.sin, Real.cos,
        fun y x => Complex.arg ⟨x, y⟩, fun A => Classical.epsilon (IsCholeskyFactor A),
        fun _ M => M⁻¹⟩ : Libm ℝ) :=
    seed_radarDefined
      (⟨Real.pi, Real.pi_pos, 1 / 1000, Real.sqrt, Real.sin, Real.cos,
        fun y x => Complex.arg ⟨x, y⟩, fun A => Classical.epsilon (IsCholeskyFactor A),
        fun _ M => M⁻¹⟩ : Libm ℝ)
      5 5 100000 (by norm_num) (Real.mul_self_sqrt (by norm_num)) Real.cos_zero Real.sin_zero
      (Classical.epsilon_spec ⟨_, seedState_cholesky (5 : ℝ) 5 100000⟩)
      (fun x hx => (Real.sqrt_pos.mpr hx).ne.symm) (by norm_num)
  have hdt : (((100000 - (seedState (5 : ℝ) 5 0).time_us_ : ℤ) : ℝ)) / 1000000.0 = 0.1 := by
    show (((100000 - 0 : ℤ) : ℝ)) / 1000000.0 = 0.1
    push_cast
    norm_num
  refine ⟨seed_laser _ 5 5 0, hdef, ?_⟩
  exact (yaw_after_update_mem_Icc
    (⟨Real.pi, Real.pi_pos, 1 / 1000, Real.sqrt, Real.sin, Real.cos,
      fun y x => Complex.arg ⟨x, y⟩, fun A => Classical.epsilon (IsCholeskyFactor A),
      fun _ M => M⁻¹⟩ : Libm ℝ)
    (seedState (5 : ℝ) 5 0) (MeasurementPackage.RADAR 100000 ![5.0, 0.0, 2.0]) rfl rfl rfl
    (by norm_num)
    (fun ts z h => by
      have hts : ts = 100000 := by
        injection h with h1 h2
        exact h1.symm
      subst hts
      have hst : ({ seedState (5 : ℝ) 5 0 with time_us_ := 100000 } : UKF ℝ) =
          seedState 5 5 100000 := rfl
      rw [hst, hdt]
      exact hdef)).2
